import Mathlib

/-!
# SentinelX hardening engine: scheduler, severity filter, audit, remediation, rollback

A shallow embedding of the rule engine of the repository
(`internal/dag/scheduler.go`, `cmd/app/main.go`, `internal/engine/executor.go`,
`internal/platform/lin_fs.go`, `internal/platform/win_reg.go`,
`internal/state/db.go`) and the properties proved about it.

Modelling conventions.

* A Go `string` is a sequence of bytes.  It is modelled by a Lean `String` whose
  characters stand for the bytes, so ASCII text is modelled by itself, `len` is
  `String.length` and slicing is `List.take` on the characters.
* A Go `map[string]T` is modelled by a function from keys; a map whose key set
  matters carries it separately.  Ranging over a map visits the keys in an
  order Go leaves unspecified: that order is a parameter (`mapOrder`).
* `interface{}` values decoded from JSON are modelled by `GoValue`.
* Functions of the Go standard library that the repository calls but does not
  define (`regexp.MatchString`, the Unicode case tables, `fmt` verbs) are
  fields of `GoLib`; the methods of a compiled regular expression are fields of
  `RegexpLib`.
* A fix or a rollback runs in a `World`: the rows of the journal, the state of
  the machine behind the platform adapter, and the record of the journal
  insertions and adapter calls made so far.
-/

namespace SentinelX

/-! ## Policy model (`internal/policy/types.go`) -/

/-- A JSON scalar held in an `interface{}` field: absent, a native integer, a
number decoded as float64 (the real number it denotes), or a string. -/
inductive GoValue where
  | null : GoValue
  | int (n : Int) : GoValue
  | float (q : Rat) : GoValue
  | str (s : String) : GoValue
  deriving DecidableEq, Repr, Inhabited

/-- The record `CheckAction`. -/
structure CheckAction where
  Cmd : String := ""
  Args : List String := []
  ExpectPattern : String := ""
  RegKey : String := ""
  RegValue : String := ""
  Expected : GoValue := GoValue.null
  FilePath : String := ""
  FileMode : String := ""
  deriving DecidableEq, Repr, Inhabited

/-- The record `Action`, used for remediation and rollback (the Go field `Type`
is `Type_` here). -/
structure Action where
  Type_ : String := ""
  Cmd : String := ""
  Args : List String := []
  RegKey : String := ""
  RegValue : String := ""
  Value : GoValue := GoValue.null
  FilePath : String := ""
  SearchRegex : String := ""
  ReplaceText : String := ""
  deriving DecidableEq, Repr, Inhabited

/-- The record `Rule` (the Go field `Type` is `Type_` here).  The default value of
every field is Go's zero value. -/
structure Rule where
  ID : String := ""
  Name : String := ""
  Description : String := ""
  Severity : String := ""
  Platform : String := ""
  Type_ : String := ""
  Tags : List String := []
  DependsOn : List String := []
  Check : CheckAction := {}
  Remediation : Action := {}
  Rollback : Action := {}
  deriving DecidableEq, Repr, Inhabited

/-- The record `Policy`. -/
structure Policy where
  Version : String := ""
  Rules : List Rule := []
  deriving DecidableEq, Repr, Inhabited

/-- Go's zero value of `Rule`, what `ruleMap[id]` yields for an absent key. -/
def zeroRule : Rule := {}

/-! ## Dependency scheduler (`internal/dag/scheduler.go`) -/

/-- Step 1 of `SortRules`: the loop that copies a rule into `uniqueRules`
unless its id is already in `seenIDs` (the first argument). -/
def dedupLoop : List String → List Rule → List Rule
  | _, [] => []
  | seenIDs, r :: rules =>
    if r.ID ∈ seenIDs then dedupLoop seenIDs rules
    else r :: dedupLoop (r.ID :: seenIDs) rules

/-- The list `uniqueRules` of `SortRules`. -/
def uniqueRules (rules : List Rule) : List Rule := dedupLoop [] rules

/-- The three maps `SortRules` builds in step 2. -/
structure Graph where
  graph : String → List String
  inDegree : String → Int
  ruleMap : String → Option Rule

/-- The maps as `make` leaves them: all empty. -/
def emptyGraph : Graph :=
  { graph := fun _ => [], inDegree := fun _ => 0, ruleMap := fun _ => none }

/-- The loop "Initialize": `ruleMap[r.ID] = r; inDegree[r.ID] = 0`. -/
def initMaps : List Rule → Graph → Graph
  | [], g => g
  | r :: rs, g =>
    initMaps rs { g with ruleMap := Function.update g.ruleMap r.ID (some r),
                         inDegree := Function.update g.inDegree r.ID 0 }

/-- The inner loop of "Populate Edges" for the rule with id `rid`, over its
`DependsOn`: a reference to an id absent from `ruleMap` is skipped, any other
appends `rid` to `graph[depID]` and increments `inDegree[rid]`. -/
def addEdges (rid : String) : List String → Graph → Graph
  | [], g => g
  | depID :: deps, g =>
    match g.ruleMap depID with
    | none => addEdges rid deps g
    | some _ =>
      addEdges rid deps
        { g with graph := Function.update g.graph depID (g.graph depID ++ [rid]),
                 inDegree := Function.update g.inDegree rid (g.inDegree rid + 1) }

/-- The outer loop of "Populate Edges". -/
def populateEdges : List Rule → Graph → Graph
  | [], g => g
  | r :: rs, g => populateEdges rs (addEdges r.ID r.DependsOn g)

/-- Step 2 of `SortRules` on `uniqueRules`. -/
def buildGraph (uniq : List Rule) : Graph :=
  populateEdges uniq (initMaps uniq emptyGraph)

/-- The innermost loop of Kahn's algorithm, over the children of one rule:
`inDegree[childID]--`, and a child whose count reaches zero joins `nextQueue`.
The state is `(inDegree, nextQueue)`. -/
def relaxChildren : List String → (String → Int) × List String → (String → Int) × List String
  | [], st => st
  | childID :: cs, (inDegree, nextQueue) =>
    let inDegree1 := Function.update inDegree childID (inDegree childID - 1)
    relaxChildren cs
      (inDegree1, if inDegree1 childID = 0 then nextQueue ++ [childID] else nextQueue)

/-- The state of one pass over `queue`. -/
structure LayerState where
  inDegree : String → Int
  currentLayer : List Rule
  nextQueue : List String
  processedCount : Nat

/-- The loop `for _, ruleID := range queue` of `SortRules`. -/
def processQueue (g : Graph) : List String → LayerState → LayerState
  | [], st => st
  | ruleID :: rest, st =>
    let res := relaxChildren (g.graph ruleID) (st.inDegree, st.nextQueue)
    processQueue g rest
      { inDegree := res.1,
        currentLayer := st.currentLayer ++ [(g.ruleMap ruleID).getD zeroRule],
        nextQueue := res.2,
        processedCount := st.processedCount + 1 }

/-- The loop `for len(queue) > 0` of `SortRules`, with a bound on the number of
iterations: `none` when the bound is reached with a queue still to process.
The result is `(layers, processedCount)`. -/
def kahnLoop (g : Graph) :
    Nat → List String → (String → Int) → List (List Rule) → Nat → Option (List (List Rule) × Nat)
  | _, [], _, layers, processedCount => some (layers, processedCount)
  | 0, _ :: _, _, _, _ => none
  | fuel + 1, ruleID :: rest, inDegree, layers, processedCount =>
    let st := processQueue g (ruleID :: rest)
      { inDegree := inDegree, currentLayer := [], nextQueue := [],
        processedCount := processedCount }
    kahnLoop g fuel st.nextQueue st.inDegree (layers ++ [st.currentLayer]) st.processedCount

/-- The error of `SortRules`: "circular dependency detected! Processed %d out
of %d rules". -/
inductive SortError where
  | circular (processed total : Nat) : SortError
  deriving DecidableEq, Repr

/-- The function `SortRules`.  `mapOrder` is the order in which
`for id, degree := range inDegree` visits the keys of `inDegree`, which are the
ids of `uniqueRules`.  The outer `Option` is `none` only if the iteration bound
of `kahnLoop` is hit (`SortRules_total` shows it never is). -/
def SortRules (mapOrder : List String) (rules : List Rule) :
    Option (Except SortError (List (List Rule))) :=
  let uniq := uniqueRules rules
  let g := buildGraph uniq
  let queue := mapOrder.filter (fun id => g.inDegree id = 0)
  match kahnLoop g (uniq.length + 1) queue g.inDegree [] 0 with
  | none => none
  | some (layers, processedCount) =>
    if processedCount ≠ uniq.length then
      some (Except.error (SortError.circular processedCount uniq.length))
    else some (Except.ok layers)

/-! ## Specification vocabulary for the scheduler -/

/-- The ids of a rule list, in order. -/
def ruleIDs (rs : List Rule) : List String := rs.map (fun r => r.ID)

/-- The references of `r.DependsOn` to ids present in `uniq`. -/
def presentDeps (uniq : List Rule) (r : Rule) : List String :=
  r.DependsOn.filter (fun d => d ∈ ruleIDs uniq)

/-- The present dependencies of the rules of `uniq` with id `x`. -/
def depsOf (uniq : List Rule) (x : String) : List String :=
  (uniq.filter (fun r => r.ID = x)).flatMap (presentDeps uniq)

/-- An edge `a → b` of the dependency graph of `uniq`: a rule with id `b` lists
`a` in `depends_on`, and `a` is the id of a rule of `uniq`. -/
def DependsEdge (uniq : List Rule) (a b : String) : Prop :=
  ∃ r ∈ uniq, r.ID = b ∧ a ∈ r.DependsOn ∧ a ∈ ruleIDs uniq

/-- The dependency graph of `uniq` has no cycle (a self-reference is one). -/
def Acyclic (uniq : List Rule) : Prop :=
  ∀ x, ¬ Relation.TransGen (DependsEdge uniq) x x

/-- Id `x` is a member of layer number `i` of `Ls`. -/
def InLayer (Ls : List (List String)) (i : Nat) (x : String) : Prop :=
  ∃ L, Ls[i]? = some L ∧ x ∈ L

/-- Layer `i` is the earliest possible for `x`: every present dependency of `x`
is in a layer before `i`, and, unless `i = 0`, one of them is in layer `i - 1`. -/
def Placed (uniq : List Rule) (Ls : List (List String)) (i : Nat) (x : String) : Prop :=
  (∀ d ∈ depsOf uniq x, ∃ j, j < i ∧ InLayer Ls j d) ∧
  (0 < i → ∃ d ∈ depsOf uniq x, InLayer Ls (i - 1) d)

/-- The invariant of `for len(queue) > 0`, in terms of the ids `Ls` of the layers
emitted so far, the current `queue` and the current `inDegree`. -/
structure KahnInv (uniq : List Rule) (Ls : List (List String)) (Q : List String)
    (deg : String → Int) : Prop where
  nodup : (Ls.flatten ++ Q).Nodup
  sub : ∀ x ∈ Ls.flatten ++ Q, x ∈ ruleIDs uniq
  deg_eq : ∀ x, deg x = (((depsOf uniq x).filter (fun d => d ∉ Ls.flatten)).length : Int)
  zero_mem : ∀ x ∈ ruleIDs uniq, deg x = 0 → x ∈ Ls.flatten ++ Q
  layers_ne : ∀ L ∈ Ls, L ≠ []
  layer_ok : ∀ i x, InLayer Ls i x → Placed uniq Ls i x
  queue_ok : ∀ x ∈ Q, Placed uniq Ls Ls.length x

/-- The rule `SortRules` puts in a layer for a queued id: `ruleMap[ruleID]`. -/
def ruleOf (g : Graph) (id : String) : Rule := (g.ruleMap id).getD zeroRule

/-- The index of the first layer holding a rule with id `id`. -/
def layerIndex : List (List Rule) → String → Nat
  | [], _ => 0
  | L :: Ls, id => if L.any (fun q => q.ID = id) then 0 else layerIndex Ls id + 1

/-- The largest layer index among the ids `ds` (0 for none). -/
def maxLayer (layers : List (List Rule)) (ds : List String) : Nat :=
  (ds.map (layerIndex layers)).foldr max 0

/-! ## Example policies -/

/-- Rule `A` of the diamond scenario: no dependency. -/
def ruleA : Rule := { ID := "A" }

/-- Rule `B` of the diamond scenario: depends on `A`. -/
def ruleB : Rule := { ID := "B", DependsOn := ["A"] }

/-- Rule `C` of the diamond scenario: depends on `A`. -/
def ruleC : Rule := { ID := "C", DependsOn := ["A"] }

/-- Rule `D` of the diamond scenario: depends on `B` and `C`. -/
def ruleD : Rule := { ID := "D", DependsOn := ["B", "C"] }

/-- Diamond scenario: `A`; `B` and `C` depend on `A`; `D` depends on `B` and `C`. -/
def diamondRules : List Rule := [ruleA, ruleB, ruleC, ruleD]

/-- Cycle scenario: `A` depends on `B` and `B` depends on `A`. -/
def cycleRules : List Rule :=
  [{ ID := "A", DependsOn := ["B"] }, { ID := "B", DependsOn := ["A"] }]

/-- A policy with a duplicated id `X` (the second `X` has another name and
another `depends_on`) and a rule `Y` that depends on `X`. -/
def duplicateRules : List Rule :=
  [{ ID := "X", Name := "first" }, { ID := "Y", DependsOn := ["X"] },
   { ID := "X", Name := "second", DependsOn := ["Y"] }]

/-- Rule `r` with every `depends_on` reference to an id outside `ids` removed. -/
def pruneRule (ids : List String) (r : Rule) : Rule :=
  { r with DependsOn := r.DependsOn.filter (fun d => d ∈ ids) }

/-- The input with every reference to an id that no deduplicated rule carries
removed. -/
def pruneAbsent (rules : List Rule) : List Rule :=
  rules.map (pruneRule (ruleIDs (uniqueRules rules)))

/-- Two states of the maps of step 2 that differ only in that the rules of the
second are the rules of the first under `f`. -/
def GraphRel (f : Rule → Rule) (g g1 : Graph) : Prop :=
  g1.graph = g.graph ∧ g1.inDegree = g.inDegree ∧ ∀ x, g1.ruleMap x = (g.ruleMap x).map f

/-! ## Severity filter (`cmd/app/main.go`, scan and export handlers) -/

/-- The loop under "FILTER LOGIC" of the `/scan` handler, which the `/export`
handler repeats verbatim (and so do both copies of `main.go`): `profile` is the
query parameter `level`, the argument list is `pol.Rules`, the result is
`filteredRules`. -/
def filterRules (profile : String) : List Rule → List Rule
  | [] => []
  | rule :: rest =>
    if profile = "strict" then rule :: filterRules profile rest
    else if profile = "moderate" then
      if rule.Severity = "Critical" ∨ rule.Severity = "High" ∨ rule.Severity = "Medium" then
        rule :: filterRules profile rest
      else filterRules profile rest
    else if profile = "basic" then
      if rule.Severity = "Critical" ∨ rule.Severity = "High" then
        rule :: filterRules profile rest
      else filterRules profile rest
    else filterRules profile rest

/-- The severities a profile admits, as the spec lists them: every severity
under `strict`, Critical, High and Medium under `moderate`, Critical and High
under `basic`, none under any other profile. -/
def profileAdmits (profile : String) (severity : String) : Bool :=
  if profile = "strict" then true
  else if profile = "moderate" then severity ∈ ["Critical", "High", "Medium"]
  else if profile = "basic" then severity ∈ ["Critical", "High"]
  else false

/-- The policy of the severity scenario: one rule of each severity. -/
def severityRules : List Rule :=
  [{ ID := "R1", Severity := "Critical" }, { ID := "R2", Severity := "High" },
   { ID := "R3", Severity := "Medium" }, { ID := "R4", Severity := "Low" }]

/-! ## Go strings and the standard library -/

/-- The function `strings.Contains` on byte lists: `sub` occurs in `s`. -/
def containsBytes (sub : List Char) : List Char → Bool
  | [] => sub.isEmpty
  | c :: cs => sub.isPrefixOf (c :: cs) || containsBytes sub cs

/-- The function `strings.Contains`. -/
def strings.Contains (s substr : String) : Bool := containsBytes substr.data s.data

/-- The one-byte white space of `unicode.IsSpace`: tab, line feed, vertical
tab, form feed, carriage return, space. -/
def isAsciiSpace (c : Char) : Bool :=
  c.toNat = 0x09 || c.toNat = 0x0A || c.toNat = 0x0B || c.toNat = 0x0C || c.toNat = 0x0D
    || c.toNat = 0x20

/-- The UTF-8 encodings, as lists of byte values, of the code points above
U+007F that `unicode.IsSpace` accepts: U+0085, U+00A0, U+1680, U+2000 to
U+200A, U+2028, U+2029, U+202F, U+205F, U+3000. -/
def wideSpaces : List (List Nat) :=
  [[0xC2, 0x85], [0xC2, 0xA0], [0xE1, 0x9A, 0x80],
   [0xE2, 0x80, 0x80], [0xE2, 0x80, 0x81], [0xE2, 0x80, 0x82], [0xE2, 0x80, 0x83],
   [0xE2, 0x80, 0x84], [0xE2, 0x80, 0x85], [0xE2, 0x80, 0x86], [0xE2, 0x80, 0x87],
   [0xE2, 0x80, 0x88], [0xE2, 0x80, 0x89], [0xE2, 0x80, 0x8A],
   [0xE2, 0x80, 0xA8], [0xE2, 0x80, 0xA9], [0xE2, 0x80, 0xAF], [0xE2, 0x81, 0x9F],
   [0xE3, 0x80, 0x80]]

/-- The number of leading bytes of `s` that form one white-space code point
(0 when `s` does not start with white space). -/
def leadingSpaceWidth (s : List Char) : Nat :=
  match s with
  | [] => 0
  | c :: _ =>
    if isAsciiSpace c then 1
    else match wideSpaces.find? (fun w => w.isPrefixOf (s.map Char.toNat)) with
      | some w => w.length
      | none => 0

/-- The number of trailing bytes of `s`, given reversed, that form one
white-space code point. -/
def trailingSpaceWidth (rev : List Char) : Nat :=
  match rev with
  | [] => 0
  | c :: _ =>
    if isAsciiSpace c then 1
    else match wideSpaces.find? (fun w => w.reverse.isPrefixOf (rev.map Char.toNat)) with
      | some w => w.length
      | none => 0

/-- Strip white space from the front, at most `fuel` code points. -/
def trimLeftAux : Nat → List Char → List Char
  | 0, s => s
  | fuel + 1, s =>
    if leadingSpaceWidth s = 0 then s else trimLeftAux fuel (s.drop (leadingSpaceWidth s))

/-- Strip white space from the back of the reversed list, at most `fuel` code
points. -/
def trimRightAux : Nat → List Char → List Char
  | 0, rev => rev
  | fuel + 1, rev =>
    if trailingSpaceWidth rev = 0 then rev
    else trimRightAux fuel (rev.drop (trailingSpaceWidth rev))

/-- The function `strings.TrimSpace`: leading and trailing white space, as
`unicode.IsSpace` defines it, removed.  There are at most `length` code points
to strip, so the bound of the auxiliary loops is never felt. -/
def strings.TrimSpace (s : String) : String :=
  let left := trimLeftAux s.data.length s.data
  ⟨(trimRightAux left.length left.reverse).reverse⟩

/-- The function `strings.Split(s, sep)` for a separator of one byte, on byte
lists: the pieces between the occurrences of `sep`, at least one piece. -/
def splitBytes (sep : Char) : List Char → List (List Char)
  | [] => [[]]
  | c :: cs =>
    if c = sep then [] :: splitBytes sep cs
    else match splitBytes sep cs with
      | [] => [[c]]
      | p :: ps => (c :: p) :: ps

/-- The function `strings.Split` for a separator of one byte (the repository
splits on "|" only in the code modelled here). -/
def strings.Split (s : String) (sep : Char) : List String :=
  (splitBytes sep s.data).map String.mk

/-- The ASCII branch of `strings.ToLower` on one byte. -/
def asciiToLower (c : Char) : Char :=
  if 'A'.toNat ≤ c.toNat ∧ c.toNat ≤ 'Z'.toNat then Char.ofNat (c.toNat + 32) else c

/-- An `error` value: a `*exec.ExitError` carrying the exit code of the
process, or any other error.  Both carry the text of `Error()`. -/
inductive GoError where
  | exitError (code : Int) (msg : String) : GoError
  | other (msg : String) : GoError
  deriving DecidableEq, Repr

/-- The text `err.Error()`. -/
def GoError.Error : GoError → String
  | GoError.exitError _ msg => msg
  | GoError.other msg => msg

/-- The functions of the Go standard library that the engine calls and that are
left uninterpreted: `regexp.MatchString(pattern, s)` (its boolean result, which
is false when the pattern does not compile), the Unicode branch of
`strings.ToLower` (taken when the string has a byte above 0x7F), and the
formatting of a value by the verb `%v`. -/
structure GoLib where
  regexpMatchString : String → String → Bool
  unicodeToLower : String → String
  formatValue : GoValue → String

/-- The function `strings.ToLower`. -/
def strings.ToLower (lib : GoLib) (s : String) : String :=
  if s.data.all (fun c => c.toNat < 0x80) then ⟨s.data.map asciiToLower⟩
  else lib.unicodeToLower s

/-- The platform adapter, `platform.HardenerInterface`, as far as the audit
uses it.  An audit reads the system and does not change it, so the answers are
functions of the arguments. -/
structure Hardener where
  RunCommand : String → List String → String → Bool × String × Option GoError
  CheckRegistry : String → String → GoValue → Bool × Option GoError

/-- The method `SecEditManager.CheckUserRight`, which runs `secedit /export`
and reads the file it writes: its answer for a right and the expected users. -/
structure SecEditManager where
  CheckUserRight : String → String → Bool × Option GoError

/-! ## Audit executor (`internal/engine/executor.go`) -/

/-- The record `AuditResult`. -/
structure AuditResult where
  ID : String
  Name : String
  Severity : String
  Status : String
  Actual : String
  Expected : String
  deriving DecidableEq, Repr

/-- The end of `getRawSystemValue`, reached when no early `return` fired:
the labels for an empty output and for an output that mentions "fail". -/
def rawValueLabel (lib : GoLib) (output : String) : String :=
  if output = "" then "Empty / Not Set"
  else if strings.Contains (strings.ToLower lib output) "fail" then "Vulnerable Config"
  else output

/-- The function `getRawSystemValue`. -/
def getRawSystemValue (lib : GoLib) (worker : Hardener) (cmd : String) (args : List String) :
    String :=
  let realCmd0 :=
    if strings.Contains cmd "|" then strings.TrimSpace ((strings.Split cmd '|').headD "")
    else cmd
  let wrapped : String × List String :=
    match args with
    | a0 :: inner :: _ =>
      if a0 = "-c" ∧ strings.Contains inner "|" then
        ("bash", ["-c", strings.TrimSpace ((strings.Split inner '|').headD "")])
      else (realCmd0, args)
    | _ => (realCmd0, args)
  let res := worker.RunCommand wrapped.1 wrapped.2 ""
  let success := res.1
  let output := strings.TrimSpace res.2.1
  let err := res.2.2
  if !success ∨ err ≠ none then
    if (strings.Contains cmd "grep" ∨ strings.Contains cmd "find") ∧ output = "" then
      "Not Configured"
    else if strings.Contains cmd "sysctl" ∧ output = "" then "Key Missing in Kernel"
    else
      match err with
      | some (GoError.exitError code _) =>
        if code = 1 ∧ output = "" then "Not Set" else rawValueLabel lib output
      | _ => rawValueLabel lib output
  else rawValueLabel lib output

/-- The type assertion `v.(string)` with the second result dropped: the string,
or "" when `v` holds no string. -/
def GoValue.asString : GoValue → String
  | GoValue.str s => s
  | _ => ""

/-- The body of the inner goroutine of `RunAudit` up to the `switch`: the
values of `passed`, `actualVal` and `err` after it. -/
def checkRule (lib : GoLib) (worker : Hardener) (secManager : SecEditManager) (r : Rule) :
    Bool × String × Option GoError :=
  if r.Type_ = "command" ∨ r.Type_ = "file_check" ∨ r.Type_ = "file_edit" then
    let res := worker.RunCommand r.Check.Cmd r.Check.Args r.Check.ExpectPattern
    let passed := res.1
    let actualVal0 :=
      if !passed then
        let rawVal := getRawSystemValue lib worker r.Check.Cmd r.Check.Args
        if rawVal ≠ "Missing" ∧ rawVal ≠ "fail" then rawVal else res.2.1
      else res.2.1
    let actualVal1 := strings.TrimSpace actualVal0
    let actualVal2 : String :=
      if actualVal1.length > 60 then ⟨actualVal1.data.take 57⟩ ++ "..." else actualVal1
    let actualVal3 := if passed ∧ actualVal2 = "" then "Verified Secure" else actualVal2
    (passed, actualVal3, res.2.2)
  else if r.Type_ = "registry" then
    let res := worker.CheckRegistry r.Check.RegKey r.Check.RegValue r.Check.Expected
    (res.1, if res.1 then lib.formatValue r.Check.Expected else "Registry Mismatch", res.2)
  else if r.Type_ = "secedit" then
    let res := secManager.CheckUserRight r.Check.RegKey r.Check.Expected.asString
    (res.1, if res.1 then "Right Assigned" else "Right Missing", res.2)
  else (false, "", none)

/-- The inner goroutine of `RunAudit`: the pair `(status, actual)` it sends on
`resultChan`. -/
def auditRule (lib : GoLib) (worker : Hardener) (secManager : SecEditManager) (r : Rule) :
    String × String :=
  let res := checkRule lib worker secManager r
  let status := if res.2.2 = none ∧ res.1 = true then "PASS" else "FAIL"
  (status, res.2.1)

/-- The outer goroutine of `RunAudit` for one rule: the `select` between the
result of the check and the 5 second deadline (`timedOut` tells which came
first), and the `AuditResult` appended to `results`. -/
def auditOutcome (lib : GoLib) (worker : Hardener) (secManager : SecEditManager)
    (timedOut : Bool) (r : Rule) : AuditResult :=
  let finalRes : String × String :=
    if timedOut then ("TIMEOUT", "Check timed out") else auditRule lib worker secManager r
  { ID := r.ID, Name := r.Name, Severity := r.Severity, Status := finalRes.1,
    Actual := finalRes.2, Expected := r.Check.ExpectPattern }

/-- The function `RunAudit`: no result when `SortRules` fails, else one result
per scheduled rule, layer after layer.  `timedOut` tells for which rules the
deadline fires first.  Within a layer the goroutines append in an order the
runtime picks; the results are listed here in the order of the layer. -/
def RunAudit (lib : GoLib) (worker : Hardener) (secManager : SecEditManager)
    (mapOrder : List String) (timedOut : Rule → Bool) (pol : Policy) :
    Option (List AuditResult) :=
  match SortRules mapOrder pol.Rules with
  | none => none
  | some (Except.error _) => some []
  | some (Except.ok layers) =>
    some (layers.flatten.map (fun r => auditOutcome lib worker secManager (timedOut r) r))

/-! ## Linux adapter (`internal/platform/lin_fs.go`) -/

/-- The method `LinuxHardener.RunCommand`.  `exec cmdStr args` is what
`exec.Command(cmdStr, args...).CombinedOutput()` returns: the combined output
and the error (`nil` on exit status 0). -/
def LinuxHardener.RunCommand (lib : GoLib)
    (exec : String → List String → String × Option GoError)
    (cmdStr : String) (args : List String) (expectPattern : String) :
    Bool × String × Option GoError :=
  let res := exec cmdStr args
  let err := res.2
  let outStr := strings.TrimSpace res.1
  if expectPattern ≠ "" then
    let grepMiss : Bool :=
      match err with
      | some (GoError.exitError code _) => code = 1 ∧ strings.Contains cmdStr "grep"
      | _ => false
    if grepMiss then (false, "Pattern Not Found", none)
    else
      let matched := lib.regexpMatchString expectPattern outStr
      if matched ∨ strings.Contains outStr expectPattern then (true, outStr, none)
      else (false, if outStr = "" then "Empty Output" else outStr, none)
  else
    match err with
    | some e =>
      (false, outStr,
        some (GoError.other ("execution failed: " ++ e.Error ++ " | output: " ++ outStr)))
    | none => (true, outStr, none)

/-- A stand-in for the standard library in examples: `regexp.MatchString`
answered by substring search, which is what it computes for a pattern without
metacharacters, and the other two functions as the identity and the empty
text. -/
def literalLib : GoLib :=
  { regexpMatchString := fun pattern s => strings.Contains s pattern,
    unicodeToLower := fun s => s,
    formatValue := fun _ => "" }

/-- The process of the example: `grep -c` finding no matching line prints the
count 0 and exits with status 1. -/
def grepCountExec : String → List String → String × Option GoError :=
  fun _ _ => ("0\n", some (GoError.exitError 1 "exit status 1"))

/-! ## Example adapters -/

/-- An adapter whose every command passes with output "ok", and whose registry
check fails without error. -/
def passingWorker : Hardener :=
  { RunCommand := fun _ _ _ => (true, "ok", none),
    CheckRegistry := fun _ _ _ => (false, none) }

/-- A user-right check that reports an error. -/
def failingSecEdit : SecEditManager :=
  { CheckUserRight := fun _ _ => (false, some (GoError.other "secedit export failed")) }

/-- The process of the example: `sysctl` printing a kernel setting. -/
def sysctlExec : String → List String → String × Option GoError :=
  fun _ _ => ("kernel.randomize_va_space = 2\n", none)

/-! ## More of the Go standard library -/

/-- The function `strings.HasPrefix`. -/
def strings.HasPrefix (s pfx : String) : Bool := pfx.data.isPrefixOf s.data

/-- The function `strings.TrimPrefix`: `s` without the leading `prefix`, or `s`
itself when it does not start with it. -/
def strings.TrimPrefix (s pfx : String) : String :=
  if strings.HasPrefix s pfx then ⟨s.data.drop pfx.data.length⟩ else s

/-- The function `strings.Join`. -/
def strings.Join (elems : List String) (sep : String) : String :=
  match elems with
  | [] => ""
  | e :: rest => rest.foldl (fun acc x => acc ++ sep ++ x) e

/-- The loop of `strings.Fields` on byte lists: `cur` is the field being read,
reversed; at most `fuel` steps. -/
def fieldsAux : Nat → List Char → List Char → List (List Char)
  | 0, _, cur => if cur = [] then [] else [cur.reverse]
  | _ + 1, [], cur => if cur = [] then [] else [cur.reverse]
  | fuel + 1, c :: cs, cur =>
    if leadingSpaceWidth (c :: cs) = 0 then fieldsAux fuel cs (c :: cur)
    else
      let rest := fieldsAux fuel ((c :: cs).drop (leadingSpaceWidth (c :: cs))) []
      if cur = [] then rest else cur.reverse :: rest

/-- The function `strings.Fields`: the maximal pieces of `s` free of white
space. -/
def strings.Fields (s : String) : List String :=
  (fieldsAux (s.data.length + 1) s.data []).map String.mk

/-- The value of a list of decimal digits, `none` if one is not a digit. -/
def digitsValue : List Char → Nat → Option Nat
  | [], acc => some acc
  | c :: cs, acc =>
    if '0'.toNat ≤ c.toNat ∧ c.toNat ≤ '9'.toNat then
      digitsValue cs (acc * 10 + (c.toNat - '0'.toNat))
    else none

/-- The function `strconv.Atoi` for the 64-bit `int`: an optional sign and
decimal digits, in range; `none` stands for a non-nil error. -/
def strconv.Atoi (s : String) : Option Int :=
  let neg := s.data.head? = some '-'
  let digits := if s.data.head? = some '-' ∨ s.data.head? = some '+' then s.data.drop 1 else s.data
  if digits = [] then none
  else match digitsValue digits 0 with
    | none => none
    | some n =>
      if neg then (if n ≤ 2 ^ 63 then some (-(n : Int)) else none)
      else (if n < 2 ^ 63 then some (n : Int) else none)

/-! ## State journal (`internal/state/db.go`) -/

/-- A row of the table `rollback_log`, without the autoincrement `id` and the
`timestamp`.  The journal keeps the rows in the order of insertion; the
`timestamp` column, the text the driver stores for `time.Now()`, is set beside
the rows where a query reads it (`GetRuleHistory`). -/
structure JournalRow where
  rule_id : String
  rule_name : String
  prev_value : String
  new_value : String
  deriving DecidableEq, Repr

/-- The order in which the database compares two texts: byte by byte, a text
before every text it is a proper beginning of. -/
def bytesLess : List Char → List Char → Bool
  | _, [] => false
  | [], _ :: _ => true
  | a :: as, b :: bs => decide (a.toNat < b.toNat) || (a == b && bytesLess as bs)

/-- Whether the `timestamp` text `s` comes before the text `t`. -/
def stampLess (s t : String) : Bool := bytesLess s.data t.data

/-- One step of `ORDER BY timestamp DESC LIMIT 1`: of the row kept so far and
the next row, the one with the greater `timestamp`, compared as text, byte by
byte.  SQL does not fix which of two rows with the same timestamp comes first:
`tie kept next` tells whether the next row is taken. -/
def laterRow (tie : JournalRow → JournalRow → Bool) (best : Option (String × JournalRow))
    (e : String × JournalRow) : Option (String × JournalRow) :=
  match best with
  | none => some e
  | some b =>
    if stampLess b.1 e.1 then some e
    else if stampLess e.1 b.1 then some b
    else if tie b.2 e.2 then some e else some b

/-- The function `GetRuleHistory`, on the table as the rows in the order of
insertion, each with its `timestamp`: `prev_value` and `new_value` of the row
of `ruleID` whose timestamp is greatest (`WHERE rule_id = ? ORDER BY timestamp
DESC LIMIT 1`), or `("", "", false)` when the query yields no row. -/
def GetRuleHistory (tie : JournalRow → JournalRow → Bool) (table : List (String × JournalRow))
    (ruleID : String) : String × String × Bool :=
  match (table.filter (fun e => e.2.rule_id = ruleID)).foldl (laterRow tie) none with
  | some e => (e.2.prev_value, e.2.new_value, true)
  | none => ("", "", false)

/-! ## Remediation and rollback (`internal/engine/executor.go`) -/

/-- A call that changes or probes the system: a method of the platform adapter,
or `SecEditManager.SetUserRight`, with its arguments. -/
inductive AdapterCall where
  | RunCommand (cmdStr : String) (args : List String) (expectPattern : String) : AdapterCall
  | SetRegistry (k v : String) (val : GoValue) : AdapterCall
  | EditConfigFile (path searchRegex replaceText : String) : AdapterCall
  | SetUserRight (rightName users : String) : AdapterCall
  deriving DecidableEq, Repr

/-- What the engine does to the world, in order: an insertion into the journal,
or a call of the adapter. -/
inductive Event where
  | journal (row : JournalRow) : Event
  | adapter (call : AdapterCall) : Event
  deriving DecidableEq, Repr

/-- The world a fix or a rollback runs in: the rows of `rollback_log`, the
state of the machine, and the record of what was done so far, oldest first. -/
structure World (σ : Type) where
  journal : List JournalRow
  system : σ
  trace : List Event

/-- The platform adapter on a machine with states `σ`: the answer
`(passed, output, err)` of a call and the state it leaves.  Of the answer of a
method that returns only an error, the engine reads only the error. -/
structure Platform (σ : Type) where
  perform : AdapterCall → σ → (Bool × String × Option GoError) × σ

/-- Make one call of the adapter: the answer, and the world with the machine
changed and the call recorded. -/
def invoke {σ : Type} (P : Platform σ) (call : AdapterCall) (w : World σ) :
    (Bool × String × Option GoError) × World σ :=
  let res := P.perform call w.system
  (res.1, { w with system := res.2, trace := w.trace ++ [Event.adapter call] })

/-- The function `LogAction`.  `insertOk` tells whether the database carries
out the `INSERT`: if so the row is appended and the error is nil, if not the
journal is as before and the error is not nil (its text stands for whatever the
driver reports).  The `time.Now()` it stores in the `timestamp` column is set
beside the row where `GetRuleHistory` is stated. -/
def LogAction {σ : Type} (insertOk : Bool) (ruleID ruleName prevVal newVal : String)
    (w : World σ) : Option GoError × World σ :=
  let row : JournalRow :=
    { rule_id := ruleID, rule_name := ruleName, prev_value := prevVal, new_value := newVal }
  if insertOk then
    (none, { w with journal := w.journal ++ [row], trace := w.trace ++ [Event.journal row] })
  else (some (GoError.other "insert failed"), w)

/-- Step 1 of `getRawSystemValue`: the command and the arguments it passes to
`worker.RunCommand`. -/
def rawCommand (cmd : String) (args : List String) : String × List String :=
  let realCmd0 :=
    if strings.Contains cmd "|" then strings.TrimSpace ((strings.Split cmd '|').headD "")
    else cmd
  match args with
  | a0 :: inner :: _ =>
    if a0 = "-c" ∧ strings.Contains inner "|" then
      ("bash", ["-c", strings.TrimSpace ((strings.Split inner '|').headD "")])
    else (realCmd0, args)
  | _ => (realCmd0, args)

/-- Step 3 of `getRawSystemValue` and what follows: the value it returns, from
the answer `res` of `worker.RunCommand`. -/
def rawValueOf (lib : GoLib) (cmd : String) (res : Bool × String × Option GoError) : String :=
  let success := res.1
  let output := strings.TrimSpace res.2.1
  let err := res.2.2
  if !success ∨ err ≠ none then
    if (strings.Contains cmd "grep" ∨ strings.Contains cmd "find") ∧ output = "" then
      "Not Configured"
    else if strings.Contains cmd "sysctl" ∧ output = "" then "Key Missing in Kernel"
    else
      match err with
      | some (GoError.exitError code _) =>
        if code = 1 ∧ output = "" then "Not Set" else rawValueLabel lib output
      | _ => rawValueLabel lib output
  else rawValueLabel lib output

/-- The function `getRawSystemValue` run against a machine that changes: its
value, and the world after its one call of `worker.RunCommand`. -/
def getRawSystemValueIn {σ : Type} (lib : GoLib) (P : Platform σ) (cmd : String)
    (args : List String) (w : World σ) : String × World σ :=
  let res := invoke P
    (AdapterCall.RunCommand (rawCommand cmd args).1 (rawCommand cmd args).2 "") w
  (rawValueOf lib cmd res.1, res.2)

/-- Step 2 of `ApplyFix`: the text journalled as the new value. -/
def newValueLabel (a : Action) : String :=
  if a.ReplaceText ≠ "" then strings.TrimSpace a.ReplaceText
  else if a.Args.length > 0 then
    let fullCmd := strings.Join a.Args " "
    if strings.Contains fullCmd "=" ∧ ¬ strings.Contains fullCmd "==" then
      match (strings.Fields fullCmd).find?
          (fun p => strings.Contains p "=" && !strings.HasPrefix p "-") with
      | some p => p
      | none => "Applied Fix"
    else if strings.Contains fullCmd "chmod" then
      match (strings.Fields fullCmd).find? (fun p => (strconv.Atoi p).isSome) with
      | some p => "Mode: " ++ p
      | none => "Applied Fix"
    else if strings.Contains fullCmd "modprobe" ∧ strings.Contains fullCmd "/bin/true" then
      "Module Blacklisted"
    else if strings.Contains fullCmd "bash -c" then strings.TrimPrefix fullCmd "bash -c "
    else fullCmd
  else "Applied Fix"

/-- Step 4 of `ApplyFix`, the `switch rule.Remediation.Type`: the call it makes,
or the error it returns without making one. -/
def remediationCall (a : Action) : Except GoError AdapterCall :=
  if a.Type_ = "registry" then Except.ok (AdapterCall.SetRegistry a.RegKey a.RegValue a.Value)
  else if a.Type_ = "command" then Except.ok (AdapterCall.RunCommand a.Cmd a.Args "")
  else if a.Type_ = "file_edit" ∨ a.Type_ = "file_append" then
    Except.ok (AdapterCall.EditConfigFile a.FilePath a.SearchRegex a.ReplaceText)
  else if a.Type_ = "secedit" then
    Except.ok (AdapterCall.SetUserRight a.RegKey a.Value.asString)
  else if a.Type_ = "manual" then
    if a.Cmd ≠ "echo" ∧ a.Cmd ≠ "" then Except.ok (AdapterCall.RunCommand a.Cmd a.Args "")
    else Except.error (GoError.other "manual action required")
  else Except.error (GoError.other ("unknown remediation type: " ++ a.Type_))

/-- The function `ApplyFix`: the error it returns and the world it leaves.
`insertOk` tells whether the journal insertion succeeds. -/
def ApplyFix {σ : Type} (lib : GoLib) (P : Platform σ) (insertOk : Bool) (rule : Rule)
    (w : World σ) : Option GoError × World σ :=
  let probe := getRawSystemValueIn lib P rule.Check.Cmd rule.Check.Args w
  let prevValue : String :=
    if probe.1.length > 60 then ⟨probe.1.data.take 57⟩ ++ "..." else probe.1
  let newValue := newValueLabel rule.Remediation
  let logged := LogAction insertOk rule.ID rule.Name prevValue newValue probe.2
  match remediationCall rule.Remediation with
  | Except.error e => (some e, logged.2)
  | Except.ok call =>
    let res := invoke P call logged.2
    match res.1.2.2 with
    | some err => (some (GoError.other ("fix failed: " ++ err.Error)), res.2)
    | none => (none, res.2)

/-- The `switch rule.Rollback.Type` of `RevertFix`: the call it makes, or the
error it returns without making one. -/
def rollbackCall (a : Action) : Except GoError AdapterCall :=
  if a.Type_ = "registry" then Except.ok (AdapterCall.SetRegistry a.RegKey a.RegValue a.Value)
  else if a.Type_ = "command" then Except.ok (AdapterCall.RunCommand a.Cmd a.Args "")
  else if a.Type_ = "file_edit" then
    Except.ok (AdapterCall.EditConfigFile a.FilePath a.SearchRegex a.ReplaceText)
  else if a.Type_ = "secedit" then
    Except.ok (AdapterCall.SetUserRight a.RegKey a.Value.asString)
  else Except.error (GoError.other ("unknown rollback type: " ++ a.Type_))

/-- The function `RevertFix`: the error it returns and the world it leaves. -/
def RevertFix {σ : Type} (P : Platform σ) (rule : Rule) (w : World σ) :
    Option GoError × World σ :=
  match rollbackCall rule.Rollback with
  | Except.error e => (some e, w)
  | Except.ok call =>
    let res := invoke P call w
    (res.1.2.2, res.2)

/-- The loop of `RevertAll`: `(revertedCount, errorCount)` and the world after
the rules were reverted one by one. -/
def revertLoop {σ : Type} (P : Platform σ) :
    List Rule → Nat × Nat → World σ → (Nat × Nat) × World σ
  | [], counts, w => (counts, w)
  | rule :: rest, (revertedCount, errorCount), w =>
    let res := RevertFix P rule w
    match res.1 with
    | some _ => revertLoop P rest (revertedCount, errorCount + 1) res.2
    | none => revertLoop P rest (revertedCount + 1, errorCount) res.2

/-- The function `RevertAll`: the summary, the error (always nil) and the world
it leaves. -/
def RevertAll {σ : Type} (P : Platform σ) (pol : Policy) (w : World σ) :
    (String × Option GoError) × World σ :=
  let res := revertLoop P pol.Rules (0, 0) w
  (("Reset Complete. Reverted " ++ toString res.1.1 ++ " rules. Errors: " ++ toString res.1.2,
    none), res.2)

/-! ## Windows adapter (`internal/platform/win_reg.go`) -/

/-- The method `WindowsHardener.RunCommand`.  `exec cmdStr args` is what
`exec.Command(cmdStr, args...).CombinedOutput()` returns. -/
def WindowsHardener.RunCommand (exec : String → List String → String × Option GoError)
    (cmdStr : String) (args : List String) (expectPattern : String) :
    Bool × String × Option GoError :=
  let res := exec cmdStr args
  match res.2 with
  | some _ => (false, res.1, none)
  | none =>
    if strings.Contains res.1 expectPattern then (true, res.1, none)
    else (false, res.1, none)

/-- The two registry roots the adapter accepts. -/
inductive RootKey where
  | LOCAL_MACHINE : RootKey
  | CURRENT_USER : RootKey
  deriving DecidableEq, Repr

/-- The data of a registry value: its type, and its content for the types the
adapter reads. -/
inductive RegData where
  | DWORD (val : Nat) : RegData
  | QWORD (val : Nat) : RegData
  | SZ (val : String) : RegData
  | EXPAND_SZ (val : String) : RegData
  | otherType : RegData
  deriving DecidableEq, Repr

/-- The registry as `CheckRegistry` reads it: `openKey root path` is `none` when
`registry.OpenKey` fails, and otherwise the values of the key, `none` for a
name `GetValue` does not find. -/
structure Registry where
  openKey : RootKey → String → Option (String → Option RegData)

/-- The spacing of float64 values around the natural number `m`, for
`m < 2 ^ 64`: 1 below `2 ^ 53`, and doubling with every further bit. -/
def float64Spacing (m : Nat) : Nat :=
  (List.range 11).foldl (fun u _ => if m < 2 ^ 53 * u then u else 2 * u) 1

/-- The conversion `float64(eInt)` of a 64-bit `int`, as the integer the
result denotes: the multiple of the spacing nearest to `n`, the even one of two
equally near. -/
def float64OfInt (n : Int) : Int :=
  let m := n.natAbs
  let u := float64Spacing m
  let q := m / u
  let r := m % u
  let q1 := if 2 * r < u then q else if 2 * r > u then q + 1 else q + q % 2
  if n < 0 then -((q1 * u : Nat) : Int) else ((q1 * u : Nat) : Int)

/-- The conversion `uint64(expectedInt)` of a float64 with value `q`: the
integer part when it is in range; out of range Go leaves the result to the
implementation, here `outOfRange q`. -/
def uint64OfFloat (outOfRange : Rat → Nat) (q : Rat) : Nat :=
  if 0 ≤ q ∧ q < 2 ^ 64 then (q.num / q.den).toNat else outOfRange q

/-- The normalisation of `expectedValue` in `CheckRegistry`: the value of the
float64 `expectedInt`, which stays 0 when `expectedValue` is neither a float64
nor an `int`. -/
def expectedFloat (expectedValue : GoValue) : Rat :=
  match expectedValue with
  | GoValue.float q => q
  | GoValue.int n => (float64OfInt n : Rat)
  | _ => 0

/-- The method `WindowsHardener.CheckRegistry`. -/
def WindowsHardener.CheckRegistry (outOfRange : Rat → Nat) (reg : Registry)
    (keyPath valueName : String) (expectedValue : GoValue) : Bool × Option GoError :=
  let root : Option (RootKey × String) :=
    if strings.HasPrefix keyPath "HKLM\\" then
      some (RootKey.LOCAL_MACHINE, strings.TrimPrefix keyPath "HKLM\\")
    else if strings.HasPrefix keyPath "HKCU\\" then
      some (RootKey.CURRENT_USER, strings.TrimPrefix keyPath "HKCU\\")
    else none
  match root with
  | none => (false, some (GoError.other ("unsupported root key: " ++ keyPath)))
  | some (rootKey, shortPath) =>
    match reg.openKey rootKey shortPath with
    | none => (false, none)
    | some k =>
      match k valueName with
      | none => (false, none)
      | some (RegData.DWORD val) =>
        (decide (val = uint64OfFloat outOfRange (expectedFloat expectedValue)), none)
      | some (RegData.QWORD val) =>
        (decide (val = uint64OfFloat outOfRange (expectedFloat expectedValue)), none)
      | some (RegData.SZ val) =>
        (match expectedValue with
          | GoValue.str expectedStr => decide (val = expectedStr)
          | _ => false, none)
      | some (RegData.EXPAND_SZ val) =>
        (match expectedValue with
          | GoValue.str expectedStr => decide (val = expectedStr)
          | _ => false, none)
      | some RegData.otherType => (false, none)

/-! ## File config editor (`internal/platform/lin_fs.go`) -/

/-- The methods of a `*regexp.Regexp` that `EditConfigFile` uses, by the
source text of the expression: whether it compiles (`regexp.MustCompile`
panics if not), `MatchString(s)` and `ReplaceAllString(src, repl)`. -/
structure RegexpLib where
  compiles : String → Bool
  MatchString : String → String → Bool
  ReplaceAllString : String → String → String → String

/-- Lines 109 to 120 of `EditConfigFile`: the new text of the file, from its
text; `none` when `regexp.MustCompile` panics. -/
def editText (rx : RegexpLib) (text searchRegex replaceText : String) : Option String :=
  if rx.compiles ("(?m)" ++ searchRegex) then
    if rx.MatchString ("(?m)" ++ searchRegex) text then
      some (rx.ReplaceAllString ("(?m)" ++ searchRegex) text replaceText)
    else if text.length > 0 ∧ ¬ (("\n" : String).data.isSuffixOf text.data) then
      some (text ++ "\n" ++ replaceText ++ "\n")
    else some (text ++ replaceText ++ "\n")
  else none

/-- What `ioutil.ReadFile(path)` returns: the file does not exist, another
error, or the content (with the mode `os.Stat` reports). -/
inductive ReadResult where
  | notExist : ReadResult
  | failed (err : GoError) : ReadResult
  | content (text : String) (mode : Nat) : ReadResult
  deriving DecidableEq, Repr

/-- What `EditConfigFile` does after reading: it returns the error of the read,
or panics, or calls `ioutil.WriteFile` with a text and a mode (and returns what
that call returns). -/
inductive EditOutcome where
  | readError (err : GoError) : EditOutcome
  | panic : EditOutcome
  | write (text : String) (mode : Nat) : EditOutcome
  deriving DecidableEq, Repr

/-- The method `LinuxHardener.EditConfigFile`, from the result of reading
`path`. -/
def LinuxHardener.EditConfigFile (rx : RegexpLib) (read : ReadResult)
    (searchRegex replaceText : String) : EditOutcome :=
  match read with
  | ReadResult.failed err => EditOutcome.readError err
  | ReadResult.notExist =>
    match editText rx "" searchRegex replaceText with
    | none => EditOutcome.panic
    | some newText => EditOutcome.write newText 0o644
  | ReadResult.content text mode =>
    match editText rx text searchRegex replaceText with
    | none => EditOutcome.panic
    | some newText => EditOutcome.write newText mode

/-- The replacement of every occurrence of the byte list `pat` (not empty) by
`repl`, left to right, occurrences not overlapping; at most `fuel` steps. -/
def replaceAllBytes (pat repl : List Char) : Nat → List Char → List Char
  | 0, s => s
  | _ + 1, [] => []
  | fuel + 1, c :: cs =>
    if pat.isPrefixOf (c :: cs) then repl ++ replaceAllBytes pat repl fuel ((c :: cs).drop pat.length)
    else c :: replaceAllBytes pat repl fuel cs

/-- A stand-in for `regexp` in examples, exact for expressions that, after the
flag group "(?m)", are a non-empty text without metacharacters, and for
replacements without "$": the expression matches where the text occurs. -/
def literalRegexp : RegexpLib :=
  { compiles := fun _ => true,
    MatchString := fun re s => strings.Contains s (strings.TrimPrefix re "(?m)"),
    ReplaceAllString := fun re src repl =>
      ⟨replaceAllBytes (strings.TrimPrefix re "(?m)").data repl.data src.data.length src.data⟩ }

/-! ## Examples for remediation and rollback -/

/-- A process that cannot be run or exits with a status other than 0, here
status 2 after printing a message. -/
def failingExec : String → List String → String × Option GoError :=
  fun _ _ => ("The user name could not be found.\r\n", some (GoError.exitError 2 "exit status 2"))

/-- A machine without state of its own whose commands are run by the Windows
adapter over `exec`; the other calls are taken to succeed. -/
def windowsPlatform (exec : String → List String → String × Option GoError) : Platform Unit :=
  { perform := fun call _ =>
      match call with
      | AdapterCall.RunCommand cmdStr args expectPattern =>
        (WindowsHardener.RunCommand exec cmdStr args expectPattern, ())
      | _ => ((true, "", none), ()) }

/-- A rule that disables the guest account with a command, and enables it
again to roll back. -/
def guestRule : Rule :=
  { ID := "G", Name := "Disable guest account", Type_ := "command",
    Check := { Cmd := "net", Args := ["user", "guest"], ExpectPattern := "No" },
    Remediation := { Type_ := "command", Cmd := "net", Args := ["user", "guest", "/active:no"] },
    Rollback := { Type_ := "command", Cmd := "net", Args := ["user", "guest", "/active:yes"] } }

/-- A machine without state of its own on which every call succeeds, a command
printing "0". -/
def okPlatform : Platform Unit :=
  { perform := fun _ _ => ((true, "0\n", none), ()) }

/-- A world with an empty journal in which nothing has been done yet. -/
def emptyWorld : World Unit := { journal := [], system := (), trace := [] }

/-- The rule of the journal scenario: the check reads a kernel setting, the
remediation writes `kernel.randomize_va_space = 2` to a configuration file. -/
def kernelRule : Rule :=
  { ID := "R", Name := "ASLR", Type_ := "command",
    Check := { Cmd := "sysctl", Args := ["-n", "kernel.randomize_va_space"],
               ExpectPattern := "2" },
    Remediation := { Type_ := "file_edit", FilePath := "/etc/sysctl.conf",
                     SearchRegex := "^kernel.randomize_va_space.*",
                     ReplaceText := "kernel.randomize_va_space = 2" },
    Rollback := { Type_ := "file_edit", FilePath := "/etc/sysctl.conf",
                  SearchRegex := "^kernel.randomize_va_space.*",
                  ReplaceText := "kernel.randomize_va_space = 0" } }

/-- A rule whose remediation is manual with the placeholder command `echo`. -/
def manualRule : Rule :=
  { ID := "M", Name := "Review accounts", Type_ := "command",
    Check := { Cmd := "sysctl", Args := ["-n", "kernel.randomize_va_space"] },
    Remediation := { Type_ := "manual", Cmd := "echo" } }

/-- An action of type `file_append`. -/
def appendAction : Action :=
  { Type_ := "file_append", FilePath := "/etc/sysctl.conf",
    SearchRegex := "^net.ipv4.ip_forward.*", ReplaceText := "net.ipv4.ip_forward = 0" }

/-- An action of type `manual` with a command to run. -/
def manualAction : Action :=
  { Type_ := "manual", Cmd := "systemctl", Args := ["restart", "sshd"] }

/-- The call by which `ApplyFix` captures the previous value: the Raw Value
Resolver on the check command of the rule. -/
def probeCall (rule : Rule) : AdapterCall :=
  AdapterCall.RunCommand (rawCommand rule.Check.Cmd rule.Check.Args).1
    (rawCommand rule.Check.Cmd rule.Check.Args).2 ""

/-- The value `prevValue` of `ApplyFix`: the raw value of the check command in
world `w`, cut to 57 bytes and "..." when longer than 60. -/
def capturedPrev {σ : Type} (lib : GoLib) (P : Platform σ) (rule : Rule) (w : World σ) : String :=
  if (getRawSystemValueIn lib P rule.Check.Cmd rule.Check.Args w).1.length > 60 then
    ⟨(getRawSystemValueIn lib P rule.Check.Cmd rule.Check.Args w).1.data.take 57⟩ ++ "..."
  else (getRawSystemValueIn lib P rule.Check.Cmd rule.Check.Args w).1

/-- The row `(r.id, r.name, prev, new)` that `ApplyFix` hands to `LogAction`. -/
def fixRow {σ : Type} (lib : GoLib) (P : Platform σ) (rule : Rule) (w : World σ) : JournalRow :=
  { rule_id := rule.ID, rule_name := rule.Name, prev_value := capturedPrev lib P rule w,
    new_value := newValueLabel rule.Remediation }

/-- A row an earlier fix of the rule `R` left in the journal. -/
def olderRow : JournalRow :=
  { rule_id := "R", rule_name := "ASLR", prev_value := "1",
    new_value := "kernel.randomize_va_space = 0" }

/-- A world whose journal holds the row of an earlier fix. -/
def usedWorld : World Unit := { journal := [olderRow], system := (), trace := [] }

/-! ## Lines of a text -/

/-- The lines of a text: the pieces between its line feeds, one more than it
has line feeds. -/
def linesOf : List Char → List (List Char)
  | [] => [[]]
  | c :: cs =>
    if c = '\n' then [] :: linesOf cs
    else
      match linesOf cs with
      | [] => [[c]]
      | l :: ls => (c :: l) :: ls

/-- The text whose lines are `ls`: the pieces with a line feed between each
two. -/
def joinLines : List (List Char) → List Char
  | [] => []
  | [l] => l
  | l :: l' :: ls => l ++ '\n' :: joinLines (l' :: ls)

/-- The lines of a text, as texts. -/
def textLines (text : String) : List String := (linesOf text.data).map String.mk

/-- The text with the lines `ls`. -/
def joinText (ls : List String) : String := ⟨joinLines (ls.map String.data)⟩

/-- What `ReplaceAllString` does to a line when the expression matches whole
lines: a line the expression matches becomes `repl`, another line stays. -/
def replaceLine (m : String → Bool) (repl : String) (l : String) : String :=
  if m l then repl else l

/-- An expression `re` that, under the flag `(?m)`, matches whole lines that
are not empty, as `^key.*` does: `m` tells the lines it matches.  The
expression matches a text when it matches one of its lines, and
`ReplaceAllString` with the replacement `repl`, taken literally, puts `repl`
in the place of every line matched. -/
structure WholeLines (rx : RegexpLib) (re repl : String) (m : String → Bool) : Prop where
  matchString : ∀ text, rx.MatchString re text = (textLines text).any m
  replaceAll : ∀ text, rx.ReplaceAllString re text repl =
    joinText ((textLines text).map (replaceLine m repl))
  notEmpty : m "" = false

/-- The text `key` of an expression `(?m)^key.*`. -/
def lineKey (re : String) : String :=
  ⟨(strings.TrimPrefix re "(?m)^").data.take ((strings.TrimPrefix re "(?m)^").data.length - 2)⟩

/-- A stand-in for `regexp` in examples, exact for expressions `(?m)^key.*`
with `key` a non-empty text without metacharacters, and for replacements
without "$": such an expression matches the lines that begin with `key`, each
as a whole. -/
def linePrefixRegexp : RegexpLib :=
  { compiles := fun _ => true,
    MatchString := fun re s => (textLines s).any (fun l => strings.HasPrefix l (lineKey re)),
    ReplaceAllString := fun re src repl =>
      joinText ((textLines src).map
        (replaceLine (fun l => strings.HasPrefix l (lineKey re)) repl)) }

/-! ## Vocabulary for the registry check -/

/-- The text that selects a root in a key path: `HKLM\` or `HKCU\`. -/
def RootKey.selector : RootKey → String
  | RootKey.LOCAL_MACHINE => "HKLM\\"
  | RootKey.CURRENT_USER => "HKCU\\"

/-- A registry with the one key `SOFTWARE\Policies\Demo` under `HKLM`, holding
the QWORD value `Limit` with the given content. -/
def demoRegistry (val : Nat) : Registry :=
  { openKey := fun root path =>
      if root = RootKey.LOCAL_MACHINE ∧ path = "SOFTWARE\\Policies\\Demo" then
        some (fun name => if name = "Limit" then some (RegData.QWORD val) else none)
      else none }

/-! ## Vocabulary for the audit value and the resolver -/

/-- The text of `s` before its first "|" (all of `s` when it has none). -/
def beforePipe (s : String) : String := ⟨s.data.takeWhile (fun c => c ≠ '|')⟩

/-- The arguments are a `-c` wrapper whose inner command has a pipe: `-c`
first, then a text that contains "|". -/
def isPipedWrapper (args : List String) : Prop :=
  ∃ inner rest, args = "-c" :: inner :: rest ∧ strings.Contains inner "|" = true

/-! ## Vocabulary and examples for the resolver labels, the new value and the handlers -/

/-- The text `s` with its ASCII capital letters made small and every other byte
kept: two texts are equal up to the case of ASCII letters when this agrees. -/
def foldAscii (s : String) : String := ⟨s.data.map asciiToLower⟩

/-- What the engine relies on in the Unicode branch of `strings.ToLower`: it
makes ASCII capital letters small where they stand, so an ASCII text found in
`s` once the ASCII letters of `s` are made small is found in the result. -/
def LowersAscii (lib : GoLib) : Prop :=
  ∀ s pat : String, (∀ c ∈ pat.data, c.toNat < 0x80) →
    strings.Contains (foldAscii s) pat = true →
    strings.Contains (lib.unicodeToLower s) pat = true

/-- A stand-in for the standard library whose Unicode branch of
`strings.ToLower` makes ASCII capital letters small and keeps every other
byte. -/
def asciiLowerLib : GoLib :=
  { regexpMatchString := fun pattern s => strings.Contains s pattern,
    unicodeToLower := foldAscii,
    formatValue := fun _ => "" }

/-- An adapter whose every command succeeds and prints nothing, like `find`
that finds no file. -/
def quietWorker : Hardener :=
  { RunCommand := fun _ _ _ => (true, "", none),
    CheckRegistry := fun _ _ _ => (false, none) }

/-- An adapter whose every command exits with status 1 and prints nothing, like
`grep` that selects no line. -/
def missWorker : Hardener :=
  { RunCommand := fun _ _ _ => (false, "", some (GoError.other "execution failed")),
    CheckRegistry := fun _ _ _ => (false, none) }

/-- The test `ApplyFix` applies to a token of the joined arguments to take it
as the assignment: it contains "=" and does not start with "-". -/
def isAssignment (p : String) : Bool :=
  strings.Contains p "=" && !strings.HasPrefix p "-"

/-- Following the words of the specification, not the code: a token is a
`key=value` assignment when it is a key, the sign "=" and a value, the key and
the value not empty. -/
def isKeyValue (p : String) : Bool :=
  !(p.data.takeWhile (fun c => c != '=')).isEmpty &&
    decide (1 < (p.data.dropWhile (fun c => c != '=')).length)

/-- A remediation whose one argument is an option of the form `--key=value`. -/
def optionAction : Action :=
  { Type_ := "command", Cmd := "sysctl", Args := ["--kernel.randomize_va_space=2"] }

/-- A remediation whose arguments have the sign "=" as a token of its own
before an assignment. -/
def spacedAction : Action :=
  { Type_ := "command", Cmd := "sysctl", Args := ["=", "k=v"] }

/-- A remediation that sets a kernel parameter with `sysctl -w`. -/
def sysctlAction : Action :=
  { Type_ := "command", Cmd := "sysctl", Args := ["-w", "kernel.randomize_va_space=2"] }

/-- The `/scan` handler from "FILTER LOGIC" on, which the `/export` handler
repeats: the rules of the policy are filtered by the profile and the policy is
audited.  `mapOrder` is the order in which the scheduler ranges over the ids
of the filtered rules. -/
def scanAudit (lib : GoLib) (worker : Hardener) (secManager : SecEditManager)
    (mapOrder : List String) (timedOut : Rule → Bool) (profile : String) (pol : Policy) :
    Option (List AuditResult) :=
  RunAudit lib worker secManager mapOrder timedOut
    { pol with Rules := filterRules profile pol.Rules }

/-! ## A policy with a rule apart -/

/-- A rule `B` that depends on nothing and on which nothing depends. -/
def loneRuleB : Rule := { ID := "B" }

/-- Three rules: `A`, the lone `B`, and `C` that depends on `A`. -/
def forkRules : List Rule := [ruleA, loneRuleB, ruleC]

/-! ## Deduplication -/

theorem dedupLoop_mem_ids (seen : List String) (rules : List Rule) (x : String) :
    x ∈ ruleIDs (dedupLoop seen rules) ↔ x ∈ ruleIDs rules ∧ x ∉ seen := by
  induction rules generalizing seen with
  | nil => simp [dedupLoop, ruleIDs]
  | cons r rs ih =>
    unfold dedupLoop
    by_cases h : r.ID ∈ seen
    · simp only [h, if_true]
      rw [ih]
      simp only [ruleIDs, List.map_cons, List.mem_cons]
      constructor
      · rintro ⟨h1, h2⟩; exact ⟨Or.inr h1, h2⟩
      · rintro ⟨h1 | h1, h2⟩
        · subst h1; exact absurd h h2
        · exact ⟨h1, h2⟩
    · simp only [h, if_false]
      have ih2 := ih (r.ID :: seen)
      simp only [ruleIDs, List.map_cons, List.mem_cons] at ih2 ⊢
      rw [ih2]
      constructor
      · rintro (h1 | ⟨h1, h2⟩)
        · subst h1; exact ⟨Or.inl rfl, h⟩
        · push_neg at h2; exact ⟨Or.inr h1, h2.2⟩
      · rintro ⟨h1 | h1, h2⟩
        · exact Or.inl h1
        · by_cases hx : x = r.ID
          · exact Or.inl hx
          · right; exact ⟨h1, by push_neg; exact ⟨hx, h2⟩⟩

theorem dedupLoop_nodup (seen : List String) (rules : List Rule) :
    (ruleIDs (dedupLoop seen rules)).Nodup := by
  induction rules generalizing seen with
  | nil => simp [dedupLoop, ruleIDs]
  | cons r rs ih =>
    unfold dedupLoop
    by_cases h : r.ID ∈ seen
    · simp only [h, if_true]; exact ih seen
    · simp only [h, if_false]
      have h1 := ih (r.ID :: seen)
      have h2 := dedupLoop_mem_ids (r.ID :: seen) rs r.ID
      simp only [ruleIDs, List.map_cons, List.nodup_cons] at h1 h2 ⊢
      refine ⟨?_, h1⟩
      intro hmem
      exact (h2.1 hmem).2 (List.mem_cons_self _ _)

theorem dedupLoop_find (seen : List String) (rules : List Rule) (r : Rule)
    (h : r ∈ dedupLoop seen rules) : rules.find? (fun q => q.ID = r.ID) = some r := by
  induction rules generalizing seen with
  | nil => simp [dedupLoop] at h
  | cons q rs ih =>
    unfold dedupLoop at h
    by_cases hq : q.ID ∈ seen
    · simp only [hq, if_true] at h
      have hne : q.ID ≠ r.ID := by
        intro e
        have := (dedupLoop_mem_ids seen rs r.ID).1 (List.mem_map_of_mem _ h)
        exact this.2 (e ▸ hq)
      simp [List.find?, hne, ih seen h]
    · simp only [hq, if_false, List.mem_cons] at h
      rcases h with h | h
      · subst h; simp [List.find?]
      · have hne : q.ID ≠ r.ID := by
          intro e
          have := (dedupLoop_mem_ids (q.ID :: seen) rs r.ID).1 (List.mem_map_of_mem _ h)
          exact this.2 (e ▸ List.mem_cons_self _ _)
        simp [List.find?, hne, ih _ h]

theorem uniqueRules_nodup (rules : List Rule) : (ruleIDs (uniqueRules rules)).Nodup :=
  dedupLoop_nodup [] rules

theorem uniqueRules_mem_ids (rules : List Rule) (x : String) :
    x ∈ ruleIDs (uniqueRules rules) ↔ x ∈ ruleIDs rules := by
  simp [uniqueRules, dedupLoop_mem_ids]

/-! ## The maps built in step 2 -/

theorem initMaps_graph (rs : List Rule) (g : Graph) : (initMaps rs g).graph = g.graph := by
  induction rs generalizing g with
  | nil => rfl
  | cons r rs ih => simp [initMaps, ih]

theorem initMaps_inDegree (rs : List Rule) (g : Graph) (h : ∀ x, g.inDegree x = 0) (x : String) :
    (initMaps rs g).inDegree x = 0 := by
  induction rs generalizing g with
  | nil => exact h x
  | cons r rs ih =>
    simp only [initMaps]
    apply ih
    intro y
    simp only [Function.update_apply]
    split <;> simp [h]

theorem initMaps_ruleMap_not_mem (rs : List Rule) (g : Graph) (x : String)
    (h : x ∉ ruleIDs rs) : (initMaps rs g).ruleMap x = g.ruleMap x := by
  induction rs generalizing g with
  | nil => rfl
  | cons r rs ih =>
    simp only [ruleIDs, List.map_cons, List.mem_cons, not_or] at h
    simp only [initMaps]
    rw [ih _ h.2]
    simp [Function.update_apply, h.1]

theorem initMaps_ruleMap_mem (rs : List Rule) (g : Graph) (r : Rule)
    (hnd : (ruleIDs rs).Nodup) (h : r ∈ rs) : (initMaps rs g).ruleMap r.ID = some r := by
  induction rs generalizing g with
  | nil => simp at h
  | cons q rs ih =>
    simp only [ruleIDs, List.map_cons, List.nodup_cons] at hnd
    simp only [initMaps]
    rcases List.mem_cons.1 h with h | h
    · subst h
      rw [initMaps_ruleMap_not_mem _ _ _ hnd.1]
      simp
    · exact ih _ hnd.2 h

theorem initMaps_ruleMap_isSome (rs : List Rule) (x : String) :
    ((initMaps rs emptyGraph).ruleMap x).isSome = decide (x ∈ ruleIDs rs) := by
  suffices h : ∀ g : Graph, ((initMaps rs g).ruleMap x).isSome
      = (decide (x ∈ ruleIDs rs) || (g.ruleMap x).isSome) by
    rw [h]; simp [emptyGraph]
  induction rs with
  | nil => intro g; simp [initMaps, ruleIDs]
  | cons r rs ih =>
    intro g
    simp only [initMaps]
    rw [ih]
    by_cases hx : x = r.ID
    · subst hx; simp [ruleIDs]
    · have hx2 : ¬ r.ID = x := fun e => hx e.symm
      simp [ruleIDs, Function.update_apply, hx, hx2]

theorem addEdges_ruleMap (rid : String) (deps : List String) (g : Graph) :
    (addEdges rid deps g).ruleMap = g.ruleMap := by
  induction deps generalizing g with
  | nil => rfl
  | cons d ds ih =>
    simp only [addEdges]
    split
    · exact ih g
    · rw [ih]

theorem addEdges_inDegree (rid : String) (deps : List String) (g : Graph) (x : String) :
    (addEdges rid deps g).inDegree x = g.inDegree x +
      (if x = rid then ((deps.filter (fun d => (g.ruleMap d).isSome)).length : Int) else 0) := by
  induction deps generalizing g with
  | nil => simp [addEdges]
  | cons d ds ih =>
    simp only [addEdges]
    split
    · rename_i hnone
      rw [ih]
      simp [List.filter_cons, hnone]
    · rename_i v hsome
      rw [ih]
      by_cases hx : x = rid
      · subst hx
        simp [List.filter_cons, hsome, Function.update_apply]
        omega
      · simp [hx, Function.update_apply]

theorem addEdges_graph_count (rid : String) (deps : List String) (g : Graph) (d x : String) :
    ((addEdges rid deps g).graph d).count x = (g.graph d).count x +
      (if x = rid then (deps.filter (fun e => (g.ruleMap e).isSome)).count d else 0) := by
  induction deps generalizing g with
  | nil => simp [addEdges]
  | cons e ds ih =>
    simp only [addEdges]
    split
    · rename_i hnone
      rw [ih]
      simp [List.filter_cons, hnone]
    · rename_i v hsome
      rw [ih]
      by_cases hx : x = rid
      · subst hx
        by_cases hd : d = e
        · subst hd
          simp [List.filter_cons, hsome, Function.update_apply, List.count_cons]
          omega
        · have hd2 : ¬ e = d := fun h => hd h.symm
          simp [List.filter_cons, hsome, Function.update_apply, List.count_cons, hd, hd2]
      · have hx2 : ¬ rid = x := fun h => hx h.symm
        by_cases hd : d = e
        · subst hd
          simp [hx, hx2, Function.update_apply, List.count_cons, List.count_append]
        · simp [hx, Function.update_apply, hd]

theorem populateEdges_ruleMap (rs : List Rule) (g : Graph) :
    (populateEdges rs g).ruleMap = g.ruleMap := by
  induction rs generalizing g with
  | nil => rfl
  | cons r rs ih => simp [populateEdges, ih, addEdges_ruleMap]

theorem populateEdges_inDegree (rs : List Rule) (g : Graph) (x : String) :
    (populateEdges rs g).inDegree x = g.inDegree x +
      (((rs.filter (fun r => r.ID = x)).flatMap
        (fun r => r.DependsOn.filter (fun d => (g.ruleMap d).isSome))).length : Int) := by
  induction rs generalizing g with
  | nil => simp [populateEdges]
  | cons r rs ih =>
    simp only [populateEdges]
    rw [ih, addEdges_inDegree, addEdges_ruleMap]
    by_cases hx : x = r.ID
    · subst hx; simp [List.filter_cons]; omega
    · have hx2 : ¬ r.ID = x := fun h => hx h.symm
      simp [List.filter_cons, hx, hx2]

theorem populateEdges_graph_count (rs : List Rule) (g : Graph) (d x : String) :
    ((populateEdges rs g).graph d).count x = (g.graph d).count x +
      ((rs.filter (fun r => r.ID = x)).flatMap
        (fun r => r.DependsOn.filter (fun e => (g.ruleMap e).isSome))).count d := by
  induction rs generalizing g with
  | nil => simp [populateEdges]
  | cons r rs ih =>
    simp only [populateEdges]
    rw [ih, addEdges_graph_count, addEdges_ruleMap]
    by_cases hx : x = r.ID
    · subst hx; simp [List.filter_cons]; omega
    · have hx2 : ¬ r.ID = x := fun h => hx h.symm
      simp [List.filter_cons, hx, hx2]

theorem presentDeps_eq (uniq : List Rule) :
    (fun r : Rule => r.DependsOn.filter
      (fun d => ((initMaps uniq emptyGraph).ruleMap d).isSome)) = presentDeps uniq := by
  funext r
  simp only [presentDeps, initMaps_ruleMap_isSome]

theorem buildGraph_inDegree (uniq : List Rule) (x : String) :
    (buildGraph uniq).inDegree x = ((depsOf uniq x).length : Int) := by
  unfold buildGraph
  rw [populateEdges_inDegree, initMaps_inDegree _ _ (fun _ => rfl), presentDeps_eq]
  simp [depsOf]

theorem buildGraph_graph_count (uniq : List Rule) (d x : String) :
    ((buildGraph uniq).graph d).count x = (depsOf uniq x).count d := by
  unfold buildGraph
  rw [populateEdges_graph_count, initMaps_graph, presentDeps_eq]
  simp [depsOf, emptyGraph]

theorem buildGraph_ruleMap_mem (uniq : List Rule) (hnd : (ruleIDs uniq).Nodup) (r : Rule)
    (h : r ∈ uniq) : (buildGraph uniq).ruleMap r.ID = some r := by
  unfold buildGraph
  rw [populateEdges_ruleMap]
  exact initMaps_ruleMap_mem _ _ _ hnd h

theorem mem_depsOf (uniq : List Rule) (a b : String) :
    a ∈ depsOf uniq b ↔ DependsEdge uniq a b := by
  simp only [depsOf, DependsEdge, presentDeps, List.mem_flatMap, List.mem_filter,
    decide_eq_true_eq]
  constructor
  · rintro ⟨r, ⟨hr, hid⟩, ha, hp⟩; exact ⟨r, hr, hid, ha, hp⟩
  · rintro ⟨r, hr, hid, ha, hp⟩; exact ⟨r, ⟨hr, hid⟩, ha, hp⟩

theorem depsOf_subset (uniq : List Rule) (a b : String) (h : a ∈ depsOf uniq b) :
    a ∈ ruleIDs uniq := by
  obtain ⟨_, _, _, _, hp⟩ := (mem_depsOf uniq a b).1 h
  exact hp

theorem depsOf_target (uniq : List Rule) (a b : String) (h : a ∈ depsOf uniq b) :
    b ∈ ruleIDs uniq := by
  obtain ⟨r, hr, hid, _, _⟩ := (mem_depsOf uniq a b).1 h
  exact hid ▸ List.mem_map_of_mem _ hr

/-! ## One pass of Kahn's algorithm -/

theorem relaxChildren_append (cs ds : List String) (st : (String → Int) × List String) :
    relaxChildren (cs ++ ds) st = relaxChildren ds (relaxChildren cs st) := by
  induction cs generalizing st with
  | nil => rfl
  | cons c cs ih =>
    obtain ⟨deg, nq⟩ := st
    simp only [List.cons_append, relaxChildren]
    exact ih _

theorem relaxChildren_inDegree (cs : List String) (deg : String → Int) (nq : List String)
    (x : String) : (relaxChildren cs (deg, nq)).1 x = deg x - (cs.count x : Int) := by
  induction cs generalizing deg nq with
  | nil => simp [relaxChildren]
  | cons c cs ih =>
    simp only [relaxChildren]
    rw [ih]
    by_cases hx : x = c
    · subst hx; simp [Function.update_apply, List.count_cons]; omega
    · have hx2 : ¬ c = x := fun h => hx h.symm
      simp [Function.update_apply, List.count_cons, hx, hx2]

theorem relaxChildren_nextQueue (cs : List String) (deg : String → Int) (nq : List String) :
    ∃ extra : List String, (relaxChildren cs (deg, nq)).2 = nq ++ extra ∧ extra.Nodup ∧
      ∀ x, x ∈ extra ↔ 0 < deg x ∧ deg x ≤ (cs.count x : Int) := by
  induction cs generalizing deg nq with
  | nil =>
    refine ⟨[], by simp [relaxChildren], List.nodup_nil, ?_⟩
    intro x; simp only [List.not_mem_nil, List.count_nil, false_iff]; intro h; simp at h; omega
  | cons c cs ih =>
    simp only [relaxChildren]
    obtain ⟨extra, h1, h2, h3⟩ := ih (Function.update deg c (deg c - 1))
      (if Function.update deg c (deg c - 1) c = 0 then nq ++ [c] else nq)
    have hupd : Function.update deg c (deg c - 1) c = deg c - 1 := by simp
    by_cases hc : deg c - 1 = 0
    · rw [hupd, if_pos hc] at h1
      rw [hupd, if_pos hc]
      refine ⟨c :: extra, ?_, ?_, ?_⟩
      · rw [h1]; simp
      · refine List.nodup_cons.2 ⟨?_, h2⟩
        intro hmem
        have := (h3 c).1 hmem
        rw [hupd] at this
        omega
      · intro x
        by_cases hx : x = c
        · subst hx
          simp only [List.mem_cons, true_or, List.count_cons_self, true_iff]
          constructor
          · omega
          · push_cast; omega
        · have hx2 : ¬ c = x := fun h => hx h.symm
          simp only [List.mem_cons, hx, false_or]
          rw [h3 x]
          simp [Function.update_apply, hx, List.count_cons, hx2]
    · rw [hupd, if_neg hc] at h1
      rw [hupd, if_neg hc]
      refine ⟨extra, h1, h2, ?_⟩
      intro x
      rw [h3 x]
      by_cases hx : x = c
      · subst hx
        rw [hupd]
        simp only [List.count_cons_self]
        push_cast
        constructor
        · rintro ⟨a, b⟩; exact ⟨by omega, by omega⟩
        · rintro ⟨a, b⟩; exact ⟨by omega, by omega⟩
      · have hx2 : ¬ c = x := fun h => hx h.symm
        simp [Function.update_apply, hx, List.count_cons, hx2]

theorem processQueue_relax (g : Graph) (q : List String) (st : LayerState) :
    ((processQueue g q st).inDegree, (processQueue g q st).nextQueue)
      = relaxChildren (q.flatMap g.graph) (st.inDegree, st.nextQueue) := by
  induction q generalizing st with
  | nil => simp [processQueue, relaxChildren]
  | cons p q ih =>
    simp only [processQueue, List.flatMap_cons, relaxChildren_append]
    rw [ih]

theorem processQueue_layer (g : Graph) (q : List String) (st : LayerState) :
    (processQueue g q st).currentLayer
      = st.currentLayer ++ q.map (fun id => (g.ruleMap id).getD zeroRule) := by
  induction q generalizing st with
  | nil => simp [processQueue]
  | cons p q ih => simp [processQueue, ih]

theorem processQueue_count (g : Graph) (q : List String) (st : LayerState) :
    (processQueue g q st).processedCount = st.processedCount + q.length := by
  induction q generalizing st with
  | nil => simp [processQueue]
  | cons p q ih => simp [processQueue, ih]; omega

/-- For a duplicate-free `q`, the occurrences in `l` of members of `q`, counted
member by member. -/
theorem count_flatMap_nodup (graph : String → List String) (deps : String → List String)
    (hg : ∀ d x, (graph d).count x = (deps x).count d) (q : List String) (hq : q.Nodup)
    (x : String) :
    (q.flatMap graph).count x = ((deps x).filter (fun d => d ∈ q)).length := by
  induction q with
  | nil => simp
  | cons p q ih =>
    have hp := (List.nodup_cons.1 hq)
    rw [List.flatMap_cons, List.count_append, ih hp.2, hg]
    generalize deps x = l
    induction l with
    | nil => simp
    | cons a l ihl =>
      by_cases hap : a = p
      · subst hap
        simp only [List.count_cons_self, List.filter_cons, List.mem_cons, true_or, decide_True,
          if_true, List.length_cons, hp.1, decide_False, Bool.false_eq_true, if_false] at ihl ⊢
        omega
      · have hpa : ¬ p = a := fun h => hap h.symm
        by_cases haq : a ∈ q
        · simp only [List.count_cons, List.filter_cons, List.mem_cons, hap, haq, false_or,
            decide_True, if_true, List.length_cons, beq_iff_eq, if_false, or_true] at ihl ⊢
          omega
        · simp only [List.count_cons, List.filter_cons, List.mem_cons, hap, haq, false_or,
            decide_False, Bool.false_eq_true, if_false, beq_iff_eq, or_false] at ihl ⊢
          omega

/-! ## The invariant of the outer loop -/

theorem mem_flatten_iff_inLayer (Ls : List (List String)) (x : String) :
    x ∈ Ls.flatten ↔ ∃ i, InLayer Ls i x := by
  simp only [List.mem_flatten, InLayer]
  constructor
  · rintro ⟨L, hL, hx⟩
    obtain ⟨i, hi, rfl⟩ := List.getElem_of_mem hL
    exact ⟨i, _, List.getElem?_eq_getElem hi, hx⟩
  · rintro ⟨i, L, hL, hx⟩
    exact ⟨L, List.getElem?_mem hL, hx⟩

theorem inLayer_append (Ls : List (List String)) (Q : List String) (i : Nat) (x : String) :
    InLayer (Ls ++ [Q]) i x ↔ InLayer Ls i x ∨ (i = Ls.length ∧ x ∈ Q) := by
  unfold InLayer
  rcases Nat.lt_trichotomy i Ls.length with h | h | h
  · rw [List.getElem?_append_left h]
    constructor
    · intro h1; exact Or.inl h1
    · rintro (h1 | ⟨h1, _⟩)
      · exact h1
      · omega
  · subst h
    simp
  · rw [List.getElem?_eq_none (by simp; omega)]
    rw [List.getElem?_eq_none (by omega)]
    simp; omega

theorem inLayer_lt (Ls : List (List String)) (i : Nat) (x : String) (h : InLayer Ls i x) :
    i < Ls.length := by
  obtain ⟨L, hL, _⟩ := h
  by_contra hc
  rw [List.getElem?_eq_none (by omega)] at hL
  cases hL

theorem placed_append (uniq : List Rule) (Ls : List (List String)) (Q : List String) (i : Nat)
    (x : String) (h : Placed uniq Ls i x) : Placed uniq (Ls ++ [Q]) i x := by
  refine ⟨?_, ?_⟩
  · intro d hd
    obtain ⟨j, hj, hin⟩ := h.1 d hd
    exact ⟨j, hj, (inLayer_append _ _ _ _).2 (Or.inl hin)⟩
  · intro hi
    obtain ⟨d, hd, hin⟩ := h.2 hi
    exact ⟨d, hd, (inLayer_append _ _ _ _).2 (Or.inl hin)⟩

theorem filter_split_length (D Q l : List String) (hdisj : ∀ a ∈ Q, a ∉ D) :
    (l.filter (fun d => d ∉ D)).length
      = (l.filter (fun d => d ∉ D ++ Q)).length + (l.filter (fun d => d ∈ Q)).length := by
  induction l with
  | nil => simp
  | cons a l ih =>
    by_cases hD : a ∈ D
    · have hQ : a ∉ Q := fun h => hdisj a h hD
      simp [List.filter_cons, hD, hQ] at ih ⊢
      exact ih
    · by_cases hQ : a ∈ Q
      · simp [List.filter_cons, hD, hQ] at ih ⊢
        omega
      · simp [List.filter_cons, hD, hQ] at ih ⊢
        omega

theorem KahnInv.deg_zero {uniq : List Rule} {Ls : List (List String)} {Q : List String}
    {deg : String → Int} (inv : KahnInv uniq Ls Q deg) (x : String)
    (hx : x ∈ Ls.flatten ++ Q) : deg x = 0 := by
  have hall : ∀ d ∈ depsOf uniq x, d ∈ Ls.flatten := by
    intro d hd
    rcases List.mem_append.1 hx with h | h
    · obtain ⟨i, hi⟩ := (mem_flatten_iff_inLayer _ _).1 h
      obtain ⟨j, _, hin⟩ := (inv.layer_ok i x hi).1 d hd
      exact (mem_flatten_iff_inLayer _ _).2 ⟨j, hin⟩
    · obtain ⟨j, _, hin⟩ := (inv.queue_ok x h).1 d hd
      exact (mem_flatten_iff_inLayer _ _).2 ⟨j, hin⟩
  rw [inv.deg_eq]
  have : (depsOf uniq x).filter (fun d => d ∉ Ls.flatten) = [] := by
    rw [List.filter_eq_nil_iff]
    intro d hd
    simp [hall d hd]
  rw [this]; rfl

theorem KahnInv.step {uniq : List Rule} {Ls : List (List String)} {Q : List String}
    {deg : String → Int} (inv : KahnInv uniq Ls Q deg) (hQ : Q ≠ []) (st : LayerState)
    (hst : st.inDegree = deg ∧ st.nextQueue = []) :
    KahnInv uniq (Ls ++ [Q]) (processQueue (buildGraph uniq) Q st).nextQueue
      (processQueue (buildGraph uniq) Q st).inDegree := by
  have hrel := processQueue_relax (buildGraph uniq) Q st
  rw [hst.1, hst.2] at hrel
  have hQnd : Q.Nodup := (List.nodup_append.1 inv.nodup).2.1
  have hdisj : ∀ a ∈ Q, a ∉ Ls.flatten := by
    intro a ha hD
    exact (List.nodup_append.1 inv.nodup).2.2 hD ha
  have hcount : ∀ x, (Q.flatMap (buildGraph uniq).graph).count x
      = ((depsOf uniq x).filter (fun d => d ∈ Q)).length :=
    fun x => count_flatMap_nodup _ (depsOf uniq) (buildGraph_graph_count uniq) Q hQnd x
  have hdeg : ∀ x, (processQueue (buildGraph uniq) Q st).inDegree x
      = deg x - (((depsOf uniq x).filter (fun d => d ∈ Q)).length : Int) := by
    intro x
    have := congrArg (fun p => p.1 x) hrel
    simp only at this
    rw [this, relaxChildren_inDegree, hcount]
  obtain ⟨extra, hnq, hextra_nd, hextra⟩ :=
    relaxChildren_nextQueue (Q.flatMap (buildGraph uniq).graph) deg []
  have hnq2 : (processQueue (buildGraph uniq) Q st).nextQueue = extra := by
    have := congrArg (fun p => p.2) hrel
    simp only at this
    rw [this, hnq]; simp
  have hflat : (Ls ++ [Q]).flatten = Ls.flatten ++ Q := by simp
  have hsplit := fun x => filter_split_length Ls.flatten Q (depsOf uniq x) hdisj
  have hdeg2 : ∀ x, (processQueue (buildGraph uniq) Q st).inDegree x
      = (((depsOf uniq x).filter (fun d => d ∉ Ls.flatten ++ Q)).length : Int) := by
    intro x
    rw [hdeg, inv.deg_eq, hsplit x]
    push_cast; omega
  have hextra_pos : ∀ x ∈ extra, 0 < deg x := fun x hx => ((hextra x).1 hx).1
  have hextra_not : ∀ x ∈ extra, x ∉ Ls.flatten ++ Q := by
    intro x hx hmem
    have := inv.deg_zero x hmem
    have := hextra_pos x hx
    omega
  rw [hnq2]
  refine ⟨?_, ?_, ?_, ?_, ?_, ?_, ?_⟩
  · rw [hflat]
    refine List.nodup_append.2 ⟨inv.nodup, hextra_nd, ?_⟩
    intro a ha hb
    exact hextra_not a hb ha
  · intro x hx
    rw [hflat] at hx
    rcases List.mem_append.1 hx with h | h
    · exact inv.sub x h
    · have hpos := hextra_pos x h
      rw [inv.deg_eq] at hpos
      have hne : (depsOf uniq x).filter (fun d => d ∉ Ls.flatten) ≠ [] := by
        intro e; rw [e] at hpos; simp at hpos
      obtain ⟨d, hd⟩ := List.exists_mem_of_ne_nil _ hne
      exact depsOf_target uniq d x (List.mem_filter.1 hd).1
  · intro x; rw [hflat]; exact hdeg2 x
  · intro x hx hz
    rw [hflat]
    by_cases h0 : deg x = 0
    · exact List.mem_append_left _ (inv.zero_mem x hx h0)
    · apply List.mem_append_right
      rw [hextra, hcount]
      rw [hdeg] at hz
      have hnn : 0 ≤ deg x := by rw [inv.deg_eq]; exact Int.natCast_nonneg _
      constructor <;> omega
  · intro L hL
    rcases List.mem_append.1 hL with h | h
    · exact inv.layers_ne L h
    · simp at h; subst h; exact hQ
  · intro i x hin
    rcases (inLayer_append _ _ _ _).1 hin with h | ⟨h1, h2⟩
    · exact placed_append _ _ _ _ _ (inv.layer_ok i x h)
    · subst h1; exact placed_append _ _ _ _ _ (inv.queue_ok x h2)
  · intro x hx
    have h1 := (hextra x).1 hx
    rw [hcount] at h1
    have hz : (((depsOf uniq x).filter (fun d => d ∉ Ls.flatten ++ Q)).length : Int) = 0 := by
      have a := hdeg2 x
      have b := hdeg x
      have c : (0:Int) ≤ (((depsOf uniq x).filter (fun d => d ∉ Ls.flatten ++ Q)).length : Int) :=
        Int.natCast_nonneg _
      omega
    have hnil : (depsOf uniq x).filter (fun d => d ∉ Ls.flatten ++ Q) = [] := by
      apply List.eq_nil_of_length_eq_zero; exact_mod_cast hz
    rw [List.filter_eq_nil_iff] at hnil
    refine ⟨?_, ?_⟩
    · intro d hd
      have hmem : d ∈ Ls.flatten ++ Q := by
        by_contra hc
        exact hnil d hd (decide_eq_true hc)
      rcases List.mem_append.1 hmem with h | h
      · obtain ⟨j, hj⟩ := (mem_flatten_iff_inLayer _ _).1 h
        refine ⟨j, ?_, (inLayer_append _ _ _ _).2 (Or.inl hj)⟩
        have := inLayer_lt _ _ _ hj
        simp; omega
      · exact ⟨Ls.length, by simp, (inLayer_append _ _ _ _).2 (Or.inr ⟨rfl, h⟩)⟩
    · intro _
      have hne : (depsOf uniq x).filter (fun d => d ∈ Q) ≠ [] := by
        intro e; rw [e] at h1; simp at h1; omega
      obtain ⟨d, hd⟩ := List.exists_mem_of_ne_nil _ hne
      have hd2 := List.mem_filter.1 hd
      refine ⟨d, hd2.1, (inLayer_append _ _ _ _).2 (Or.inr ⟨by simp, by simpa using hd2.2⟩)⟩

/-! ## The whole loop -/

theorem kahnInv_init (uniq : List Rule) (mapOrder : List String)
    (hperm : mapOrder.Perm (ruleIDs uniq)) (hnd : (ruleIDs uniq).Nodup) :
    KahnInv uniq [] (mapOrder.filter (fun id => (buildGraph uniq).inDegree id = 0))
      (buildGraph uniq).inDegree := by
  have hzero : ∀ x, (buildGraph uniq).inDegree x = 0 → depsOf uniq x = [] := by
    intro x hx
    rw [buildGraph_inDegree] at hx
    apply List.eq_nil_of_length_eq_zero; exact_mod_cast hx
  refine ⟨?_, ?_, ?_, ?_, ?_, ?_, ?_⟩
  · simp only [List.flatten_nil, List.nil_append]
    exact List.Nodup.filter _ ((hperm.nodup_iff).2 hnd)
  · intro x hx
    simp only [List.flatten_nil, List.nil_append] at hx
    exact hperm.subset (List.mem_filter.1 hx).1
  · intro x
    rw [buildGraph_inDegree]
    simp
  · intro x hx hz
    simp only [List.flatten_nil, List.nil_append]
    exact List.mem_filter.2 ⟨hperm.symm.subset hx, by simpa using hz⟩
  · intro L hL; simp at hL
  · intro i x hin
    obtain ⟨L, hL, _⟩ := hin
    simp at hL
  · intro x hx
    have hz := (List.mem_filter.1 hx).2
    have hnil := hzero x (by simpa using hz)
    refine ⟨?_, ?_⟩
    · intro d hd; rw [hnil] at hd; simp at hd
    · intro h; simp at h

theorem kahnLoop_spec (uniq : List Rule) (fuel : Nat) (Ls : List (List String))
    (Q : List String) (deg : String → Int) (inv : KahnInv uniq Ls Q deg)
    (hfuel : (ruleIDs uniq).length < fuel + Ls.flatten.length) :
    ∃ Ls1 deg1, KahnInv uniq Ls1 [] deg1 ∧
      kahnLoop (buildGraph uniq) fuel Q deg (Ls.map (List.map (ruleOf (buildGraph uniq))))
          Ls.flatten.length
        = some (Ls1.map (List.map (ruleOf (buildGraph uniq))), Ls1.flatten.length) := by
  induction fuel generalizing Ls Q deg with
  | zero =>
    cases Q with
    | nil => exact ⟨Ls, deg, inv, by simp [kahnLoop]⟩
    | cons p rest =>
      exfalso
      have hle := (List.Nodup.subperm inv.nodup inv.sub).length_le
      simp at hle hfuel
      omega
  | succ fuel ih =>
    cases Q with
    | nil => exact ⟨Ls, deg, inv, by simp [kahnLoop]⟩
    | cons p rest =>
      have hstep := inv.step (List.cons_ne_nil p rest)
        { inDegree := deg, currentLayer := [], nextQueue := [],
          processedCount := Ls.flatten.length } ⟨rfl, rfl⟩
      have hfuel2 : (ruleIDs uniq).length < fuel + (Ls ++ [p :: rest]).flatten.length := by
        simp at hfuel ⊢; omega
      obtain ⟨Ls1, deg1, inv1, h1⟩ := ih _ _ _ hstep hfuel2
      refine ⟨Ls1, deg1, inv1, ?_⟩
      rw [← h1]
      simp only [kahnLoop]
      rw [processQueue_layer, processQueue_count]
      simp only [List.nil_append, List.map_append, List.map_cons, List.map_nil,
        List.flatten_append, List.flatten_cons, List.flatten_nil, List.length_append,
        List.append_nil]
      rfl

theorem ruleOf_mem (uniq : List Rule) (hnd : (ruleIDs uniq).Nodup) (r : Rule) (h : r ∈ uniq) :
    ruleOf (buildGraph uniq) r.ID = r := by
  simp [ruleOf, buildGraph_ruleMap_mem uniq hnd r h]

theorem ruleOf_id (uniq : List Rule) (hnd : (ruleIDs uniq).Nodup) (x : String)
    (h : x ∈ ruleIDs uniq) :
    ruleOf (buildGraph uniq) x ∈ uniq ∧ (ruleOf (buildGraph uniq) x).ID = x := by
  obtain ⟨r, hr, rfl⟩ := List.mem_map.1 h
  rw [ruleOf_mem uniq hnd r hr]
  exact ⟨hr, rfl⟩

theorem map_ruleOf_ids (uniq : List Rule) (hnd : (ruleIDs uniq).Nodup) :
    (ruleIDs uniq).map (ruleOf (buildGraph uniq)) = uniq := by
  simp only [ruleIDs, List.map_map]
  conv_rhs => rw [← List.map_id uniq]
  apply List.map_congr_left
  intro r hr
  simp [ruleOf_mem uniq hnd r hr]

/-- What `SortRules` returns, in terms of the final state of the loop. -/
theorem SortRules_spec (mapOrder : List String) (rules : List Rule)
    (hperm : mapOrder.Perm (ruleIDs (uniqueRules rules))) :
    ∃ Ls deg, KahnInv (uniqueRules rules) Ls [] deg ∧
      SortRules mapOrder rules = some
        (if Ls.flatten.length ≠ (uniqueRules rules).length then
          Except.error (SortError.circular Ls.flatten.length (uniqueRules rules).length)
        else Except.ok (Ls.map (List.map (ruleOf (buildGraph (uniqueRules rules)))))) := by
  have hnd := uniqueRules_nodup rules
  have inv0 := kahnInv_init (uniqueRules rules) mapOrder hperm hnd
  have hlen : (ruleIDs (uniqueRules rules)).length = (uniqueRules rules).length := by
    simp [ruleIDs]
  obtain ⟨Ls, deg, inv, h⟩ := kahnLoop_spec (uniqueRules rules) ((uniqueRules rules).length + 1)
    [] _ _ inv0 (by simp [hlen])
  refine ⟨Ls, deg, inv, ?_⟩
  simp only [List.map_nil, List.flatten_nil, List.length_nil] at h
  simp only [SortRules, h]
  split <;> rfl

/-! ## Consequences of the invariant at loop exit -/

theorem KahnInv.length_le {uniq : List Rule} {Ls : List (List String)} {Q : List String}
    {deg : String → Int} (inv : KahnInv uniq Ls Q deg) :
    Ls.flatten.length ≤ uniq.length := by
  have h := (List.Nodup.subperm inv.nodup inv.sub).length_le
  simp only [List.length_append, ruleIDs, List.length_map] at h
  omega

theorem KahnInv.perm_of_length {uniq : List Rule} {Ls : List (List String)}
    {deg : String → Int} (inv : KahnInv uniq Ls [] deg)
    (hlen : Ls.flatten.length = uniq.length) : Ls.flatten.Perm (ruleIDs uniq) := by
  have hsub := List.Nodup.subperm inv.nodup inv.sub
  rw [List.append_nil] at hsub
  exact hsub.perm_of_length_le (by simp [ruleIDs, hlen])

theorem KahnInv.layers_perm {uniq : List Rule} {Ls : List (List String)}
    {deg : String → Int} (inv : KahnInv uniq Ls [] deg) (hnd : (ruleIDs uniq).Nodup)
    (hlen : Ls.flatten.length = uniq.length) :
    (Ls.map (List.map (ruleOf (buildGraph uniq)))).flatten.Perm uniq := by
  rw [← List.map_flatten]
  have h := (inv.perm_of_length hlen).map (ruleOf (buildGraph uniq))
  rwa [map_ruleOf_ids uniq hnd] at h

theorem KahnInv.complete_of_acyclic {uniq : List Rule} {Ls : List (List String)}
    {deg : String → Int} (inv : KahnInv uniq Ls [] deg) (hac : Acyclic uniq) :
    ∀ x ∈ ruleIDs uniq, x ∈ Ls.flatten := by
  let T := {x : String // x ∈ ruleIDs uniq}
  let r : T → T → Prop := fun a b => Relation.TransGen (DependsEdge uniq) a.1 b.1
  haveI : IsTrans T r := ⟨fun a b c hab hbc => Relation.TransGen.trans hab hbc⟩
  haveI : IsIrrefl T r := ⟨fun a h => hac a.1 h⟩
  have hwf : WellFounded r := Finite.wellFounded_of_trans_of_irrefl r
  by_contra hcon
  push_neg at hcon
  obtain ⟨x, hx, hxD⟩ := hcon
  obtain ⟨m, hm, hmin⟩ := hwf.has_min {t : T | t.1 ∉ Ls.flatten} ⟨⟨x, hx⟩, hxD⟩
  have hm2 : m.1 ∉ Ls.flatten := hm
  have hdeg : deg m.1 ≠ 0 := by
    intro h0
    have := inv.zero_mem m.1 m.2 h0
    rw [List.append_nil] at this
    exact hm2 this
  rw [inv.deg_eq] at hdeg
  have hne : (depsOf uniq m.1).filter (fun d => d ∉ Ls.flatten) ≠ [] := by
    intro e; rw [e] at hdeg; simp at hdeg
  obtain ⟨d, hd⟩ := List.exists_mem_of_ne_nil _ hne
  have hd2 := List.mem_filter.1 hd
  have hdD : d ∉ Ls.flatten := by simpa using hd2.2
  exact hmin ⟨d, depsOf_subset uniq d m.1 hd2.1⟩ hdD
    (Relation.TransGen.single ((mem_depsOf uniq d m.1).1 hd2.1))

theorem KahnInv.length_of_acyclic {uniq : List Rule} {Ls : List (List String)}
    {deg : String → Int} (inv : KahnInv uniq Ls [] deg) (hnd : (ruleIDs uniq).Nodup)
    (hac : Acyclic uniq) : Ls.flatten.length = uniq.length := by
  have h1 := inv.length_le
  have h2 := (List.Nodup.subperm hnd (inv.complete_of_acyclic hac)).length_le
  simp only [ruleIDs, List.length_map] at h2
  omega

theorem KahnInv.path_lt {uniq : List Rule} {Ls : List (List String)} {Q : List String}
    {deg : String → Int} (inv : KahnInv uniq Ls Q deg) (a b : String)
    (h : Relation.TransGen (DependsEdge uniq) a b) :
    ∀ i, InLayer Ls i b → ∃ j, j < i ∧ InLayer Ls j a := by
  induction h with
  | single hab =>
    intro i hi
    exact (inv.layer_ok i _ hi).1 a ((mem_depsOf uniq a _).2 hab)
  | tail _ hbc ih =>
    intro i hi
    obtain ⟨j, hj, hin⟩ := (inv.layer_ok i _ hi).1 _ ((mem_depsOf uniq _ _).2 hbc)
    obtain ⟨k, hk, hin2⟩ := ih j hin
    exact ⟨k, by omega, hin2⟩

theorem KahnInv.not_mem_of_cycle {uniq : List Rule} {Ls : List (List String)} {Q : List String}
    {deg : String → Int} (inv : KahnInv uniq Ls Q deg) (x : String)
    (h : Relation.TransGen (DependsEdge uniq) x x) : x ∉ Ls.flatten := by
  intro hmem
  obtain ⟨i, hi⟩ := (mem_flatten_iff_inLayer _ _).1 hmem
  induction i using Nat.strong_induction_on with
  | _ i ih =>
    obtain ⟨j, hj, hin⟩ := inv.path_lt x x h i hi
    exact ih j hj hin

theorem transGen_target_mem (uniq : List Rule) (a b : String)
    (h : Relation.TransGen (DependsEdge uniq) a b) : b ∈ ruleIDs uniq := by
  cases h with
  | single hab => exact depsOf_target uniq a b ((mem_depsOf _ _ _).2 hab)
  | tail _ hcb => exact depsOf_target uniq _ b ((mem_depsOf _ _ _).2 hcb)

theorem KahnInv.length_of_cycle {uniq : List Rule} {Ls : List (List String)}
    {deg : String → Int} (inv : KahnInv uniq Ls [] deg) (x : String)
    (h : Relation.TransGen (DependsEdge uniq) x x) : Ls.flatten.length ≠ uniq.length := by
  intro hlen
  have hperm := inv.perm_of_length hlen
  exact inv.not_mem_of_cycle x h (hperm.symm.subset (transGen_target_mem uniq x x h))

theorem inLayer_unique (Ls : List (List String)) (hnd : Ls.flatten.Nodup) (i j : Nat)
    (x : String) (hi : InLayer Ls i x) (hj : InLayer Ls j x) : i = j := by
  induction Ls generalizing i j with
  | nil => obtain ⟨L, hL, _⟩ := hi; simp at hL
  | cons L Ls ih =>
    rw [List.flatten_cons, List.nodup_append] at hnd
    obtain ⟨_, hnd2, hdisj⟩ := hnd
    have key : ∀ k, InLayer (L :: Ls) (k + 1) x → x ∈ Ls.flatten := by
      intro k hk
      obtain ⟨M, hM, hx⟩ := hk
      rw [List.getElem?_cons_succ] at hM
      exact (mem_flatten_iff_inLayer _ _).2 ⟨k, M, hM, hx⟩
    cases i with
    | zero =>
      cases j with
      | zero => rfl
      | succ j =>
        exfalso
        obtain ⟨M, hM, hx⟩ := hi
        simp at hM; subst hM
        exact hdisj hx (key j hj)
    | succ i =>
      cases j with
      | zero =>
        exfalso
        obtain ⟨M, hM, hx⟩ := hj
        simp at hM; subst hM
        exact hdisj hx (key i hi)
      | succ j =>
        have hi2 : InLayer Ls i x := by
          obtain ⟨M, hM, hx⟩ := hi
          rw [List.getElem?_cons_succ] at hM
          exact ⟨M, hM, hx⟩
        have hj2 : InLayer Ls j x := by
          obtain ⟨M, hM, hx⟩ := hj
          rw [List.getElem?_cons_succ] at hM
          exact ⟨M, hM, hx⟩
        rw [ih hnd2 i j hi2 hj2]

/-! ## From a successful call to the invariant -/

theorem SortRules_ok_inv (mapOrder : List String) (rules : List Rule)
    (hord : mapOrder.Perm (ruleIDs (uniqueRules rules))) (layers : List (List Rule))
    (hok : SortRules mapOrder rules = some (Except.ok layers)) :
    ∃ Ls deg, KahnInv (uniqueRules rules) Ls [] deg ∧
      Ls.flatten.length = (uniqueRules rules).length ∧
      layers = Ls.map (List.map (ruleOf (buildGraph (uniqueRules rules)))) := by
  obtain ⟨Ls, deg, inv, h⟩ := SortRules_spec mapOrder rules hord
  refine ⟨Ls, deg, inv, ?_⟩
  rw [h] at hok
  by_cases hlen : Ls.flatten.length = (uniqueRules rules).length
  · rw [if_neg (not_not.2 hlen)] at hok
    simp only [Option.some.injEq, Except.ok.injEq] at hok
    exact ⟨hlen, hok.symm⟩
  · rw [if_pos hlen] at hok
    cases hok

theorem layers_inLayer (uniq : List Rule) (hnd : (ruleIDs uniq).Nodup)
    (Ls : List (List String)) (hsub : ∀ x ∈ Ls.flatten, x ∈ ruleIDs uniq)
    (i : Nat) (L : List Rule) (r : Rule)
    (hL : (Ls.map (List.map (ruleOf (buildGraph uniq))))[i]? = some L) (hr : r ∈ L) :
    r ∈ uniq ∧ InLayer Ls i r.ID := by
  rw [List.getElem?_map] at hL
  cases hM : Ls[i]? with
  | none => rw [hM] at hL; simp at hL
  | some M =>
    rw [hM] at hL
    simp only [Option.map_some', Option.some.injEq] at hL
    subst hL
    obtain ⟨x, hx, rfl⟩ := List.mem_map.1 hr
    have hxids := hsub x ((mem_flatten_iff_inLayer _ _).2 ⟨i, M, hM, hx⟩)
    have := ruleOf_id uniq hnd x hxids
    exact ⟨this.1, M, hM, by rw [this.2]; exact hx⟩

theorem inLayer_layers (uniq : List Rule) (hnd : (ruleIDs uniq).Nodup)
    (Ls : List (List String)) (hsub : ∀ x ∈ Ls.flatten, x ∈ ruleIDs uniq)
    (i : Nat) (x : String) (h : InLayer Ls i x) :
    ∃ L, (Ls.map (List.map (ruleOf (buildGraph uniq))))[i]? = some L ∧
      ∃ q ∈ L, q.ID = x := by
  obtain ⟨M, hM, hx⟩ := h
  refine ⟨M.map (ruleOf (buildGraph uniq)), by simp [List.getElem?_map, hM], ?_⟩
  have hxids := hsub x ((mem_flatten_iff_inLayer _ _).2 ⟨i, M, hM, hx⟩)
  exact ⟨ruleOf (buildGraph uniq) x, List.mem_map_of_mem _ hx, (ruleOf_id uniq hnd x hxids).2⟩

theorem depsOf_eq_presentDeps (uniq : List Rule) (hnd : (ruleIDs uniq).Nodup) (r : Rule)
    (hr : r ∈ uniq) : depsOf uniq r.ID = presentDeps uniq r := by
  have hfil : uniq.filter (fun q => q.ID = r.ID) = [r] := by
    clear * - hnd hr
    induction uniq with
    | nil => simp at hr
    | cons q qs ih =>
      simp only [ruleIDs, List.map_cons, List.nodup_cons] at hnd
      rcases List.mem_cons.1 hr with h | h
      · subst h
        have : qs.filter (fun q => q.ID = r.ID) = [] := by
          rw [List.filter_eq_nil_iff]
          intro q hq hid
          exact hnd.1 (by simp at hid; rw [← hid]; exact List.mem_map_of_mem _ hq)
        simp [List.filter_cons, this]
      · have hne : ¬ q.ID = r.ID := by
          intro e; exact hnd.1 (e ▸ List.mem_map_of_mem _ h)
        simp only [List.filter_cons, hne, decide_False, Bool.false_eq_true, if_false]
        exact ih hnd.2 h
  simp [depsOf, hfil]

theorem layerIndex_eq (layers : List (List Rule)) (id : String) (k : Nat) (L : List Rule)
    (hL : layers[k]? = some L) (hin : ∃ q ∈ L, q.ID = id)
    (hbefore : ∀ j M, j < k → layers[j]? = some M → ∀ q ∈ M, q.ID ≠ id) :
    layerIndex layers id = k := by
  induction layers generalizing k with
  | nil => simp at hL
  | cons M Ms ih =>
    cases k with
    | zero =>
      simp only [List.getElem?_cons_zero, Option.some.injEq] at hL
      subst hL
      obtain ⟨q, hq, hid⟩ := hin
      have : M.any (fun q => decide (q.ID = id)) = true := by
        rw [List.any_eq_true]; exact ⟨q, hq, by simp [hid]⟩
      simp [layerIndex, this]
    | succ k =>
      have h0 : M.any (fun q => decide (q.ID = id)) = false := by
        rw [Bool.eq_false_iff]
        intro h
        rw [List.any_eq_true] at h
        obtain ⟨q, hq, hid⟩ := h
        exact hbefore 0 M (by omega) (by simp) q hq (by simpa using hid)
      simp only [layerIndex, h0, Bool.false_eq_true, if_false, add_left_inj]
      apply ih k
      · simpa using hL
      · intro j M2 hj hM2
        exact hbefore (j + 1) M2 (by omega) (by simpa using hM2)

theorem foldr_max_le (l : List Nat) (b : Nat) (h : ∀ x ∈ l, x ≤ b) : l.foldr max 0 ≤ b := by
  induction l with
  | nil => simp
  | cons a l ih =>
    simp only [List.foldr_cons]
    exact max_le (h a (List.mem_cons_self _ _)) (ih (fun x hx => h x (List.mem_cons_of_mem _ hx)))

theorem le_foldr_max (l : List Nat) (x : Nat) (h : x ∈ l) : x ≤ l.foldr max 0 := by
  induction l with
  | nil => simp at h
  | cons a l ih =>
    simp only [List.foldr_cons]
    rcases List.mem_cons.1 h with h | h
    · subst h; exact le_max_left _ _
    · exact le_trans (ih h) (le_max_right _ _)

/-! ## Scheduler claims -/

theorem acyclic_of_rank (uniq : List Rule) (f : String → Nat)
    (h : ∀ r ∈ uniq, ∀ a ∈ r.DependsOn, a ∈ ruleIDs uniq → f a < f r.ID) : Acyclic uniq := by
  have hmono : ∀ a b, Relation.TransGen (DependsEdge uniq) a b → f a < f b := by
    intro a b hab
    induction hab with
    | single e =>
      obtain ⟨r, hr, hid, ha, hp⟩ := e
      exact hid ▸ h r hr a ha hp
    | tail _ e ih =>
      obtain ⟨r, hr, hid, ha, hp⟩ := e
      exact lt_trans ih (hid ▸ h r hr _ ha hp)
  intro x hx
  exact lt_irrefl _ (hmono x x hx)

theorem SortRules_total (mapOrder : List String) (rules : List Rule)
    (hord : mapOrder.Perm (ruleIDs (uniqueRules rules))) :
    SortRules mapOrder rules ≠ none := by
  obtain ⟨Ls, deg, _, h⟩ := SortRules_spec mapOrder rules hord
  rw [h]; simp

/-- C1: whenever the dependency graph of the deduplicated rules (references to
absent ids dropped) is acyclic, `SortRules` succeeds, and the concatenation of
the layers is a duplicate-free permutation of the deduplicated rule list. -/
theorem SortRules_acyclic_permutation (mapOrder : List String) (rules : List Rule)
    (hord : mapOrder.Perm (ruleIDs (uniqueRules rules)))
    (hac : Acyclic (uniqueRules rules)) :
    ∃ layers, SortRules mapOrder rules = some (Except.ok layers) ∧
      layers.flatten.Perm (uniqueRules rules) ∧ layers.flatten.Nodup := by
  obtain ⟨Ls, deg, inv, h⟩ := SortRules_spec mapOrder rules hord
  have hnd := uniqueRules_nodup rules
  have hlen := inv.length_of_acyclic hnd hac
  rw [if_neg (not_not.2 hlen)] at h
  have hperm := inv.layers_perm hnd hlen
  refine ⟨_, h, hperm, ?_⟩
  exact (hperm.nodup_iff).2 (List.Nodup.of_map _ hnd)

theorem SortRules_acyclic_permutation_witness :
    (["D", "C", "B", "A"] : List String).Perm (ruleIDs (uniqueRules diamondRules)) ∧
    Acyclic (uniqueRules diamondRules) ∧
    ∃ layers, SortRules ["D", "C", "B", "A"] diamondRules = some (Except.ok layers) ∧
      layers.flatten.Perm (uniqueRules diamondRules) ∧ layers.flatten.Nodup :=
  have hord : (["D", "C", "B", "A"] : List String).Perm (ruleIDs (uniqueRules diamondRules)) := by
    decide
  have hac : Acyclic (uniqueRules diamondRules) :=
    acyclic_of_rank _ (fun s => if s = "A" then 0 else if s = "D" then 2 else 1) (by decide)
  ⟨hord, hac, SortRules_acyclic_permutation _ _ hord hac⟩

/-- C2: on success, a rule is scheduled in a strictly earlier layer than every
scheduled rule that lists its id in `depends_on`. -/
theorem SortRules_dependency_in_earlier_layer (mapOrder : List String) (rules : List Rule)
    (hord : mapOrder.Perm (ruleIDs (uniqueRules rules))) (layers : List (List Rule))
    (hok : SortRules mapOrder rules = some (Except.ok layers))
    (i j : Nat) (La Lb : List Rule) (a b : Rule)
    (hLa : layers[i]? = some La) (ha : a ∈ La) (hLb : layers[j]? = some Lb) (hb : b ∈ Lb)
    (hdep : a.ID ∈ b.DependsOn) : i < j := by
  obtain ⟨Ls, deg, inv, hlen, rfl⟩ := SortRules_ok_inv mapOrder rules hord layers hok
  have hnd := uniqueRules_nodup rules
  have hsub : ∀ x ∈ Ls.flatten, x ∈ ruleIDs (uniqueRules rules) :=
    fun x hx => inv.sub x (List.mem_append_left _ hx)
  obtain ⟨haU, hai⟩ := layers_inLayer _ hnd Ls hsub i La a hLa ha
  obtain ⟨hbU, hbj⟩ := layers_inLayer _ hnd Ls hsub j Lb b hLb hb
  have hedge : DependsEdge (uniqueRules rules) a.ID b.ID :=
    ⟨b, hbU, rfl, hdep, List.mem_map_of_mem _ haU⟩
  obtain ⟨k, hk, hak⟩ := (inv.layer_ok j b.ID hbj).1 a.ID ((mem_depsOf _ _ _).2 hedge)
  have hflat : Ls.flatten.Nodup := (List.nodup_append.1 inv.nodup).1
  rw [inLayer_unique Ls hflat i k a.ID hai hak]
  exact hk

theorem SortRules_dependency_in_earlier_layer_witness :
    SortRules ["A", "B", "C", "D"] diamondRules
        = some (Except.ok [[ruleA], [ruleB, ruleC], [ruleD]]) ∧
      ruleB.ID ∈ ruleD.DependsOn ∧ (1 : Nat) < 2 :=
  ⟨by rfl, by decide,
   SortRules_dependency_in_earlier_layer ["A", "B", "C", "D"] diamondRules (by decide)
    [[ruleA], [ruleB, ruleC], [ruleD]] (by rfl) 1 2 [ruleB, ruleC] [ruleD] ruleB ruleD
    (by rfl) (by simp) (by rfl) (by simp) (by decide)⟩

/-- C3: on success every scheduled rule is the first rule of the input with its
id, no id is scheduled twice, and the number of scheduled rules is the number
of distinct ids of the input. -/
theorem SortRules_keeps_first_occurrence (mapOrder : List String) (rules : List Rule)
    (hord : mapOrder.Perm (ruleIDs (uniqueRules rules))) (layers : List (List Rule))
    (hok : SortRules mapOrder rules = some (Except.ok layers)) :
    (∀ r ∈ layers.flatten, rules.find? (fun q => q.ID = r.ID) = some r) ∧
      (ruleIDs layers.flatten).Nodup ∧
      layers.flatten.length = (ruleIDs rules).toFinset.card := by
  obtain ⟨Ls, deg, inv, hlen, rfl⟩ := SortRules_ok_inv mapOrder rules hord layers hok
  have hnd := uniqueRules_nodup rules
  have hperm := inv.layers_perm hnd hlen
  refine ⟨?_, ?_, ?_⟩
  · intro r hr
    exact dedupLoop_find [] rules r (hperm.subset hr)
  · have hp2 : (ruleIDs (List.map (List.map (ruleOf (buildGraph (uniqueRules rules)))) Ls).flatten).Perm
        (ruleIDs (uniqueRules rules)) := hperm.map _
    exact (hp2.nodup_iff).2 hnd
  · rw [hperm.length_eq]
    have h1 : (ruleIDs (uniqueRules rules)).toFinset = (ruleIDs rules).toFinset := by
      ext x; simp only [List.mem_toFinset]; exact uniqueRules_mem_ids rules x
    rw [← h1, List.toFinset_card_of_nodup hnd]
    simp [ruleIDs]

theorem SortRules_keeps_first_occurrence_witness :
    SortRules ["Y", "X"] duplicateRules
        = some (Except.ok [[{ ID := "X", Name := "first" }], [{ ID := "Y", DependsOn := ["X"] }]]) ∧
      (∀ r ∈ [({ ID := "X", Name := "first" } : Rule), { ID := "Y", DependsOn := ["X"] }],
        duplicateRules.find? (fun q => q.ID = r.ID) = some r) ∧
      (ruleIDs [({ ID := "X", Name := "first" } : Rule), { ID := "Y", DependsOn := ["X"] }]).Nodup ∧
      (2 : Nat) = (ruleIDs duplicateRules).toFinset.card :=
  ⟨by rfl,
   SortRules_keeps_first_occurrence ["Y", "X"] duplicateRules (by decide)
    [[{ ID := "X", Name := "first" }], [{ ID := "Y", DependsOn := ["X"] }]] (by rfl)⟩

/-- C4: when the dependency graph of the deduplicated rules (references to
absent ids dropped) has a cycle, a self-reference included, `SortRules` returns
the circular-dependency error, with fewer rules processed than there are, and
no layers. -/
theorem SortRules_cycle_is_error (mapOrder : List String) (rules : List Rule)
    (hord : mapOrder.Perm (ruleIDs (uniqueRules rules))) (x : String)
    (hcyc : Relation.TransGen (DependsEdge (uniqueRules rules)) x x) :
    ∃ processed, processed < (uniqueRules rules).length ∧
      SortRules mapOrder rules
        = some (Except.error (SortError.circular processed (uniqueRules rules).length)) := by
  obtain ⟨Ls, deg, inv, h⟩ := SortRules_spec mapOrder rules hord
  have hne := inv.length_of_cycle x hcyc
  have hle := inv.length_le
  rw [if_pos hne] at h
  exact ⟨Ls.flatten.length, by omega, h⟩

theorem SortRules_cycle_is_error_witness :
    Relation.TransGen (DependsEdge (uniqueRules cycleRules)) "A" "A" ∧
    ∃ processed, processed < (uniqueRules cycleRules).length ∧
      SortRules ["A", "B"] cycleRules
        = some (Except.error (SortError.circular processed (uniqueRules cycleRules).length)) :=
  have hcyc : Relation.TransGen (DependsEdge (uniqueRules cycleRules)) "A" "A" :=
    Relation.TransGen.tail
      (Relation.TransGen.single
        ⟨{ ID := "B", DependsOn := ["A"] }, by decide, rfl, by decide, by decide⟩)
      ⟨{ ID := "A", DependsOn := ["B"] }, by decide, rfl, by decide, by decide⟩
  ⟨hcyc, SortRules_cycle_is_error ["A", "B"] cycleRules (by decide) "A" hcyc⟩

/-- C6: on success no layer is empty and every rule sits in the earliest
possible layer: layer 0 when it has no present dependency, and otherwise one
more than the largest layer index among its present dependencies. -/
theorem SortRules_earliest_layer (mapOrder : List String) (rules : List Rule)
    (hord : mapOrder.Perm (ruleIDs (uniqueRules rules))) (layers : List (List Rule))
    (hok : SortRules mapOrder rules = some (Except.ok layers)) :
    (∀ L ∈ layers, L ≠ []) ∧
    ∀ i L r, layers[i]? = some L → r ∈ L →
      (presentDeps (uniqueRules rules) r = [] → i = 0) ∧
      (presentDeps (uniqueRules rules) r ≠ [] →
        i = 1 + maxLayer layers (presentDeps (uniqueRules rules) r)) := by
  obtain ⟨Ls, deg, inv, hlen, rfl⟩ := SortRules_ok_inv mapOrder rules hord layers hok
  have hnd := uniqueRules_nodup rules
  have hsub : ∀ x ∈ Ls.flatten, x ∈ ruleIDs (uniqueRules rules) :=
    fun x hx => inv.sub x (List.mem_append_left _ hx)
  have hflat : Ls.flatten.Nodup := (List.nodup_append.1 inv.nodup).1
  refine ⟨?_, ?_⟩
  · intro L hL
    obtain ⟨M, hM, rfl⟩ := List.mem_map.1 hL
    have := inv.layers_ne M hM
    simpa using this
  · intro i L r hL hr
    obtain ⟨hrU, hri⟩ := layers_inLayer _ hnd Ls hsub i L r hL hr
    have hplaced := inv.layer_ok i r.ID hri
    rw [Placed, depsOf_eq_presentDeps _ hnd r hrU] at hplaced
    have hidx : ∀ d k, InLayer Ls k d →
        layerIndex (Ls.map (List.map (ruleOf (buildGraph (uniqueRules rules))))) d = k := by
      intro d k hk
      obtain ⟨M, hM, hq⟩ := inLayer_layers _ hnd Ls hsub k d hk
      apply layerIndex_eq _ d k M hM hq
      intro j M2 hj hM2 q hq2 hid
      obtain ⟨_, hqj⟩ := layers_inLayer _ hnd Ls hsub j M2 q hM2 hq2
      rw [hid] at hqj
      have := inLayer_unique Ls hflat j k d hqj hk
      omega
    refine ⟨?_, ?_⟩
    · intro hnil
      by_contra hi
      obtain ⟨d, hd, _⟩ := hplaced.2 (by omega)
      rw [hnil] at hd; simp at hd
    · intro hne
      obtain ⟨d0, hd0⟩ := List.exists_mem_of_ne_nil _ hne
      obtain ⟨j0, hj0, _⟩ := hplaced.1 d0 hd0
      have hpos : 0 < i := by omega
      obtain ⟨d1, hd1, hin1⟩ := hplaced.2 hpos
      have hle : maxLayer (Ls.map (List.map (ruleOf (buildGraph (uniqueRules rules)))))
          (presentDeps (uniqueRules rules) r) ≤ i - 1 := by
        apply foldr_max_le
        intro v hv
        obtain ⟨d, hd, rfl⟩ := List.mem_map.1 hv
        obtain ⟨j, hj, hin⟩ := hplaced.1 d hd
        rw [hidx d j hin]; omega
      have hge : i - 1 ≤ maxLayer (Ls.map (List.map (ruleOf (buildGraph (uniqueRules rules)))))
          (presentDeps (uniqueRules rules) r) := by
        apply le_foldr_max
        exact List.mem_map.2 ⟨d1, hd1, hidx d1 (i - 1) hin1⟩
      omega

theorem SortRules_earliest_layer_witness :
    SortRules ["D", "C", "B", "A"] diamondRules
        = some (Except.ok [[ruleA], [ruleB, ruleC], [ruleD]]) ∧
    ((∀ L ∈ [[ruleA], [ruleB, ruleC], [ruleD]], L ≠ []) ∧
    ∀ i L r, [[ruleA], [ruleB, ruleC], [ruleD]][i]? = some L → r ∈ L →
      (presentDeps (uniqueRules diamondRules) r = [] → i = 0) ∧
      (presentDeps (uniqueRules diamondRules) r ≠ [] →
        i = 1 + maxLayer [[ruleA], [ruleB, ruleC], [ruleD]]
          (presentDeps (uniqueRules diamondRules) r))) :=
  ⟨by rfl,
   SortRules_earliest_layer ["D", "C", "B", "A"] diamondRules (by decide)
    [[ruleA], [ruleB, ruleC], [ruleD]] (by rfl)⟩

/-- Diamond scenario, whatever the order in which the map is ranged over: the
layers are `[A]`, `[B, C]`, `[D]`. -/
theorem SortRules_diamond (mapOrder : List String)
    (hord : mapOrder.Perm (ruleIDs (uniqueRules diamondRules))) :
    SortRules mapOrder diamondRules = some (Except.ok [[ruleA], [ruleB, ruleC], [ruleD]]) := by
  have hq : mapOrder.filter (fun id => (buildGraph (uniqueRules diamondRules)).inDegree id = 0)
      = ["A"] := by
    apply List.perm_singleton.1
    refine (hord.filter _).trans ?_
    have : (ruleIDs (uniqueRules diamondRules)).filter
        (fun id => (buildGraph (uniqueRules diamondRules)).inDegree id = 0) = ["A"] := by decide
    rw [this]
  simp only [SortRules, hq]
  rfl

/-! ## References to absent ids -/

theorem dedupLoop_map (f : Rule → Rule) (hf : ∀ r, (f r).ID = r.ID) (seen : List String)
    (rules : List Rule) : dedupLoop seen (rules.map f) = (dedupLoop seen rules).map f := by
  induction rules generalizing seen with
  | nil => rfl
  | cons r rs ih =>
    simp only [List.map_cons, dedupLoop, hf]
    split
    · exact ih seen
    · simp [ih]

theorem initMaps_rel (f : Rule → Rule) (hf : ∀ r, (f r).ID = r.ID) (rs : List Rule)
    (g g1 : Graph) (h : GraphRel f g g1) :
    GraphRel f (initMaps rs g) (initMaps (rs.map f) g1) := by
  induction rs generalizing g g1 with
  | nil => exact h
  | cons r rs ih =>
    simp only [List.map_cons, initMaps]
    apply ih
    obtain ⟨h1, h2, h3⟩ := h
    refine ⟨h1, ?_, ?_⟩
    · simp only [hf, h2]
    · intro x
      simp only [hf, Function.update_apply]
      split
      · rfl
      · exact h3 x

theorem addEdges_rel (f : Rule → Rule) (rid : String) (deps : List String)
    (g g1 : Graph) (h : GraphRel f g g1) :
    GraphRel f (addEdges rid deps g) (addEdges rid deps g1) := by
  induction deps generalizing g g1 with
  | nil => exact h
  | cons d ds ih =>
    obtain ⟨h1, h2, h3⟩ := h
    simp only [addEdges]
    cases hd : g.ruleMap d with
    | none =>
      have hd1 : g1.ruleMap d = none := by rw [h3, hd]; rfl
      simp only [hd1]
      exact ih _ _ ⟨h1, h2, h3⟩
    | some v =>
      have hd1 : g1.ruleMap d = some (f v) := by rw [h3, hd]; rfl
      simp only [hd1]
      apply ih
      exact ⟨by simp only [h1], by simp only [h2], h3⟩

theorem addEdges_filter (rid : String) (deps : List String) (g : Graph) (p : String → Bool)
    (hp : ∀ d, (g.ruleMap d).isSome = p d) :
    addEdges rid (deps.filter p) g = addEdges rid deps g := by
  induction deps generalizing g with
  | nil => rfl
  | cons d ds ih =>
    cases hd : g.ruleMap d with
    | none =>
      have hpd : p d = false := by rw [← hp, hd]; rfl
      simp only [List.filter_cons, hpd, Bool.false_eq_true, if_false, addEdges, hd]
      exact ih g hp
    | some v =>
      have hpd : p d = true := by rw [← hp, hd]; rfl
      simp only [List.filter_cons, hpd, if_true, addEdges, hd]
      exact ih _ hp

theorem populateEdges_rel (ids : List String) (rs : List Rule) (g g1 : Graph)
    (h : GraphRel (pruneRule ids) g g1) (hp : ∀ d, (g.ruleMap d).isSome = decide (d ∈ ids)) :
    GraphRel (pruneRule ids) (populateEdges rs g)
      (populateEdges (rs.map (pruneRule ids)) g1) := by
  induction rs generalizing g g1 with
  | nil => exact h
  | cons r rs ih =>
    simp only [List.map_cons, populateEdges]
    apply ih
    · have hp1 : ∀ d, (g1.ruleMap d).isSome = decide (d ∈ ids) := by
        intro d; rw [h.2.2 d, ← hp d]; simp
      have : addEdges (pruneRule ids r).ID (pruneRule ids r).DependsOn g1
          = addEdges r.ID r.DependsOn g1 := by
        simp only [pruneRule]
        exact addEdges_filter r.ID r.DependsOn g1 (fun d => decide (d ∈ ids)) hp1
      rw [this]
      exact addEdges_rel _ _ _ _ _ h
    · intro d; rw [addEdges_ruleMap]; exact hp d

theorem buildGraph_prune (uniq : List Rule) :
    GraphRel (pruneRule (ruleIDs uniq)) (buildGraph uniq)
      (buildGraph (uniq.map (pruneRule (ruleIDs uniq)))) := by
  unfold buildGraph
  apply populateEdges_rel
  · exact initMaps_rel (pruneRule (ruleIDs uniq)) (fun _ => rfl) uniq emptyGraph emptyGraph
      ⟨rfl, rfl, fun _ => rfl⟩
  · intro d; exact initMaps_ruleMap_isSome uniq d

theorem processQueue_rel (f : Rule → Rule) (hz : f zeroRule = zeroRule) (g g1 : Graph)
    (h : GraphRel f g g1) (q : List String) (st : LayerState) :
    processQueue g1 q { st with currentLayer := st.currentLayer.map f }
      = { processQueue g q st with currentLayer := (processQueue g q st).currentLayer.map f } := by
  induction q generalizing st with
  | nil => rfl
  | cons p q ih =>
    simp only [processQueue]
    have hr : (g1.ruleMap p).getD zeroRule = f ((g.ruleMap p).getD zeroRule) := by
      rw [h.2.2 p]
      cases g.ruleMap p with
      | none => simp [hz]
      | some v => simp
    rw [h.1, hr]
    have := ih { inDegree := (relaxChildren (g.graph p) (st.inDegree, st.nextQueue)).1,
                 currentLayer := st.currentLayer ++ [(g.ruleMap p).getD zeroRule],
                 nextQueue := (relaxChildren (g.graph p) (st.inDegree, st.nextQueue)).2,
                 processedCount := st.processedCount + 1 }
    simp only [List.map_append, List.map_cons, List.map_nil] at this
    exact this

theorem kahnLoop_rel (f : Rule → Rule) (hz : f zeroRule = zeroRule) (g g1 : Graph)
    (h : GraphRel f g g1) (fuel : Nat) (q : List String) (deg : String → Int)
    (layers : List (List Rule)) (n : Nat) :
    kahnLoop g1 fuel q deg (layers.map (List.map f)) n
      = (kahnLoop g fuel q deg layers n).map (fun res => (res.1.map (List.map f), res.2)) := by
  induction fuel generalizing q deg layers n with
  | zero =>
    cases q with
    | nil => simp [kahnLoop]
    | cons p rest => simp [kahnLoop]
  | succ fuel ih =>
    cases q with
    | nil => simp [kahnLoop]
    | cons p rest =>
      simp only [kahnLoop]
      have hpq := processQueue_rel f hz g g1 h (p :: rest)
        { inDegree := deg, currentLayer := [], nextQueue := [], processedCount := n }
      simp only [List.map_nil] at hpq
      rw [hpq]
      simp only
      rw [← ih]
      simp

theorem uniqueRules_pruneAbsent (rules : List Rule) :
    uniqueRules (pruneAbsent rules)
      = (uniqueRules rules).map (pruneRule (ruleIDs (uniqueRules rules))) :=
  dedupLoop_map (pruneRule (ruleIDs (uniqueRules rules))) (fun _ => rfl) [] rules

/-- C5: `depends_on` references to ids that no deduplicated rule carries do not
change the schedule: on the input with all such references removed `SortRules`
gives the same outcome (the same error, or the same layers of the same rules,
each rule again without those references), so such a reference never causes an
error by itself. -/
theorem SortRules_ignores_absent_references (mapOrder : List String) (rules : List Rule) :
    SortRules mapOrder (pruneAbsent rules)
        = (SortRules mapOrder rules).map
            (Except.map (List.map (List.map (pruneRule (ruleIDs (uniqueRules rules)))))) ∧
      (∀ e, SortRules mapOrder rules = some (Except.error e) ↔
        SortRules mapOrder (pruneAbsent rules) = some (Except.error e)) := by
  have hrel := buildGraph_prune (uniqueRules rules)
  have hloop := kahnLoop_rel (pruneRule (ruleIDs (uniqueRules rules))) rfl _ _ hrel
    ((uniqueRules rules).length + 1)
    (mapOrder.filter (fun id => (buildGraph (uniqueRules rules)).inDegree id = 0))
    (buildGraph (uniqueRules rules)).inDegree [] 0
  have heq : SortRules mapOrder (pruneAbsent rules)
        = (SortRules mapOrder rules).map
            (Except.map (List.map (List.map (pruneRule (ruleIDs (uniqueRules rules)))))) := by
    simp only [SortRules, uniqueRules_pruneAbsent, List.length_map]
    rw [hrel.2.1]
    simp only [List.map_nil] at hloop
    rw [hloop]
    cases kahnLoop (buildGraph (uniqueRules rules)) ((uniqueRules rules).length + 1)
      (mapOrder.filter (fun id => (buildGraph (uniqueRules rules)).inDegree id = 0))
      (buildGraph (uniqueRules rules)).inDegree [] 0 with
    | none => rfl
    | some res =>
      obtain ⟨layers, n⟩ := res
      simp only [Option.map_some']
      split <;> rfl
  refine ⟨heq, ?_⟩
  intro e
  rw [heq]
  cases SortRules mapOrder rules with
  | none => simp
  | some res =>
    cases res with
    | error e1 => simp [Except.map]
    | ok layers => simp [Except.map]

/-! ## Severity filter -/

theorem filterRules_eq_filter (profile : String) (L : List Rule) :
    filterRules profile L = L.filter (fun r => profileAdmits profile r.Severity) := by
  induction L with
  | nil => rfl
  | cons r rs ih =>
    simp only [filterRules, List.filter_cons, profileAdmits, ih]
    by_cases h1 : profile = "strict"
    · simp [h1]
    · by_cases h2 : profile = "moderate"
      · subst h2
        by_cases hs : r.Severity = "Critical" ∨ r.Severity = "High" ∨ r.Severity = "Medium"
        · simp [hs]
        · simp [hs]
      · by_cases h3 : profile = "basic"
        · subst h3
          by_cases hs : r.Severity = "Critical" ∨ r.Severity = "High"
          · simp [hs]
          · simp [hs]
        · simp [h1, h2, h3]

/-- C7: the severity filter returns, in input order, exactly the rules whose
severity the profile admits: all of them under `strict`, Critical, High and
Medium under `moderate`, Critical and High under `basic`; on the scenario with
one rule per severity `basic` keeps the Critical and the High rule. -/
theorem filterRules_by_profile (L : List Rule) :
    filterRules "strict" L = L ∧
    filterRules "moderate" L
      = L.filter (fun r => r.Severity ∈ ["Critical", "High", "Medium"]) ∧
    filterRules "basic" L = L.filter (fun r => r.Severity ∈ ["Critical", "High"]) ∧
    filterRules "basic" severityRules
      = [{ ID := "R1", Severity := "Critical" }, { ID := "R2", Severity := "High" }] := by
  refine ⟨?_, ?_, ?_, by decide⟩
  · rw [filterRules_eq_filter]; simp [profileAdmits]
  · rw [filterRules_eq_filter]; simp [profileAdmits]
  · rw [filterRules_eq_filter]; simp [profileAdmits]

/-- C8: the severity filter is idempotent for every profile, and monotone along
basic, moderate, strict: a rule kept by `basic` is kept by `moderate`, and a
rule kept by `moderate` is kept by `strict`. -/
theorem filterRules_idempotent_monotone (L : List Rule) :
    (∀ p, p ∈ ["basic", "moderate", "strict"] →
      filterRules p (filterRules p L) = filterRules p L) ∧
    (∀ r, r ∈ filterRules "basic" L → r ∈ filterRules "moderate" L) ∧
    (∀ r, r ∈ filterRules "moderate" L → r ∈ filterRules "strict" L) := by
  refine ⟨?_, ?_, ?_⟩
  · intro p _
    simp only [filterRules_eq_filter, List.filter_filter, Bool.and_self]
  · intro r hr
    rw [filterRules_eq_filter, List.mem_filter] at hr ⊢
    refine ⟨hr.1, ?_⟩
    have := hr.2
    simp [profileAdmits] at this ⊢
    rcases this with h | h
    · exact Or.inl h
    · exact Or.inr (Or.inl h)
  · intro r hr
    rw [filterRules_eq_filter, List.mem_filter] at hr ⊢
    exact ⟨hr.1, by simp [profileAdmits]⟩

theorem filterRules_idempotent_monotone_witness :
    filterRules "basic" (filterRules "basic" severityRules) = filterRules "basic" severityRules ∧
    ({ ID := "R2", Severity := "High" } : Rule) ∈ filterRules "moderate" severityRules ∧
    ({ ID := "R3", Severity := "Medium" } : Rule) ∈ filterRules "strict" severityRules :=
  ⟨(filterRules_idempotent_monotone severityRules).1 "basic" (by decide),
   (filterRules_idempotent_monotone severityRules).2.1 _ (by decide),
   (filterRules_idempotent_monotone severityRules).2.2 _ (by decide)⟩

/-! ## Audit status -/

/-- C10, as the code has it: with a non-empty `expect_pattern`, `passed` is true
exactly when the process did not exit with status 1 under a command that
contains "grep", and the trimmed combined output matches the pattern as a
regular expression or contains it as a substring. -/
theorem LinuxHardener_RunCommand_audit (lib : GoLib)
    (exec : String → List String → String × Option GoError)
    (cmdStr : String) (args : List String) (expectPattern : String)
    (hne : expectPattern ≠ "") :
    (LinuxHardener.RunCommand lib exec cmdStr args expectPattern).1 = true ↔
      ¬ ((∃ msg, (exec cmdStr args).2 = some (GoError.exitError 1 msg)) ∧
          strings.Contains cmdStr "grep" = true) ∧
      (lib.regexpMatchString expectPattern (strings.TrimSpace (exec cmdStr args).1) = true ∨
        strings.Contains (strings.TrimSpace (exec cmdStr args).1) expectPattern = true) := by
  simp only [LinuxHardener.RunCommand, if_pos hne]
  cases herr : (exec cmdStr args).2 with
  | none =>
    simp only [Bool.false_eq_true, if_false]
    split <;> simp_all
  | some e =>
    cases e with
    | other msg =>
      simp only [Bool.false_eq_true, if_false]
      split <;> simp_all
    | exitError code msg =>
      by_cases hg : code = 1 ∧ strings.Contains cmdStr "grep" = true
      · simp [hg]
      · simp only [hg, decide_False, Bool.false_eq_true, if_false]
        have hn : ¬ ((∃ m, some (GoError.exitError code msg) = some (GoError.exitError 1 m)) ∧
            strings.Contains cmdStr "grep" = true) := by
          rintro ⟨⟨m, hm⟩, hc⟩
          simp only [Option.some.injEq, GoError.exitError.injEq] at hm
          exact hg ⟨hm.1, hc⟩
        split <;> simp_all

theorem LinuxHardener_RunCommand_audit_witness :
    ("= 2" : String) ≠ "" ∧
    ((LinuxHardener.RunCommand literalLib sysctlExec "sysctl" ["kernel.randomize_va_space"]
        "= 2").1 = true ↔
      ¬ ((∃ msg, (sysctlExec "sysctl" ["kernel.randomize_va_space"]).2
            = some (GoError.exitError 1 msg)) ∧
          strings.Contains "sysctl" "grep" = true) ∧
      (literalLib.regexpMatchString "= 2"
          (strings.TrimSpace (sysctlExec "sysctl" ["kernel.randomize_va_space"]).1) = true ∨
        strings.Contains
          (strings.TrimSpace (sysctlExec "sysctl" ["kernel.randomize_va_space"]).1) "= 2"
          = true)) :=
  ⟨by decide,
   LinuxHardener_RunCommand_audit literalLib sysctlExec "sysctl" ["kernel.randomize_va_space"]
     "= 2" (by decide)⟩

/-- C10 as stated fails: `grep -c` that counts no line prints "0" and exits with
status 1; with `expect_pattern` "0" the trimmed output "0" contains the
pattern, yet `passed` is false. -/
theorem LinuxHardener_RunCommand_audit_counterexample :
    ¬ ((LinuxHardener.RunCommand literalLib grepCountExec "grep"
          ["-c", "^PermitRootLogin yes", "/etc/ssh/sshd_config"] "0").1 = true ↔
        (literalLib.regexpMatchString "0"
            (strings.TrimSpace
              (grepCountExec "grep" ["-c", "^PermitRootLogin yes", "/etc/ssh/sshd_config"]).1)
            = true ∨
          strings.Contains
            (strings.TrimSpace
              (grepCountExec "grep" ["-c", "^PermitRootLogin yes", "/etc/ssh/sshd_config"]).1)
            "0" = true)) := by
  decide

/-! ## `run_command` in action mode -/

theorem contains_empty (s : String) : strings.Contains s "" = true := by
  unfold strings.Contains
  cases s.data with
  | nil => rfl
  | cons c cs => simp [containsBytes]

/-- With an empty `expect_pattern` both adapters return `passed = true` exactly
when the process ran and exited with status 0; the Linux adapter returns an
error carrying the trimmed output exactly when it did not; the Windows adapter
returns a nil error in every case. -/
theorem RunCommand_action_mode (lib : GoLib)
    (exec : String → List String → String × Option GoError)
    (cmdStr : String) (args : List String) :
    ((LinuxHardener.RunCommand lib exec cmdStr args "").1 = true ↔
      (exec cmdStr args).2 = none) ∧
    ((exec cmdStr args).2 = none → (LinuxHardener.RunCommand lib exec cmdStr args "").2.2 = none) ∧
    (∀ e, (exec cmdStr args).2 = some e →
      (LinuxHardener.RunCommand lib exec cmdStr args "").2.2 =
        some (GoError.other ("execution failed: " ++ e.Error ++ " | output: " ++
          strings.TrimSpace (exec cmdStr args).1))) ∧
    ((WindowsHardener.RunCommand exec cmdStr args "").1 = true ↔
      (exec cmdStr args).2 = none) ∧
    (WindowsHardener.RunCommand exec cmdStr args "").2.2 = none := by
  have hempty : ¬ (("" : String) ≠ "") := fun h => h rfl
  refine ⟨?_, ?_, ?_, ?_, ?_⟩
  · simp only [LinuxHardener.RunCommand, if_neg hempty]
    cases (exec cmdStr args).2 <;> simp
  · intro h
    simp only [LinuxHardener.RunCommand, if_neg hempty, h]
  · intro e h
    simp only [LinuxHardener.RunCommand, if_neg hempty, h]
  · simp only [WindowsHardener.RunCommand, contains_empty]
    cases (exec cmdStr args).2 <;> simp
  · simp only [WindowsHardener.RunCommand, contains_empty]
    cases (exec cmdStr args).2 <;> simp

/-- C11 at the failing input: for a process that exits with status 2 the
Windows adapter, in action mode, returns `passed = false` with a nil error,
where the Linux adapter returns the error with the captured output; `ApplyFix`
and `RevertFix`, which read only the error, then report success for a command
that failed. -/
theorem WindowsHardener_RunCommand_swallows_failure :
    WindowsHardener.RunCommand failingExec "net" ["user", "guest", "/active:no"] ""
      = (false, "The user name could not be found.\r\n", none) ∧
    LinuxHardener.RunCommand literalLib failingExec "net" ["user", "guest", "/active:no"] ""
      = (false, "The user name could not be found.",
          some (GoError.other
            "execution failed: exit status 2 | output: The user name could not be found.")) ∧
    (ApplyFix literalLib (windowsPlatform failingExec) true guestRule emptyWorld).1 = none ∧
    (RevertFix (windowsPlatform failingExec) guestRule emptyWorld).1 = none := by
  refine ⟨by decide, by decide, by rfl, by rfl⟩

/-! ## Rollback -/

theorem RevertFix_journal {σ : Type} (P : Platform σ) (rule : Rule) (w : World σ) :
    (RevertFix P rule w).2.journal = w.journal := by
  unfold RevertFix
  split <;> rfl

theorem revertLoop_journal {σ : Type} (P : Platform σ) (rules : List Rule) (counts : Nat × Nat)
    (w : World σ) : (revertLoop P rules counts w).2.journal = w.journal := by
  induction rules generalizing counts w with
  | nil => rfl
  | cons rule rest ih =>
    obtain ⟨s, e⟩ := counts
    simp only [revertLoop]
    split
    · rw [ih, RevertFix_journal]
    · rw [ih, RevertFix_journal]

/-- C14: `RevertFix` leaves the journal as it was, whether it succeeds or fails,
and so does `RevertAll`. -/
theorem Revert_leaves_journal {σ : Type} (P : Platform σ) (w : World σ) :
    (∀ rule, (RevertFix P rule w).2.journal = w.journal) ∧
    (∀ pol, (RevertAll P pol w).2.journal = w.journal) :=
  ⟨fun rule => RevertFix_journal P rule w, fun pol => revertLoop_journal P pol.Rules (0, 0) w⟩

/-- C15 at the failing inputs: for an action of type `file_append` the dispatch
of `ApplyFix` calls `EditConfigFile` and that of `RevertFix` returns "unknown
rollback type"; for a `manual` action with a command the dispatch of `ApplyFix`
runs the command and that of `RevertFix` returns "unknown rollback type". -/
theorem RevertFix_misses_file_append_and_manual :
    remediationCall appendAction = Except.ok (AdapterCall.EditConfigFile "/etc/sysctl.conf"
      "^net.ipv4.ip_forward.*" "net.ipv4.ip_forward = 0") ∧
    rollbackCall appendAction
      = Except.error (GoError.other "unknown rollback type: file_append") ∧
    (RevertFix okPlatform { ID := "F", Rollback := appendAction } emptyWorld).1
      = some (GoError.other "unknown rollback type: file_append") ∧
    (RevertFix okPlatform { ID := "F", Rollback := appendAction } emptyWorld).2.trace = [] ∧
    remediationCall manualAction
      = Except.ok (AdapterCall.RunCommand "systemctl" ["restart", "sshd"] "") ∧
    rollbackCall manualAction = Except.error (GoError.other "unknown rollback type: manual") := by
  refine ⟨by rfl, by rfl, by rfl, by rfl, by rfl, by rfl⟩

/-- The dispatch of `RevertFix` agrees with that of `ApplyFix` on the types
registry, command, file_edit and secedit, and both return an error on a type
that is none of registry, command, file_edit, file_append, secedit, manual. -/
theorem rollbackCall_eq_remediationCall (a : Action) :
    ((a.Type_ = "registry" ∨ a.Type_ = "command" ∨ a.Type_ = "file_edit" ∨
        a.Type_ = "secedit") → rollbackCall a = remediationCall a) ∧
    ((a.Type_ ≠ "registry" ∧ a.Type_ ≠ "command" ∧ a.Type_ ≠ "file_edit" ∧
        a.Type_ ≠ "file_append" ∧ a.Type_ ≠ "secedit" ∧ a.Type_ ≠ "manual") →
      rollbackCall a = Except.error (GoError.other ("unknown rollback type: " ++ a.Type_)) ∧
      remediationCall a
        = Except.error (GoError.other ("unknown remediation type: " ++ a.Type_))) := by
  refine ⟨?_, ?_⟩
  · rintro (h | h | h | h) <;> simp [rollbackCall, remediationCall, h]
  · rintro ⟨h1, h2, h3, h4, h5, h6⟩
    simp [rollbackCall, remediationCall, h1, h2, h3, h4, h5, h6]

theorem getRawSystemValue_eq (lib : GoLib) (worker : Hardener) (cmd : String)
    (args : List String) :
    getRawSystemValue lib worker cmd args =
      rawValueOf lib cmd (worker.RunCommand (rawCommand cmd args).1 (rawCommand cmd args).2 "") := by
  rfl

theorem foldl_laterRow_mem (tie : JournalRow → JournalRow → Bool)
    (l : List (String × JournalRow)) (best : Option (String × JournalRow)) :
    l.foldl (laterRow tie) best = best ∨ ∃ e ∈ l, l.foldl (laterRow tie) best = some e := by
  induction l generalizing best with
  | nil => exact Or.inl rfl
  | cons x xs ih =>
    simp only [List.foldl_cons]
    rcases ih (laterRow tie best x) with h | ⟨e, he, h⟩
    · rw [h]
      cases best with
      | none => exact Or.inr ⟨x, List.mem_cons_self _ _, rfl⟩
      | some b =>
        simp only [laterRow]
        split
        · exact Or.inr ⟨x, List.mem_cons_self _ _, rfl⟩
        · split
          · exact Or.inl rfl
          · split
            · exact Or.inr ⟨x, List.mem_cons_self _ _, rfl⟩
            · exact Or.inl rfl
    · exact Or.inr ⟨e, List.mem_cons_of_mem _ he, h⟩

theorem GetRuleHistory_append (tie : JournalRow → JournalRow → Bool)
    (table : List (String × JournalRow)) (stamp : String) (row : JournalRow)
    (h : ∀ e ∈ table, e.2.rule_id = row.rule_id → stampLess e.1 stamp = true) :
    GetRuleHistory tie (table ++ [(stamp, row)]) row.rule_id
      = (row.prev_value, row.new_value, true) := by
  have hstep : (List.filter (fun e => decide (e.2.rule_id = row.rule_id))
        (table ++ [(stamp, row)])).foldl (laterRow tie) none = some (stamp, row) := by
    rw [List.filter_append, List.foldl_append]
    have hlast : List.filter (fun e => decide (e.2.rule_id = row.rule_id)) [(stamp, row)]
        = [(stamp, row)] := by simp
    rw [hlast, List.foldl_cons, List.foldl_nil]
    rcases foldl_laterRow_mem tie
        (List.filter (fun e => decide (e.2.rule_id = row.rule_id)) table) none with h0 | ⟨e, he, h1⟩
    · rw [h0]; rfl
    · rw [h1]
      have hmem := List.mem_filter.1 he
      have hlt : stampLess e.1 stamp = true := h e hmem.1 (by simpa using hmem.2)
      simp only [laterRow, if_pos hlt]
  simp only [GetRuleHistory, hstep]

/-- The world in which `ApplyFix` dispatches: after the probe and the journal
insertion. -/
theorem ApplyFix_before_dispatch {σ : Type} (lib : GoLib) (P : Platform σ) (insertOk : Bool)
    (rule : Rule) (w : World σ) :
    (LogAction insertOk rule.ID rule.Name (capturedPrev lib P rule w)
        (newValueLabel rule.Remediation)
        (getRawSystemValueIn lib P rule.Check.Cmd rule.Check.Args w).2).2.journal
      = w.journal ++ (if insertOk then [fixRow lib P rule w] else []) ∧
    (LogAction insertOk rule.ID rule.Name (capturedPrev lib P rule w)
        (newValueLabel rule.Remediation)
        (getRawSystemValueIn lib P rule.Check.Cmd rule.Check.Args w).2).2.trace
      = w.trace ++ Event.adapter (probeCall rule) ::
          (if insertOk then [Event.journal (fixRow lib P rule w)] else []) := by
  cases insertOk <;>
    simp [LogAction, getRawSystemValueIn, invoke, fixRow, probeCall]

/-- C12, as the code has it: when the journal insertion is carried out, a call
of `ApplyFix` that returns success has appended the one row
`(r.id, r.name, prev, new)` to the journal, earlier rows untouched, after the
probe of the previous value and before the one remediation call; and if the
timestamp stored with the new row is greater than the timestamp of every
earlier row of `r.id`, `GetRuleHistory(r.id)` then returns `(prev, new, true)`.
`stamps` is the `timestamp` column of the earlier rows and `now` the one of
the new row. -/
theorem ApplyFix_journals_before_dispatch {σ : Type} (lib : GoLib) (P : Platform σ)
    (rule : Rule) (w : World σ) (hok : (ApplyFix lib P true rule w).1 = none) :
    ∃ call, remediationCall rule.Remediation = Except.ok call ∧
      (ApplyFix lib P true rule w).2.journal = w.journal ++ [fixRow lib P rule w] ∧
      (ApplyFix lib P true rule w).2.trace =
        w.trace ++ [Event.adapter (probeCall rule), Event.journal (fixRow lib P rule w),
          Event.adapter call] ∧
      ∀ (tie : JournalRow → JournalRow → Bool) (stamps : List String) (now : String),
        stamps.length = w.journal.length →
        (∀ e ∈ List.zip stamps w.journal, e.2.rule_id = rule.ID → stampLess e.1 now = true) →
        GetRuleHistory tie (List.zip (stamps ++ [now]) (ApplyFix lib P true rule w).2.journal)
            rule.ID =
          (capturedPrev lib P rule w, newValueLabel rule.Remediation, true) := by
  have hpre := ApplyFix_before_dispatch lib P true rule w
  simp only [if_true] at hpre
  cases hcall : remediationCall rule.Remediation with
  | error e =>
    simp only [ApplyFix, hcall] at hok
    cases hok
  | ok call =>
    have hj : (ApplyFix lib P true rule w).2.journal = w.journal ++ [fixRow lib P rule w] := by
      simp only [ApplyFix, hcall]
      split
      · simp only [invoke]; exact hpre.1
      · simp only [invoke]; exact hpre.1
    have ht : (ApplyFix lib P true rule w).2.trace =
        w.trace ++ [Event.adapter (probeCall rule), Event.journal (fixRow lib P rule w),
          Event.adapter call] := by
      simp only [ApplyFix, hcall]
      split
      · simp only [invoke]
        have := hpre.2
        simp only [capturedPrev] at this
        rw [this]; simp
      · simp only [invoke]
        have := hpre.2
        simp only [capturedPrev] at this
        rw [this]; simp
    refine ⟨call, rfl, hj, ht, ?_⟩
    intro tie stamps now hlen hlater
    rw [hj, List.zip_append hlen]
    exact GetRuleHistory_append tie (List.zip stamps w.journal) now (fixRow lib P rule w) hlater

theorem ApplyFix_journals_before_dispatch_witness :
    (ApplyFix literalLib okPlatform true kernelRule usedWorld).1 = none ∧
    (∀ e ∈ List.zip ["2025-10-25 09:15:02 +0200 CEST"] usedWorld.journal,
      e.2.rule_id = kernelRule.ID → stampLess e.1 "2025-10-25 17:40:11 +0200 CEST" = true) ∧
    (ApplyFix literalLib okPlatform true kernelRule usedWorld).2.journal =
      usedWorld.journal ++ [fixRow literalLib okPlatform kernelRule usedWorld] ∧
    GetRuleHistory (fun _ _ => true)
        (List.zip (["2025-10-25 09:15:02 +0200 CEST"] ++ ["2025-10-25 17:40:11 +0200 CEST"])
          (ApplyFix literalLib okPlatform true kernelRule usedWorld).2.journal) kernelRule.ID =
      (capturedPrev literalLib okPlatform kernelRule usedWorld,
        newValueLabel kernelRule.Remediation, true) :=
  ⟨by rfl, by decide,
   (ApplyFix_journals_before_dispatch literalLib okPlatform kernelRule usedWorld
      (by rfl)).choose_spec.2.1,
   (ApplyFix_journals_before_dispatch literalLib okPlatform kernelRule usedWorld
      (by rfl)).choose_spec.2.2.2 (fun _ _ => true) ["2025-10-25 09:15:02 +0200 CEST"]
      "2025-10-25 17:40:11 +0200 CEST" (by rfl) (by decide)⟩

/-- The journal scenario: previous raw value "0" and `replace_text`
"kernel.randomize_va_space = 2" give that pair as the history of the rule. -/
theorem ApplyFix_history_scenario :
    GetRuleHistory (fun _ _ => true)
        (List.zip ["2025-10-25 17:40:11 +0200 CEST"]
          (ApplyFix literalLib okPlatform true kernelRule emptyWorld).2.journal) "R"
      = ("0", "kernel.randomize_va_space = 2", true) := by
  decide

/-- C12 as stated fails in two ways.  When the database does not carry out the
insertion, `ApplyFix` still returns success and the journal has no new row.
And when the clock text stored with the new row is not greater than that of an
earlier row of the rule (here the hour repeated at the end of summer time),
`GetRuleHistory` returns the earlier row. -/
theorem ApplyFix_journal_counterexample :
    ¬ ((ApplyFix literalLib okPlatform false kernelRule emptyWorld).1 = none →
        (ApplyFix literalLib okPlatform false kernelRule emptyWorld).2.journal.length
          = emptyWorld.journal.length + 1) ∧
    ¬ ((ApplyFix literalLib okPlatform true kernelRule usedWorld).1 = none →
        GetRuleHistory (fun _ _ => true)
            (List.zip ["2025-10-26 02:50:07 +0200 CEST", "2025-10-26 02:05:31 +0100 CET"]
              (ApplyFix literalLib okPlatform true kernelRule usedWorld).2.journal) "R"
          = (capturedPrev literalLib okPlatform kernelRule usedWorld,
              newValueLabel kernelRule.Remediation, true)) := by
  refine ⟨?_, ?_⟩
  · intro h
    have := h (by rfl)
    revert this
    decide
  · intro h
    have := h (by rfl)
    revert this
    decide

/-! ## Remediation types -/

/-- C13, as the code has it: `ApplyFix` returns "manual action required" when the
remediation type is `manual` and the command is empty or `echo`, and "unknown
remediation type" when the type is none of registry, command, file_edit,
file_append, secedit, manual; in both cases it dispatches no remediation call,
and what it has done before returning is to probe the previous value through
the adapter and to insert the journal row. -/
theorem ApplyFix_manual_and_unknown {σ : Type} (lib : GoLib) (P : Platform σ)
    (insertOk : Bool) (rule : Rule) (w : World σ) :
    ((rule.Remediation.Type_ = "manual" ∧
        (rule.Remediation.Cmd = "" ∨ rule.Remediation.Cmd = "echo")) →
      (ApplyFix lib P insertOk rule w).1 = some (GoError.other "manual action required") ∧
      (ApplyFix lib P insertOk rule w).2.trace =
        w.trace ++ Event.adapter (probeCall rule) ::
          (if insertOk then [Event.journal (fixRow lib P rule w)] else [])) ∧
    ((rule.Remediation.Type_ ≠ "registry" ∧ rule.Remediation.Type_ ≠ "command" ∧
        rule.Remediation.Type_ ≠ "file_edit" ∧ rule.Remediation.Type_ ≠ "file_append" ∧
        rule.Remediation.Type_ ≠ "secedit" ∧ rule.Remediation.Type_ ≠ "manual") →
      (ApplyFix lib P insertOk rule w).1 =
        some (GoError.other ("unknown remediation type: " ++ rule.Remediation.Type_)) ∧
      (ApplyFix lib P insertOk rule w).2.trace =
        w.trace ++ Event.adapter (probeCall rule) ::
          (if insertOk then [Event.journal (fixRow lib P rule w)] else [])) := by
  have hpre := (ApplyFix_before_dispatch lib P insertOk rule w).2
  simp only [capturedPrev] at hpre
  refine ⟨?_, ?_⟩
  · rintro ⟨ht, hc⟩
    have hcall : remediationCall rule.Remediation
        = Except.error (GoError.other "manual action required") := by
      rcases hc with hc | hc <;> simp [remediationCall, ht, hc]
    simp only [ApplyFix, hcall, true_and]
    exact hpre
  · rintro ⟨h1, h2, h3, h4, h5, h6⟩
    have hcall : remediationCall rule.Remediation
        = Except.error (GoError.other ("unknown remediation type: " ++ rule.Remediation.Type_)) := by
      simp [remediationCall, h1, h2, h3, h4, h5, h6]
    simp only [ApplyFix, hcall, true_and]
    exact hpre

theorem ApplyFix_manual_and_unknown_witness :
    (manualRule.Remediation.Type_ = "manual" ∧
      (manualRule.Remediation.Cmd = "" ∨ manualRule.Remediation.Cmd = "echo")) ∧
    (ApplyFix literalLib okPlatform true manualRule emptyWorld).1
      = some (GoError.other "manual action required") ∧
    (ApplyFix literalLib okPlatform true manualRule emptyWorld).2.trace =
      emptyWorld.trace ++ Event.adapter (probeCall manualRule) ::
        (if true = true then [Event.journal (fixRow literalLib okPlatform manualRule emptyWorld)]
          else []) :=
  ⟨by decide,
   (ApplyFix_manual_and_unknown literalLib okPlatform true manualRule emptyWorld).1 (by decide)⟩

/-- C13 as stated fails: on a manual rule with the command `echo`, `ApplyFix`
returns "manual action required" after it has called the adapter, running the
check command of the rule to capture the previous value. -/
theorem ApplyFix_manual_counterexample :
    ¬ ((ApplyFix literalLib okPlatform true manualRule emptyWorld).1
          = some (GoError.other "manual action required") →
        ∀ call, Event.adapter call ∉
          (ApplyFix literalLib okPlatform true manualRule emptyWorld).2.trace) := by
  intro h
  exact h (by rfl)
    (AdapterCall.RunCommand "sysctl" ["-n", "kernel.randomize_va_space"] "") (by decide)

/-! ## Edit or append -/

/-- Once the text transformation of `EditConfigFile` has produced a text,
applying it again gives that same text exactly when the expression matches the
text and replacing every match in it by `replace_text` leaves it as it is. -/
theorem editText_twice (rx : RegexpLib) (text searchRegex replaceText once : String)
    (h1 : editText rx text searchRegex replaceText = some once) :
    editText rx once searchRegex replaceText = some once ↔
      (rx.MatchString ("(?m)" ++ searchRegex) once = true ∧
        rx.ReplaceAllString ("(?m)" ++ searchRegex) once replaceText = once) := by
  have hc : rx.compiles ("(?m)" ++ searchRegex) = true := by
    by_contra hc
    simp [editText, hc] at h1
  simp only [editText, hc, if_true]
  by_cases hm : rx.MatchString ("(?m)" ++ searchRegex) once = true
  · simp [hm]
  · simp only [hm, Bool.false_eq_true, if_false, false_and, iff_false]
    have hlen1 : (once ++ "\n" ++ replaceText ++ "\n").length ≠ once.length := by
      simp only [String.length_append]; have : ("\n" : String).length = 1 := rfl; omega
    have hlen2 : (once ++ replaceText ++ "\n").length ≠ once.length := by
      simp only [String.length_append]; have : ("\n" : String).length = 1 := rfl; omega
    split
    · intro h
      exact hlen1 (congrArg String.length (Option.some.inj h))
    · intro h
      exact hlen2 (congrArg String.length (Option.some.inj h))

/-- C17 as stated fails: the expression `PermitRootLogin` matches the
replacement `PermitRootLogin no`, yet on the text `PermitRootLogin yes` one
application gives `PermitRootLogin no yes` and two give
`PermitRootLogin no no yes`. -/
theorem editText_twice_counterexample :
    ¬ (literalRegexp.MatchString ("(?m)" ++ "PermitRootLogin") "PermitRootLogin no" = true →
        (editText literalRegexp "PermitRootLogin yes\n" "PermitRootLogin"
            "PermitRootLogin no").bind
          (fun once => editText literalRegexp once "PermitRootLogin" "PermitRootLogin no")
        = editText literalRegexp "PermitRootLogin yes\n" "PermitRootLogin"
            "PermitRootLogin no") := by
  decide

/-! ## Lines of a text -/

theorem linesOf_ne_nil (t : List Char) : linesOf t ≠ [] := by
  cases t with
  | nil => simp [linesOf]
  | cons c cs =>
    simp only [linesOf]
    split
    · simp
    · split <;> simp

theorem linesOf_cons_other (c : Char) (cs : List Char) (hc : c ≠ '\n') :
    ∃ l ls, linesOf cs = l :: ls ∧ linesOf (c :: cs) = (c :: l) :: ls := by
  cases h : linesOf cs with
  | nil => exact absurd h (linesOf_ne_nil cs)
  | cons l ls =>
    refine ⟨l, ls, rfl, ?_⟩
    simp only [linesOf, if_neg hc, h]

theorem linesOf_cons_feed (cs : List Char) : linesOf ('\n' :: cs) = [] :: linesOf cs := by
  simp [linesOf]

theorem linesOf_append_feed (a b : List Char) :
    linesOf (a ++ '\n' :: b) = linesOf a ++ linesOf b := by
  induction a with
  | nil => simp [linesOf]
  | cons c cs ih =>
    rw [List.cons_append]
    by_cases hc : c = '\n'
    · rw [hc, linesOf_cons_feed, linesOf_cons_feed, ih]
      rfl
    · obtain ⟨l, ls, h1, h2⟩ := linesOf_cons_other c cs hc
      obtain ⟨l2, ls2, h3, h4⟩ := linesOf_cons_other c (cs ++ '\n' :: b) hc
      rw [h4, h2]
      rw [ih, h1] at h3
      cases h3
      rfl

theorem linesOf_single (r : List Char) (h : '\n' ∉ r) : linesOf r = [r] := by
  induction r with
  | nil => rfl
  | cons c cs ih =>
    have hc : c ≠ '\n' := fun e => h (by rw [e]; exact List.mem_cons_self _ _)
    have hcs : '\n' ∉ cs := fun e => h (List.mem_cons_of_mem _ e)
    simp only [linesOf, if_neg hc, ih hcs]

theorem linesOf_free (t : List Char) : ∀ l ∈ linesOf t, '\n' ∉ l := by
  induction t with
  | nil => intro l hl; simp [linesOf] at hl; subst hl; simp
  | cons c cs ih =>
    intro l hl
    by_cases hc : c = '\n'
    · simp only [linesOf, if_pos hc, List.mem_cons] at hl
      rcases hl with rfl | hl
      · simp
      · exact ih l hl
    · obtain ⟨l0, ls, h1, h2⟩ := linesOf_cons_other c cs hc
      rw [h2] at hl
      rw [h1] at ih
      rcases List.mem_cons.1 hl with rfl | hl
      · intro hmem
        rcases List.mem_cons.1 hmem with e | e
        · exact hc e.symm
        · exact ih l0 (List.mem_cons_self _ _) e
      · exact ih l (List.mem_cons_of_mem _ hl)

theorem joinLines_cons_cons (c : Char) (l : List Char) (ls : List (List Char)) :
    joinLines ((c :: l) :: ls) = c :: joinLines (l :: ls) := by
  cases ls <;> simp [joinLines]

theorem joinLines_linesOf (t : List Char) : joinLines (linesOf t) = t := by
  induction t with
  | nil => rfl
  | cons c cs ih =>
    by_cases hc : c = '\n'
    · simp only [linesOf, if_pos hc]
      cases h : linesOf cs with
      | nil => exact absurd h (linesOf_ne_nil cs)
      | cons l ls =>
        rw [h] at ih
        simp only [joinLines, List.nil_append, ih, hc]
    · obtain ⟨l, ls, h1, h2⟩ := linesOf_cons_other c cs hc
      rw [h2, joinLines_cons_cons, ← h1, ih]

theorem linesOf_joinLines (ls : List (List Char)) (hne : ls ≠ [])
    (h : ∀ l ∈ ls, '\n' ∉ l) : linesOf (joinLines ls) = ls := by
  induction ls with
  | nil => exact absurd rfl hne
  | cons l rest ih =>
    cases rest with
    | nil => simpa [joinLines] using linesOf_single l (h l (List.mem_cons_self _ _))
    | cons l' rest' =>
      simp only [joinLines]
      rw [linesOf_append_feed, linesOf_single l (h l (List.mem_cons_self _ _)),
        ih (by simp) (fun x hx => h x (List.mem_cons_of_mem _ hx))]
      rfl

theorem textLines_free (t : String) : ∀ l ∈ textLines t, '\n' ∉ l.data := by
  intro l hl
  obtain ⟨x, hx, rfl⟩ := List.mem_map.1 hl
  exact linesOf_free t.data x hx

theorem joinText_textLines (t : String) : joinText (textLines t) = t := by
  have h : (String.data ∘ String.mk) = id := rfl
  simp only [textLines, joinText, List.map_map, h, List.map_id, joinLines_linesOf]

theorem textLines_joinText (ls : List String) (hne : ls ≠ [])
    (h : ∀ l ∈ ls, '\n' ∉ l.data) : textLines (joinText ls) = ls := by
  have hfree : ∀ l ∈ ls.map String.data, '\n' ∉ l := by
    intro l hl
    obtain ⟨x, hx, rfl⟩ := List.mem_map.1 hl
    exact h x hx
  have hne2 : ls.map String.data ≠ [] := by
    intro h0
    exact hne (List.map_eq_nil_iff.1 h0)
  have hid : (String.mk ∘ String.data) = id := rfl
  simp only [textLines, joinText, linesOf_joinLines _ hne2 hfree, List.map_map, hid, List.map_id]

theorem textLines_single (r : String) (h : '\n' ∉ r.data) : textLines r = [r] := by
  simp only [textLines, linesOf_single r.data h, List.map]

theorem map_replaceLine_fixed (m : String → Bool) (repl : String) (ls : List String)
    (hall : ∀ l ∈ ls, m l = true → l = repl) : ls.map (replaceLine m repl) = ls := by
  induction ls with
  | nil => rfl
  | cons l rest ih =>
    have hl : replaceLine m repl l = l := by
      unfold replaceLine
      by_cases hm : m l = true
      · rw [if_pos hm]; exact (hall l (List.mem_cons_self _ _) hm).symm
      · rw [if_neg hm]
    rw [List.map_cons, hl, ih (fun x hx => hall x (List.mem_cons_of_mem _ hx))]

/-- A text in which the expression matches a line, and every line it matches
is `replace_text`, is left as it is by the transformation. -/
theorem editText_stable (rx : RegexpLib) (once searchRegex replaceText : String)
    (m : String → Bool) (hc : rx.compiles ("(?m)" ++ searchRegex) = true)
    (hw : WholeLines rx ("(?m)" ++ searchRegex) replaceText m)
    (hex : ∃ l ∈ textLines once, m l = true)
    (hall : ∀ l ∈ textLines once, m l = true → l = replaceText) :
    editText rx once searchRegex replaceText = some once := by
  have hm : rx.MatchString ("(?m)" ++ searchRegex) once = true := by
    rw [hw.matchString, List.any_eq_true]
    exact hex
  have hr : rx.ReplaceAllString ("(?m)" ++ searchRegex) once replaceText = once := by
    rw [hw.replaceAll, map_replaceLine_fixed m replaceText _ hall, joinText_textLines]
  simp only [editText, hc, if_true, hm, hr]

theorem linesOf_appended (t r : List Char) (hr : '\n' ∉ r) :
    linesOf (t ++ '\n' :: (r ++ '\n' :: [])) = linesOf t ++ [r, []] := by
  rw [linesOf_append_feed, linesOf_append_feed, linesOf_single r hr]
  rfl

/-- The lines of the text the append branch writes: lines of the text it read,
then `replace_text`, then the empty line after the last line feed. -/
theorem textLines_appended (text replaceText : String) (hnl : '\n' ∉ replaceText.data) :
    ∃ P : List String, (∀ l ∈ P, l ∈ textLines text) ∧
      textLines (if text.length > 0 ∧ ¬ (("\n" : String).data.isSuffixOf text.data)
        then text ++ "\n" ++ replaceText ++ "\n" else text ++ replaceText ++ "\n")
      = P ++ [replaceText, ""] := by
  have hfeed : ("\n" : String).data = ['\n'] := rfl
  by_cases hsep : text.length > 0 ∧ ¬ (("\n" : String).data.isSuffixOf text.data)
  · rw [if_pos hsep]
    refine ⟨textLines text, fun l hl => hl, ?_⟩
    have hd : (text ++ "\n" ++ replaceText ++ "\n").data
        = text.data ++ '\n' :: (replaceText.data ++ '\n' :: []) := by
      simp [String.data_append, hfeed]
    simp only [textLines, hd, linesOf_appended _ _ hnl, List.map_append, List.map]
  · rw [if_neg hsep]
    by_cases hlen : text.length > 0
    · have hsuf : (("\n" : String).data.isSuffixOf text.data) = true := by
        by_contra h
        exact hsep ⟨hlen, h⟩
      rw [hfeed, List.isSuffixOf_iff_suffix] at hsuf
      obtain ⟨t0, ht0⟩ := hsuf
      refine ⟨(linesOf t0).map String.mk, ?_, ?_⟩
      · intro l hl
        simp only [textLines, ← ht0]
        have : linesOf (t0 ++ ['\n']) = linesOf t0 ++ linesOf [] := linesOf_append_feed t0 []
        rw [this, List.map_append]
        exact List.mem_append_left _ hl
      · have hd : (text ++ replaceText ++ "\n").data
            = t0 ++ '\n' :: (replaceText.data ++ '\n' :: []) := by
          simp [String.data_append, hfeed, ← ht0]
        simp only [textLines, hd, linesOf_appended _ _ hnl, List.map_append, List.map]
    · have hnil : text.data = [] := by
        have : text.data.length = 0 := by
          simp only [String.length] at hlen
          omega
        exact List.length_eq_zero.1 this
      refine ⟨[], by simp, ?_⟩
      have hd : (text ++ replaceText ++ "\n").data = replaceText.data ++ '\n' :: [] := by
        simp [String.data_append, hfeed, hnil]
      have hl : linesOf (replaceText.data ++ '\n' :: []) = [replaceText.data, []] := by
        rw [linesOf_append_feed, linesOf_single _ hnl]
        rfl
      simp only [textLines, hd, hl, List.map, List.nil_append]

/-- C17, as the code has it: when `search_regex` matches `replace_text`, a text
of one line, and matches whole lines that are not empty, as `^key.*` does under
the flag `(?m)`, the text transformation of `EditConfigFile` applied twice
yields what it yields applied once. -/
theorem editText_twice_whole_lines (rx : RegexpLib) (text searchRegex replaceText : String)
    (m : String → Bool) (hc : rx.compiles ("(?m)" ++ searchRegex) = true)
    (hw : WholeLines rx ("(?m)" ++ searchRegex) replaceText m)
    (hnl : '\n' ∉ replaceText.data)
    (hmatch : rx.MatchString ("(?m)" ++ searchRegex) replaceText = true) :
    ∃ once, editText rx text searchRegex replaceText = some once ∧
      editText rx once searchRegex replaceText = some once := by
  have hrepl : m replaceText = true := by
    rw [hw.matchString, textLines_single replaceText hnl] at hmatch
    simpa using hmatch
  by_cases hm : rx.MatchString ("(?m)" ++ searchRegex) text = true
  · refine ⟨rx.ReplaceAllString ("(?m)" ++ searchRegex) text replaceText, ?_, ?_⟩
    · simp only [editText, hc, if_true, hm]
    · have hlines : textLines (rx.ReplaceAllString ("(?m)" ++ searchRegex) text replaceText)
          = (textLines text).map (replaceLine m replaceText) := by
        rw [hw.replaceAll]
        apply textLines_joinText
        · intro h0
          have := List.map_eq_nil_iff.1 h0
          exact linesOf_ne_nil text.data (List.map_eq_nil_iff.1 this)
        · intro l hl
          obtain ⟨x, hx, rfl⟩ := List.mem_map.1 hl
          unfold replaceLine
          split
          · exact hnl
          · exact textLines_free text x hx
      apply editText_stable rx _ searchRegex replaceText m hc hw
      · rw [hw.matchString, List.any_eq_true] at hm
        obtain ⟨l, hl, hml⟩ := hm
        refine ⟨replaceText, ?_, hrepl⟩
        rw [hlines]
        exact List.mem_map.2 ⟨l, hl, by simp [replaceLine, hml]⟩
      · intro l hl hml
        rw [hlines] at hl
        obtain ⟨x, hx, rfl⟩ := List.mem_map.1 hl
        unfold replaceLine at hml ⊢
        by_cases hmx : m x = true
        · rw [if_pos hmx]
        · rw [if_neg hmx] at hml
          exact absurd hml hmx
  · obtain ⟨P, hP, hlines⟩ := textLines_appended text replaceText hnl
    have hnone : ∀ l ∈ textLines text, m l = false := by
      intro l hl
      rw [hw.matchString] at hm
      by_contra hml
      exact hm (List.any_eq_true.2 ⟨l, hl, by simpa using hml⟩)
    refine ⟨if text.length > 0 ∧ ¬ (("\n" : String).data.isSuffixOf text.data)
        then text ++ "\n" ++ replaceText ++ "\n" else text ++ replaceText ++ "\n", ?_,
      editText_stable rx _ searchRegex replaceText m hc hw ?_ ?_⟩
    · simp only [editText, hc, if_true, hm, Bool.false_eq_true, if_false]
      split <;> rfl
    · rw [hlines]
      exact ⟨replaceText, by simp, hrepl⟩
    · intro l hl hml
      rw [hlines] at hl
      rcases List.mem_append.1 hl with h | h
      · rw [hnone l (hP l h)] at hml
        cases hml
      · rcases List.mem_cons.1 h with h | h
        · exact h
        · have : l = "" := by simpa using h
          rw [this, hw.notEmpty] at hml
          cases hml

theorem editText_twice_whole_lines_witness :
    linePrefixRegexp.MatchString ("(?m)" ++ "^PermitRootLogin.*") "PermitRootLogin no" = true ∧
    editText linePrefixRegexp "Port 22\nPermitRootLogin yes\n" "^PermitRootLogin.*"
      "PermitRootLogin no" = some "Port 22\nPermitRootLogin no\n" ∧
    editText linePrefixRegexp "Port 22" "^PermitRootLogin.*" "PermitRootLogin no"
      = some "Port 22\nPermitRootLogin no\n" ∧
    ∃ once, editText linePrefixRegexp "Port 22\nPermitRootLogin yes\n" "^PermitRootLogin.*"
        "PermitRootLogin no" = some once ∧
      editText linePrefixRegexp once "^PermitRootLogin.*" "PermitRootLogin no" = some once :=
  ⟨by decide, by decide, by decide,
   editText_twice_whole_lines linePrefixRegexp "Port 22\nPermitRootLogin yes\n"
    "^PermitRootLogin.*" "PermitRootLogin no"
    (fun l => strings.HasPrefix l (lineKey ("(?m)" ++ "^PermitRootLogin.*"))) (by rfl)
    ⟨fun _ => rfl, fun _ => rfl, by decide⟩ (by decide) (by decide)⟩

/-! ## Registry comparison -/

theorem float64Spacing_small (m : Nat) (h : m < 2 ^ 53) : float64Spacing m = 1 := by
  have hr : List.range 11 = [0, 1, 2, 3, 4, 5, 6, 7, 8, 9, 10] := by decide
  have h1 : m < 2 ^ 53 * 1 := by omega
  simp only [float64Spacing, hr, List.foldl, h1, if_true]

theorem float64OfInt_exact (n : Nat) (h : n ≤ 2 ^ 53) : float64OfInt (n : Int) = (n : Int) := by
  rcases Nat.lt_or_ge n (2 ^ 53) with hlt | hge
  · have hs := float64Spacing_small n hlt
    have hneg : ¬ ((n : Int) < 0) := by omega
    simp only [float64OfInt, Int.natAbs_ofNat, hs, Nat.div_one, Nat.mod_one, hneg, if_false]
    simp
  · have : n = 2 ^ 53 := by omega
    subst this
    decide

theorem uint64OfFloat_nat (outOfRange : Rat → Nat) (n : Nat) (h : n < 2 ^ 64) :
    uint64OfFloat outOfRange (n : Rat) = n := by
  have h0 : (0 : Rat) ≤ (n : Rat) := Nat.cast_nonneg n
  have h1 : (n : Rat) < 2 ^ 64 := by exact_mod_cast h
  simp only [uint64OfFloat, h0, h1, and_self, if_true]
  simp

theorem hasPrefix_append (p s : String) : strings.HasPrefix (p ++ s) p = true := by
  simp [strings.HasPrefix, String.data_append]

theorem trimPrefix_append (p s : String) : strings.TrimPrefix (p ++ s) p = s := by
  simp [strings.TrimPrefix, hasPrefix_append, String.data_append]

theorem CheckRegistry_integer (outOfRange : Rat → Nat) (reg : Registry) (root : RootKey)
    (path valueName : String) (k : String → Option RegData) (v : Nat) (e : GoValue)
    (hkey : reg.openKey root path = some k)
    (hval : k valueName = some (RegData.DWORD v) ∨ k valueName = some (RegData.QWORD v)) :
    WindowsHardener.CheckRegistry outOfRange reg (root.selector ++ path) valueName e
      = (decide (v = uint64OfFloat outOfRange (expectedFloat e)), none) := by
  have hroot : (if strings.HasPrefix (root.selector ++ path) "HKLM\\" = true then
        some (RootKey.LOCAL_MACHINE, strings.TrimPrefix (root.selector ++ path) "HKLM\\")
      else if strings.HasPrefix (root.selector ++ path) "HKCU\\" = true then
        some (RootKey.CURRENT_USER, strings.TrimPrefix (root.selector ++ path) "HKCU\\")
      else none) = some (root, path) := by
    cases root with
    | LOCAL_MACHINE =>
      have h1 := hasPrefix_append "HKLM\\" path
      have h2 := trimPrefix_append "HKLM\\" path
      simp only [RootKey.selector, h1, h2, if_true]
    | CURRENT_USER =>
      have h0 : strings.HasPrefix ("HKCU\\" ++ path) "HKLM\\" = false := by
        simp [strings.HasPrefix, String.data_append, List.isPrefixOf]
      have h1 := hasPrefix_append "HKCU\\" path
      have h2 := trimPrefix_append "HKCU\\" path
      simp only [RootKey.selector, h0, h1, h2, Bool.false_eq_true, if_false, if_true]
  unfold WindowsHardener.CheckRegistry
  simp only [hroot, hkey]
  rcases hval with hv | hv <;> simp only [hv]

/-- C18, as the code has it: for a DWORD or QWORD registry value `v` and an
integer `n` from 0 to below 2 ^ 64 that float64 represents exactly
(`float64(n)` denotes `n`; a native `int` is below 2 ^ 63), `CheckRegistry`
gives the same answer for the native integer `n` and for the float64 `n`, and
the answer is `passed = true` exactly when `v = n`. -/
theorem CheckRegistry_int_or_float (outOfRange : Rat → Nat) (reg : Registry) (root : RootKey)
    (path valueName : String) (k : String → Option RegData) (v n : Nat)
    (hkey : reg.openKey root path = some k)
    (hval : k valueName = some (RegData.DWORD v) ∨ k valueName = some (RegData.QWORD v))
    (hlt : n < 2 ^ 64) (hrep : float64OfInt (n : Int) = (n : Int)) :
    WindowsHardener.CheckRegistry outOfRange reg (root.selector ++ path) valueName
        (GoValue.int n) = (decide (v = n), none) ∧
    WindowsHardener.CheckRegistry outOfRange reg (root.selector ++ path) valueName
        (GoValue.float n) = (decide (v = n), none) := by
  refine ⟨?_, ?_⟩
  · rw [CheckRegistry_integer outOfRange reg root path valueName k v _ hkey hval]
    simp only [expectedFloat, hrep]
    have : (((n : Int) : Rat)) = (n : Rat) := by simp
    simp only [this, uint64OfFloat_nat outOfRange n hlt]
  · rw [CheckRegistry_integer outOfRange reg root path valueName k v _ hkey hval]
    simp only [expectedFloat, uint64OfFloat_nat outOfRange n hlt]

theorem CheckRegistry_int_or_float_witness :
    (demoRegistry 1152921504606846976).openKey RootKey.LOCAL_MACHINE "SOFTWARE\\Policies\\Demo"
      = some (fun name =>
          if name = "Limit" then some (RegData.QWORD 1152921504606846976) else none) ∧
    (1152921504606846976 : Nat) = 2 ^ 60 ∧
    float64OfInt ((1152921504606846976 : Nat) : Int) = ((1152921504606846976 : Nat) : Int) ∧
    WindowsHardener.CheckRegistry (fun _ => 0) (demoRegistry 1152921504606846976)
        (RootKey.LOCAL_MACHINE.selector ++ "SOFTWARE\\Policies\\Demo") "Limit"
        (GoValue.int (1152921504606846976 : Nat))
      = (decide (1152921504606846976 = 1152921504606846976), none) ∧
    WindowsHardener.CheckRegistry (fun _ => 0) (demoRegistry 1152921504606846976)
        (RootKey.LOCAL_MACHINE.selector ++ "SOFTWARE\\Policies\\Demo") "Limit"
        (GoValue.float (1152921504606846976 : Nat))
      = (decide (1152921504606846976 = 1152921504606846976), none) :=
  ⟨by rfl, by decide, by decide,
   CheckRegistry_int_or_float (fun _ => 0) (demoRegistry 1152921504606846976)
    RootKey.LOCAL_MACHINE "SOFTWARE\\Policies\\Demo" "Limit" _ 1152921504606846976
    1152921504606846976 (by rfl) (Or.inr (by rfl)) (by decide) (by decide)⟩

/-- C18 as stated fails: the QWORD value 2 ^ 53 + 1 checked against the native
integer 2 ^ 53 + 1 does not pass, because `float64(eInt)` rounds the expected
value to 2 ^ 53. -/
theorem CheckRegistry_int_counterexample :
    ¬ ((WindowsHardener.CheckRegistry (fun _ => 0) (demoRegistry 9007199254740993)
          "HKLM\\SOFTWARE\\Policies\\Demo" "Limit" (GoValue.int 9007199254740993)).1 = true ↔
        (9007199254740993 : Nat) = 9007199254740993) := by
  have h : (WindowsHardener.CheckRegistry (fun _ => 0) (demoRegistry 9007199254740993)
      "HKLM\\SOFTWARE\\Policies\\Demo" "Limit" (GoValue.int 9007199254740993)).1 = false := by
    have := CheckRegistry_integer (fun _ => 0) (demoRegistry 9007199254740993)
      RootKey.LOCAL_MACHINE "SOFTWARE\\Policies\\Demo" "Limit" _ 9007199254740993
      (GoValue.int 9007199254740993) (by rfl) (Or.inr (by rfl))
    have hsel : RootKey.LOCAL_MACHINE.selector ++ "SOFTWARE\\Policies\\Demo"
        = "HKLM\\SOFTWARE\\Policies\\Demo" := by decide
    rw [hsel] at this
    rw [this]
    have hf : float64OfInt 9007199254740993 = 9007199254740992 := by decide
    simp only [expectedFloat, hf]
    have hu : uint64OfFloat (fun _ => 0) ((9007199254740992 : Int) : Rat) = 9007199254740992 := by
      have := uint64OfFloat_nat (fun _ => 0) 9007199254740992 (by decide)
      simpa using this
    rw [hu]
    decide
  rw [h]
  simp

/-! ## The reported value -/

theorem splitBytes_head (sep : Char) (l : List Char) :
    ∃ ps, splitBytes sep l = l.takeWhile (fun c => c ≠ sep) :: ps := by
  induction l with
  | nil => exact ⟨[], rfl⟩
  | cons c cs ih =>
    obtain ⟨ps, hps⟩ := ih
    by_cases h : c = sep
    · exact ⟨splitBytes sep cs, by simp [splitBytes, h, List.takeWhile]⟩
    · refine ⟨ps, ?_⟩
      simp only [splitBytes, h, if_false, hps]
      simp [List.takeWhile, h]

theorem split_head (s : String) : (strings.Split s '|').headD "" = beforePipe s := by
  obtain ⟨ps, hps⟩ := splitBytes_head '|' s.data
  simp only [strings.Split, beforePipe, hps, List.map_cons, List.headD_cons]

theorem rawCommand_cases (cmd : String) (args : List String) :
    (∀ inner rest, args = "-c" :: inner :: rest → strings.Contains inner "|" = true →
      rawCommand cmd args = ("bash", ["-c", strings.TrimSpace (beforePipe inner)])) ∧
    (¬ isPipedWrapper args → strings.Contains cmd "|" = true →
      rawCommand cmd args = (strings.TrimSpace (beforePipe cmd), args)) ∧
    (¬ isPipedWrapper args → strings.Contains cmd "|" = false →
      rawCommand cmd args = (cmd, args)) := by
  have hnot : ¬ isPipedWrapper args → rawCommand cmd args =
      ((if strings.Contains cmd "|" = true then
        strings.TrimSpace ((strings.Split cmd '|').headD "") else cmd), args) := by
    intro hw
    unfold rawCommand
    match args with
    | [] => rfl
    | [_] => rfl
    | a0 :: inner :: rest =>
      have : ¬ (a0 = "-c" ∧ strings.Contains inner "|" = true) := by
        rintro ⟨h1, h2⟩
        exact hw ⟨inner, rest, by rw [h1], h2⟩
      simp only [this, if_false]
  refine ⟨?_, ?_, ?_⟩
  · intro inner rest hargs hpipe
    subst hargs
    simp only [rawCommand, hpipe, and_self, if_true, split_head]
  · intro hw hpipe
    rw [hnot hw, if_pos hpipe, split_head]
  · intro hw hpipe
    rw [hnot hw]
    simp [hpipe]

/-- C20, as the code has it: the one call the Raw Value Resolver makes is
`RunCommand` in action mode; when the arguments are a `-c` wrapper whose inner
command has a pipe it runs `bash -c` on the trimmed text of the inner command
before the first "|", whatever `cmd` is; otherwise, when `cmd` has a pipe, it
runs the trimmed text of `cmd` before the first "|" with the arguments as they
are; otherwise it runs `cmd` with the arguments as they are. -/
theorem getRawSystemValue_runs_head {σ : Type} (lib : GoLib) (P : Platform σ) (cmd : String)
    (args : List String) (w : World σ) :
    (∀ inner rest, args = "-c" :: inner :: rest → strings.Contains inner "|" = true →
      (getRawSystemValueIn lib P cmd args w).2.trace = w.trace ++
        [Event.adapter
          (AdapterCall.RunCommand "bash" ["-c", strings.TrimSpace (beforePipe inner)] "")]) ∧
    (¬ isPipedWrapper args → strings.Contains cmd "|" = true →
      (getRawSystemValueIn lib P cmd args w).2.trace = w.trace ++
        [Event.adapter (AdapterCall.RunCommand (strings.TrimSpace (beforePipe cmd)) args "")]) ∧
    (¬ isPipedWrapper args → strings.Contains cmd "|" = false →
      (getRawSystemValueIn lib P cmd args w).2.trace = w.trace ++
        [Event.adapter (AdapterCall.RunCommand cmd args "")]) := by
  have h := rawCommand_cases cmd args
  refine ⟨?_, ?_, ?_⟩
  · intro inner rest hargs hpipe
    simp only [getRawSystemValueIn, invoke, h.1 inner rest hargs hpipe]
  · intro hw hpipe
    simp only [getRawSystemValueIn, invoke, h.2.1 hw hpipe]
  · intro hw hpipe
    simp only [getRawSystemValueIn, invoke, h.2.2 hw hpipe]

theorem getRawSystemValue_runs_head_witness :
    strings.Contains "sysctl kernel.randomize_va_space | grep 2" "|" = true ∧
    (getRawSystemValueIn literalLib okPlatform "sysctl kernel.randomize_va_space | grep 2" []
        emptyWorld).2.trace = emptyWorld.trace ++
      [Event.adapter (AdapterCall.RunCommand
        (strings.TrimSpace (beforePipe "sysctl kernel.randomize_va_space | grep 2")) [] "")] ∧
    strings.TrimSpace (beforePipe "sysctl kernel.randomize_va_space | grep 2")
      = "sysctl kernel.randomize_va_space" :=
  ⟨by decide,
   (getRawSystemValue_runs_head literalLib okPlatform "sysctl kernel.randomize_va_space | grep 2"
      [] emptyWorld).2.1 (by rintro ⟨_, _, h, _⟩; cases h) (by decide),
   by decide⟩

/-- C20 as stated fails: with a pipe in `cmd` and a `-c` wrapper with a pipe in
the arguments, the resolver does not run the head of `cmd` but `bash -c` on the
head of the inner command. -/
theorem getRawSystemValue_runs_head_counterexample :
    ¬ (strings.Contains "cat /etc/passwd | wc -l" "|" = true →
        (getRawSystemValueIn literalLib okPlatform "cat /etc/passwd | wc -l"
            ["-c", "ss -tln | wc -l"] emptyWorld).2.trace =
          emptyWorld.trace ++ [Event.adapter (AdapterCall.RunCommand
            (strings.TrimSpace (beforePipe "cat /etc/passwd | wc -l"))
            ["-c", "ss -tln | wc -l"] "")]) := by
  decide

/-! ## The labels of the resolver -/

/-- C21, as the code has it: when `cmd` contains "grep" or "find" and the
trimmed output of the call is empty, the resolver returns "Not Configured" if
the call did not succeed (`passed` false or an error), and "Empty / Not Set"
if it succeeded. -/
theorem getRawSystemValue_not_configured (lib : GoLib) (worker : Hardener) (cmd : String)
    (args : List String)
    (hcmd : strings.Contains cmd "grep" = true ∨ strings.Contains cmd "find" = true)
    (hout : strings.TrimSpace
      (worker.RunCommand (rawCommand cmd args).1 (rawCommand cmd args).2 "").2.1 = "") :
    (((worker.RunCommand (rawCommand cmd args).1 (rawCommand cmd args).2 "").1 = false ∨
        (worker.RunCommand (rawCommand cmd args).1 (rawCommand cmd args).2 "").2.2 ≠ none) →
      getRawSystemValue lib worker cmd args = "Not Configured") ∧
    (((worker.RunCommand (rawCommand cmd args).1 (rawCommand cmd args).2 "").1 = true ∧
        (worker.RunCommand (rawCommand cmd args).1 (rawCommand cmd args).2 "").2.2 = none) →
      getRawSystemValue lib worker cmd args = "Empty / Not Set") := by
  rw [getRawSystemValue_eq]
  refine ⟨?_, ?_⟩
  · intro hfail
    have h1 : (!(worker.RunCommand (rawCommand cmd args).1 (rawCommand cmd args).2 "").1) = true ∨
        (worker.RunCommand (rawCommand cmd args).1 (rawCommand cmd args).2 "").2.2 ≠ none := by
      rcases hfail with h | h
      · left; simp [h]
      · right; exact h
    simp only [rawValueOf, if_pos h1, hout, and_true, if_pos hcmd]
  · rintro ⟨hs, he⟩
    have h1 : ¬ ((!(worker.RunCommand (rawCommand cmd args).1 (rawCommand cmd args).2 "").1) = true ∨
        (worker.RunCommand (rawCommand cmd args).1 (rawCommand cmd args).2 "").2.2 ≠ none) := by
      simp [hs, he]
    simp only [rawValueOf, if_neg h1, hout, rawValueLabel, if_true]

theorem getRawSystemValue_not_configured_witness :
    (strings.Contains "grep" "grep" = true ∨ strings.Contains "grep" "find" = true) ∧
    strings.TrimSpace (missWorker.RunCommand (rawCommand "grep" ["^root", "/etc/shadow"]).1
      (rawCommand "grep" ["^root", "/etc/shadow"]).2 "").2.1 = "" ∧
    getRawSystemValue literalLib missWorker "grep" ["^root", "/etc/shadow"] = "Not Configured" :=
  ⟨by decide, by decide,
   (getRawSystemValue_not_configured literalLib missWorker "grep" ["^root", "/etc/shadow"]
      (by decide) (by decide)).1 (by decide)⟩

/-- C21 as stated fails: `find` that exits with status 0 and prints nothing
makes the resolver return "Empty / Not Set", not "Not Configured". -/
theorem getRawSystemValue_not_configured_counterexample :
    ¬ (strings.TrimSpace (quietWorker.RunCommand "find" ["/etc", "-name", "shadow-"] "").2.1 = "" →
        getRawSystemValue literalLib quietWorker "find" ["/etc", "-name", "shadow-"]
          = "Not Configured") := by
  decide

theorem toLower_fail (lib : GoLib) (hlib : LowersAscii lib) (s : String)
    (h : strings.Contains (strings.ToLower lib s) "fail" = false) :
    strings.Contains (foldAscii s) "fail" = false := by
  unfold strings.ToLower at h
  by_cases ha : s.data.all (fun c => decide (c.toNat < 0x80)) = true
  · rw [if_pos ha] at h
    exact h
  · rw [if_neg ha] at h
    by_contra hc
    have hc2 : strings.Contains (foldAscii s) "fail" = true := by
      cases hx : strings.Contains (foldAscii s) "fail" with
      | true => rfl
      | false => exact absurd hx hc
    have := hlib s "fail" (by decide) hc2
    rw [this] at h
    cases h

theorem rawValueLabel_spec (lib : GoLib) (hlib : LowersAscii lib) (output : String) :
    rawValueLabel lib output ≠ "" ∧
    strings.Contains (foldAscii (rawValueLabel lib output)) "fail" = false ∧
    (rawValueLabel lib output ∈ ["Not Configured", "Key Missing in Kernel", "Not Set",
        "Empty / Not Set", "Vulnerable Config"] ∨ rawValueLabel lib output = output) := by
  unfold rawValueLabel
  by_cases h0 : output = ""
  · rw [if_pos h0]
    exact ⟨by decide, by decide, Or.inl (by decide)⟩
  · rw [if_neg h0]
    by_cases hf : strings.Contains (strings.ToLower lib output) "fail" = true
    · rw [if_pos hf]
      exact ⟨by decide, by decide, Or.inl (by decide)⟩
    · rw [if_neg hf]
      refine ⟨h0, toLower_fail lib hlib output ?_, Or.inr rfl⟩
      cases hx : strings.Contains (strings.ToLower lib output) "fail" with
      | true => exact absurd hx hf
      | false => rfl

/-- C26: whatever the command, the arguments and the answer of the adapter, the
resolver returns a text that is not empty and in which "fail" does not occur
in any mix of capital and small letters: one of the five fixed labels, or the
trimmed output.  The Unicode branch of `strings.ToLower` is taken to make ASCII
capital letters small where they stand, as Go does. -/
theorem getRawSystemValue_label (lib : GoLib) (hlib : LowersAscii lib) (worker : Hardener)
    (cmd : String) (args : List String) :
    getRawSystemValue lib worker cmd args ≠ "" ∧
    strings.Contains (foldAscii (getRawSystemValue lib worker cmd args)) "fail" = false ∧
    (getRawSystemValue lib worker cmd args ∈ ["Not Configured", "Key Missing in Kernel",
        "Not Set", "Empty / Not Set", "Vulnerable Config"] ∨
      getRawSystemValue lib worker cmd args = strings.TrimSpace
        (worker.RunCommand (rawCommand cmd args).1 (rawCommand cmd args).2 "").2.1) := by
  rw [getRawSystemValue_eq]
  have hl := rawValueLabel_spec lib hlib (strings.TrimSpace
    (worker.RunCommand (rawCommand cmd args).1 (rawCommand cmd args).2 "").2.1)
  have hfix : ∀ v : String, v ∈ ["Not Configured", "Key Missing in Kernel", "Not Set"] →
      v ≠ "" ∧ strings.Contains (foldAscii v) "fail" = false ∧
      (v ∈ ["Not Configured", "Key Missing in Kernel", "Not Set", "Empty / Not Set",
          "Vulnerable Config"] ∨ v = strings.TrimSpace
        (worker.RunCommand (rawCommand cmd args).1 (rawCommand cmd args).2 "").2.1) := by
    intro v hv
    simp only [List.mem_cons, List.mem_singleton, List.not_mem_nil, or_false] at hv
    rcases hv with rfl | rfl | rfl
    · exact ⟨by decide, by decide, Or.inl (by decide)⟩
    · exact ⟨by decide, by decide, Or.inl (by decide)⟩
    · exact ⟨by decide, by decide, Or.inl (by decide)⟩
  unfold rawValueOf
  simp only
  split
  · split
    · exact hfix _ (by simp)
    · split
      · exact hfix _ (by simp)
      · split
        · split
          · exact hfix _ (by simp)
          · exact hl
        · exact hl
  · exact hl

theorem lowersAscii_asciiLowerLib : LowersAscii asciiLowerLib := fun _ _ _ h => h

theorem getRawSystemValue_label_witness :
    LowersAscii asciiLowerLib ∧
    getRawSystemValue asciiLowerLib passingWorker "sysctl" ["-n", "kernel.randomize_va_space"]
      ≠ "" ∧
    strings.Contains (foldAscii (getRawSystemValue asciiLowerLib passingWorker "sysctl"
      ["-n", "kernel.randomize_va_space"])) "fail" = false ∧
    (getRawSystemValue asciiLowerLib passingWorker "sysctl" ["-n", "kernel.randomize_va_space"]
        ∈ ["Not Configured", "Key Missing in Kernel", "Not Set", "Empty / Not Set",
          "Vulnerable Config"] ∨
      getRawSystemValue asciiLowerLib passingWorker "sysctl" ["-n", "kernel.randomize_va_space"]
        = strings.TrimSpace (passingWorker.RunCommand
          (rawCommand "sysctl" ["-n", "kernel.randomize_va_space"]).1
          (rawCommand "sysctl" ["-n", "kernel.randomize_va_space"]).2 "").2.1) :=
  ⟨lowersAscii_asciiLowerLib,
   getRawSystemValue_label asciiLowerLib lowersAscii_asciiLowerLib passingWorker "sysctl"
    ["-n", "kernel.randomize_va_space"]⟩

/-! ## The new value and the journal -/

theorem ApplyFix_journal {σ : Type} (lib : GoLib) (P : Platform σ) (insertOk : Bool)
    (rule : Rule) (w : World σ) :
    (ApplyFix lib P insertOk rule w).2.journal
      = w.journal ++ (if insertOk then [fixRow lib P rule w] else []) := by
  have hpre := (ApplyFix_before_dispatch lib P insertOk rule w).1
  simp only [capturedPrev] at hpre
  simp only [ApplyFix]
  split
  · exact hpre
  · split
    · simp only [invoke]; exact hpre
    · simp only [invoke]; exact hpre

/-- C22: when `replace_text` is not empty the new value `ApplyFix` journals is
`replace_text` without leading and trailing white space, whatever the
arguments and the type of the remediation. -/
theorem ApplyFix_new_value_replace_text {σ : Type} (lib : GoLib) (P : Platform σ)
    (rule : Rule) (w : World σ) (hrt : rule.Remediation.ReplaceText ≠ "") :
    newValueLabel rule.Remediation = strings.TrimSpace rule.Remediation.ReplaceText ∧
    (ApplyFix lib P true rule w).2.journal = w.journal ++
      [{ rule_id := rule.ID, rule_name := rule.Name, prev_value := capturedPrev lib P rule w,
         new_value := strings.TrimSpace rule.Remediation.ReplaceText }] := by
  have h : newValueLabel rule.Remediation = strings.TrimSpace rule.Remediation.ReplaceText := by
    simp only [newValueLabel, if_pos hrt]
  refine ⟨h, ?_⟩
  rw [ApplyFix_journal]
  simp only [if_true, fixRow, h]

theorem ApplyFix_new_value_replace_text_witness :
    kernelRule.Remediation.ReplaceText ≠ "" ∧
    newValueLabel kernelRule.Remediation = strings.TrimSpace kernelRule.Remediation.ReplaceText ∧
    (ApplyFix literalLib okPlatform true kernelRule emptyWorld).2.journal = emptyWorld.journal ++
      [{ rule_id := kernelRule.ID, rule_name := kernelRule.Name,
         prev_value := capturedPrev literalLib okPlatform kernelRule emptyWorld,
         new_value := strings.TrimSpace kernelRule.Remediation.ReplaceText }] :=
  ⟨by decide,
   ApplyFix_new_value_replace_text literalLib okPlatform kernelRule emptyWorld (by decide)⟩

theorem containsBytes_singleton (c : Char) (l : List Char) :
    containsBytes [c] l = true ↔ c ∈ l := by
  induction l with
  | nil => simp [containsBytes]
  | cons d ds ih =>
    simp only [containsBytes, Bool.or_eq_true, ih, List.mem_cons]
    constructor
    · rintro (h | h)
      · left
        simp [List.isPrefixOf] at h
        exact h
      · right; exact h
    · rintro (h | h)
      · left; simp [List.isPrefixOf, h]
      · right; exact h

theorem fieldsAux_mem (fuel : Nat) (s cur : List Char) (f : List Char)
    (hf : f ∈ fieldsAux fuel s cur) : ∀ c ∈ f, c ∈ cur ∨ c ∈ s := by
  induction fuel generalizing s cur f with
  | zero =>
    intro c hc
    simp only [fieldsAux] at hf
    split at hf
    · simp at hf
    · simp only [List.mem_singleton] at hf
      subst hf
      left; simpa using hc
  | succ fuel ih =>
    intro c hc
    cases s with
    | nil =>
      simp only [fieldsAux] at hf
      split at hf
      · simp at hf
      · simp only [List.mem_singleton] at hf
        subst hf
        left; simpa using hc
    | cons d ds =>
      simp only [fieldsAux] at hf
      split at hf
      · rcases ih ds (d :: cur) f hf c hc with h | h
        · rcases List.mem_cons.1 h with h | h
          · right; rw [h]; exact List.mem_cons_self _ _
          · left; exact h
        · right; exact List.mem_cons_of_mem _ h
      · have hdrop : ∀ x ∈ fieldsAux fuel ((d :: ds).drop (leadingSpaceWidth (d :: ds))) [],
            ∀ c ∈ x, c ∈ d :: ds := by
          intro x hx c hc
          rcases ih _ [] x hx c hc with h | h
          · simp at h
          · exact List.mem_of_mem_drop h
        split at hf
        · right; exact hdrop f hf c hc
        · rcases List.mem_cons.1 hf with h | h
          · left; subst h; simpa using hc
          · right; exact hdrop f h c hc

theorem fields_contains_eq (s p : String) (hp : p ∈ strings.Fields s)
    (hc : strings.Contains p "=" = true) : strings.Contains s "=" = true := by
  unfold strings.Fields at hp
  obtain ⟨f, hf, rfl⟩ := List.mem_map.1 hp
  have h1 : '=' ∈ f := (containsBytes_singleton '=' f).1 hc
  have h2 := fieldsAux_mem _ _ _ f hf '=' h1
  simp only [List.not_mem_nil, false_or] at h2
  exact (containsBytes_singleton '=' s.data).2 h2

theorem find_first {α : Type} (f : α → Bool) (pre post : List α) (p : α)
    (hp : f p = true) (hpre : ∀ q ∈ pre, f q = false) :
    (pre ++ p :: post).find? f = some p := by
  induction pre with
  | nil => simp [List.find?, hp]
  | cons q qs ih =>
    have hq := hpre q (List.mem_cons_self _ _)
    simp only [List.cons_append, List.find?, hq]
    exact ih (fun x hx => hpre x (List.mem_cons_of_mem _ hx))

theorem mem_of_dropWhile_ne_nil (l : List Char)
    (h : l.dropWhile (fun c => c != '=') ≠ []) : '=' ∈ l := by
  induction l with
  | nil => exact absurd rfl h
  | cons c cs ih =>
    by_cases hc : c = '='
    · rw [hc]; exact List.mem_cons_self _ _
    · have hne : (c != '=') = true := by simpa using hc
      simp only [List.dropWhile_cons, hne, if_true] at h
      exact List.mem_cons_of_mem _ (ih h)

theorem isKeyValue_contains (p : String) (h : isKeyValue p = true) :
    strings.Contains p "=" = true := by
  simp only [isKeyValue, Bool.and_eq_true, decide_eq_true_eq] at h
  have hne : p.data.dropWhile (fun c => c != '=') ≠ [] := by
    intro h0
    rw [h0] at h
    simp at h
  exact (containsBytes_singleton '=' p.data).2 (mem_of_dropWhile_ne_nil p.data hne)

/-- C23, as the code has it: when `replace_text` is empty and the arguments
joined by spaces contain "=" and no "==", the new value `ApplyFix` journals is
the first token that contains "=" and does not start with "-", and "Applied
Fix" when no token does.  It is the first token that is a `key=value`
assignment provided every token up to and including that one that contains "="
is a `key=value` assignment and does not start with "-". -/
theorem ApplyFix_new_value_assignment {σ : Type} (lib : GoLib) (P : Platform σ)
    (rule : Rule) (w : World σ)
    (hrt : rule.Remediation.ReplaceText = "")
    (heq : strings.Contains (strings.Join rule.Remediation.Args " ") "=" = true)
    (hno : strings.Contains (strings.Join rule.Remediation.Args " ") "==" = false) :
    newValueLabel rule.Remediation =
      ((strings.Fields (strings.Join rule.Remediation.Args " ")).find? isAssignment).getD
        "Applied Fix" ∧
    (ApplyFix lib P true rule w).2.journal = w.journal ++
      [{ rule_id := rule.ID, rule_name := rule.Name, prev_value := capturedPrev lib P rule w,
         new_value :=
          ((strings.Fields (strings.Join rule.Remediation.Args " ")).find? isAssignment).getD
            "Applied Fix" }] ∧
    (∀ (pre post : List String) (p : String),
      strings.Fields (strings.Join rule.Remediation.Args " ") = pre ++ p :: post →
      isKeyValue p = true → (∀ q ∈ pre, isKeyValue q = false) →
      (∀ q ∈ pre ++ [p], strings.Contains q "=" = true →
        isKeyValue q = true ∧ strings.HasPrefix q "-" = false) →
      newValueLabel rule.Remediation = p) := by
  have hargs : rule.Remediation.Args.length > 0 := by
    cases hA : rule.Remediation.Args with
    | nil =>
      rw [hA] at heq
      revert heq
      decide
    | cons a as => simp
  have h : newValueLabel rule.Remediation =
      ((strings.Fields (strings.Join rule.Remediation.Args " ")).find? isAssignment).getD
        "Applied Fix" := by
    have hrt2 : ¬ rule.Remediation.ReplaceText ≠ "" := fun h => h hrt
    have hfun : (fun p => strings.Contains p "=" && !strings.HasPrefix p "-") = isAssignment := rfl
    simp only [newValueLabel, if_neg hrt2, if_pos hargs, heq, hno, Bool.false_eq_true,
      not_false_eq_true, and_self, if_true, hfun]
    cases (strings.Fields (strings.Join rule.Remediation.Args " ")).find? isAssignment <;> rfl
  refine ⟨h, ?_, ?_⟩
  · rw [ApplyFix_journal]
    simp only [if_true, fixRow, h]
  · intro pre post p hfields hp hpre hwf
    have hpa : isAssignment p = true := by
      have hc := isKeyValue_contains p hp
      have hd := (hwf p (by simp) hc).2
      simp [isAssignment, hc, hd]
    have hprea : ∀ q ∈ pre, isAssignment q = false := by
      intro q hq
      cases hc : strings.Contains q "=" with
      | false => simp [isAssignment, hc]
      | true =>
        have h1 := (hwf q (List.mem_append_left _ hq) hc).1
        rw [hpre q hq] at h1
        cases h1
    rw [h, hfields, find_first _ pre post p hpa hprea]
    rfl

theorem ApplyFix_new_value_assignment_witness :
    sysctlAction.ReplaceText = "" ∧
    strings.Contains (strings.Join sysctlAction.Args " ") "=" = true ∧
    strings.Contains (strings.Join sysctlAction.Args " ") "==" = false ∧
    strings.Fields (strings.Join sysctlAction.Args " ")
      = ["-w"] ++ "kernel.randomize_va_space=2" :: [] ∧
    isKeyValue "kernel.randomize_va_space=2" = true ∧
    newValueLabel sysctlAction = "kernel.randomize_va_space=2" :=
  ⟨by decide, by decide, by decide, by decide, by decide,
   (ApplyFix_new_value_assignment literalLib okPlatform { ID := "K", Remediation := sysctlAction }
      emptyWorld (by decide) (by decide) (by decide)).2.2 ["-w"] []
      "kernel.randomize_va_space=2" (by decide) (by decide) (by decide) (by decide)⟩

/-- C23 as stated fails.  With the arguments `=` and `k=v` the first token that
is a `key=value` assignment is `k=v`, yet the new value journalled is `=`; and
with the one argument `--kernel.randomize_va_space=2`, a `key=value`
assignment, the new value journalled is "Applied Fix". -/
theorem ApplyFix_new_value_assignment_counterexample :
    ¬ (spacedAction.ReplaceText = "" →
        strings.Contains (strings.Join spacedAction.Args " ") "==" = false →
        (strings.Fields (strings.Join spacedAction.Args " ")).find? isKeyValue = some "k=v" →
        newValueLabel spacedAction = "k=v") ∧
    ¬ (optionAction.ReplaceText = "" →
        strings.Contains (strings.Join optionAction.Args " ") "==" = false →
        (strings.Fields (strings.Join optionAction.Args " ")).find? isKeyValue
          = some "--kernel.randomize_va_space=2" →
        newValueLabel optionAction = "--kernel.randomize_va_space=2") := by
  decide

/-- C25: for a profile that is none of "strict", "moderate" and "basic" the
severity filter of the handlers keeps no rule, and the audit of the filtered
policy yields no result. -/
theorem filterRules_other_profile (lib : GoLib) (worker : Hardener)
    (secManager : SecEditManager) (timedOut : Rule → Bool) (profile : String) (pol : Policy)
    (h1 : profile ≠ "strict") (h2 : profile ≠ "moderate") (h3 : profile ≠ "basic") :
    filterRules profile pol.Rules = [] ∧
    scanAudit lib worker secManager [] timedOut profile pol = some [] := by
  have hf : filterRules profile pol.Rules = [] := by
    rw [filterRules_eq_filter]
    simp [profileAdmits, h1, h2, h3]
  refine ⟨hf, ?_⟩
  simp only [scanAudit, hf]
  rfl

theorem filterRules_other_profile_witness :
    ("Strict" : String) ≠ "strict" ∧ ("" : String) ≠ "strict" ∧
    filterRules "Strict" severityRules = [] ∧
    scanAudit literalLib passingWorker failingSecEdit [] (fun _ => false) "Strict"
      { Version := "1", Rules := severityRules } = some [] ∧
    filterRules "" severityRules = [] :=
  ⟨by decide, by decide,
   (filterRules_other_profile literalLib passingWorker failingSecEdit (fun _ => false) "Strict"
      { Version := "1", Rules := severityRules } (by decide) (by decide) (by decide)).1,
   (filterRules_other_profile literalLib passingWorker failingSecEdit (fun _ => false) "Strict"
      { Version := "1", Rules := severityRules } (by decide) (by decide) (by decide)).2,
   (filterRules_other_profile literalLib passingWorker failingSecEdit (fun _ => false) ""
      { Version := "1", Rules := severityRules } (by decide) (by decide) (by decide)).1⟩

/-! ## An expected value that is no number -/

theorem CheckRegistry_nonnumeric_expected (outOfRange : Rat → Nat) (reg : Registry)
    (root : RootKey) (path valueName : String) (k : String → Option RegData) (v : Nat)
    (e : GoValue) (hkey : reg.openKey root path = some k)
    (hval : k valueName = some (RegData.DWORD v) ∨ k valueName = some (RegData.QWORD v))
    (he : e = GoValue.null ∨ ∃ s, e = GoValue.str s) :
    WindowsHardener.CheckRegistry outOfRange reg (root.selector ++ path) valueName e
      = (decide (v = 0), none) := by
  rw [CheckRegistry_integer outOfRange reg root path valueName k v e hkey hval]
  have h0 : expectedFloat e = ((0 : Nat) : Rat) := by
    rcases he with rfl | ⟨s, rfl⟩ <;> simp [expectedFloat]
  simp only [h0, uint64OfFloat_nat outOfRange 0 (by decide)]

/-- C28 at the failing input: against the integer registry value 0, an expected
value that is a string passes, and so does an absent one. -/
theorem CheckRegistry_string_passes_zero :
    WindowsHardener.CheckRegistry (fun _ => 0) (demoRegistry 0)
      (RootKey.LOCAL_MACHINE.selector ++ "SOFTWARE\\Policies\\Demo") "Limit"
      (GoValue.str "Enabled") = (true, none) ∧
    WindowsHardener.CheckRegistry (fun _ => 0) (demoRegistry 0)
      (RootKey.LOCAL_MACHINE.selector ++ "SOFTWARE\\Policies\\Demo") "Limit"
      GoValue.null = (true, none) :=
  ⟨CheckRegistry_nonnumeric_expected (fun _ => 0) (demoRegistry 0) RootKey.LOCAL_MACHINE
      "SOFTWARE\\Policies\\Demo" "Limit" _ 0 _ (by rfl) (Or.inr (by rfl)) (Or.inr ⟨_, rfl⟩),
   CheckRegistry_nonnumeric_expected (fun _ => 0) (demoRegistry 0) RootKey.LOCAL_MACHINE
      "SOFTWARE\\Policies\\Demo" "Limit" _ 0 _ (by rfl) (Or.inr (by rfl)) (Or.inl rfl)⟩

/-! ## Layers as antichains -/

theorem KahnInv.reach_down {uniq : List Rule} {Ls : List (List String)} {Q : List String}
    {deg : String → Int} (inv : KahnInv uniq Ls Q deg) (i k : Nat) :
    ∀ y, InLayer Ls (i + k + 1) y →
      ∃ x, InLayer Ls i x ∧ Relation.TransGen (DependsEdge uniq) x y := by
  induction k with
  | zero =>
    intro y hy
    obtain ⟨d, hd, hin⟩ := (inv.layer_ok _ y hy).2 (by omega)
    exact ⟨d, by simpa using hin, Relation.TransGen.single ((mem_depsOf uniq d y).1 hd)⟩
  | succ k ih =>
    intro y hy
    obtain ⟨d, hd, hin⟩ := (inv.layer_ok _ y hy).2 (by omega)
    have hin2 : InLayer Ls (i + k + 1) d := by
      have : i + (k + 1) + 1 - 1 = i + k + 1 := by omega
      rw [this] at hin; exact hin
    obtain ⟨x, hx, hpath⟩ := ih d hin2
    exact ⟨x, hx, Relation.TransGen.tail hpath ((mem_depsOf uniq d y).1 hd)⟩

/-- C24, as the code has it: on success no two rules of a layer are connected by
a dependency path, and every rule of a later layer is reached by a dependency
path from some rule of the layer. -/
theorem SortRules_layer_antichain (mapOrder : List String) (rules : List Rule)
    (hord : mapOrder.Perm (ruleIDs (uniqueRules rules))) (layers : List (List Rule))
    (hok : SortRules mapOrder rules = some (Except.ok layers)) :
    (∀ (i : Nat) (L : List Rule) (a b : Rule), layers[i]? = some L → a ∈ L → b ∈ L →
      ¬ Relation.TransGen (DependsEdge (uniqueRules rules)) a.ID b.ID) ∧
    (∀ (i j : Nat) (La Lb : List Rule) (b : Rule),
      layers[i]? = some La → layers[j]? = some Lb → i < j → b ∈ Lb →
      ∃ a ∈ La, Relation.TransGen (DependsEdge (uniqueRules rules)) a.ID b.ID) := by
  obtain ⟨Ls, deg, inv, hlen, rfl⟩ := SortRules_ok_inv mapOrder rules hord layers hok
  have hnd := uniqueRules_nodup rules
  have hsub : ∀ x ∈ Ls.flatten, x ∈ ruleIDs (uniqueRules rules) :=
    fun x hx => inv.sub x (List.mem_append_left _ hx)
  have hflat : Ls.flatten.Nodup := (List.nodup_append.1 inv.nodup).1
  refine ⟨?_, ?_⟩
  · intro i L a b hL ha hb hpath
    obtain ⟨_, hai⟩ := layers_inLayer _ hnd Ls hsub i L a hL ha
    obtain ⟨_, hbi⟩ := layers_inLayer _ hnd Ls hsub i L b hL hb
    obtain ⟨j, hj, haj⟩ := inv.path_lt a.ID b.ID hpath i hbi
    have := inLayer_unique Ls hflat i j a.ID hai haj
    omega
  · intro i j La Lb b hLa hLb hij hb
    obtain ⟨_, hbj⟩ := layers_inLayer _ hnd Ls hsub j Lb b hLb hb
    have hj : j = i + (j - i - 1) + 1 := by omega
    rw [hj] at hbj
    obtain ⟨x, hxi, hpath⟩ := inv.reach_down i (j - i - 1) b.ID hbj
    obtain ⟨M, hM, q, hq, hid⟩ := inLayer_layers _ hnd Ls hsub i x hxi
    rw [hLa] at hM
    cases hM
    exact ⟨q, hq, by rw [hid]; exact hpath⟩

theorem SortRules_layer_antichain_witness :
    SortRules ["D", "C", "B", "A"] diamondRules
        = some (Except.ok [[ruleA], [ruleB, ruleC], [ruleD]]) ∧
    ¬ Relation.TransGen (DependsEdge (uniqueRules diamondRules)) ruleB.ID ruleC.ID ∧
    ∃ a ∈ [ruleA], Relation.TransGen (DependsEdge (uniqueRules diamondRules)) a.ID ruleD.ID :=
  ⟨by rfl,
   (SortRules_layer_antichain ["D", "C", "B", "A"] diamondRules (by decide)
      [[ruleA], [ruleB, ruleC], [ruleD]] (by rfl)).1 1 [ruleB, ruleC] ruleB ruleC (by rfl)
      (by simp) (by simp),
   (SortRules_layer_antichain ["D", "C", "B", "A"] diamondRules (by decide)
      [[ruleA], [ruleB, ruleC], [ruleD]] (by rfl)).2 0 2 [ruleA] [ruleD] ruleD (by rfl) (by rfl)
      (by decide) (by simp)⟩

theorem no_path_from (uniq : List Rule) (a b : String)
    (h : ∀ r ∈ uniq, a ∉ r.DependsOn) : ¬ Relation.TransGen (DependsEdge uniq) a b := by
  intro hpath
  have : ∃ c, DependsEdge uniq a c := by
    induction hpath with
    | single e => exact ⟨_, e⟩
    | tail _ _ ih => exact ih
  obtain ⟨c, r, hr, _, ha, _⟩ := this
  exact h r hr ha

theorem no_path_to (uniq : List Rule) (a b : String)
    (h : ∀ r ∈ uniq, r.ID = b → r.DependsOn = []) :
    ¬ Relation.TransGen (DependsEdge uniq) a b := by
  intro hpath
  have : ∃ c, DependsEdge uniq c b := by
    cases hpath with
    | single e => exact ⟨_, e⟩
    | tail _ e => exact ⟨_, e⟩
  obtain ⟨c, r, hr, hid, hc, _⟩ := this
  rw [h r hr hid] at hc
  simp at hc

/-- C24 as stated fails: for `A`, `B` and `C` that depends on `A` the layers are
`[A, B]` and `[C]`; the rule `B` is outside the second layer and no dependency
path connects it to `C`, so the second layer is not a maximal antichain. -/
theorem SortRules_layer_antichain_counterexample :
    SortRules ["A", "B", "C"] forkRules = some (Except.ok [[ruleA, loneRuleB], [ruleC]]) ∧
    ¬ ∃ r ∈ [ruleC],
      Relation.TransGen (DependsEdge (uniqueRules forkRules)) loneRuleB.ID r.ID ∨
      Relation.TransGen (DependsEdge (uniqueRules forkRules)) r.ID loneRuleB.ID := by
  refine ⟨by rfl, ?_⟩
  rintro ⟨r, hr, h | h⟩
  · exact no_path_from (uniqueRules forkRules) loneRuleB.ID r.ID (by decide) h
  · exact no_path_to (uniqueRules forkRules) r.ID loneRuleB.ID (by decide) h

end SentinelX
